import Mathlib

/-!
# PPU static binary translator: control-flow analysis

A shallow embedding of `nucleus/cpu/ppu/ppu_decoder.cpp` (block, function and
segment analysis) together with the properties proved about it.

Guest addresses and sizes are `u32` in the source; they are natural numbers
here and every arithmetic operation of the source is reduced modulo `2^32`
explicitly (`add32`, `sub32`, `u32`).

The instruction decoder (`ppu_instruction.h`), the opcode table
(`ppu_tables.h`) and the register analyzer (`ppu_analyzer.h`) are not part of
the translated sources: they are parameters of the model (`Decoder`,
`Memory`, `AnalyzerTable`).
-/

namespace cpu.ppu

/-! ## Machine arithmetic -/

/-- Truncation to an unsigned 32-bit value. -/
def u32 (n : Nat) : Nat := n % 4294967296

/-- Unsigned 32-bit addition. -/
def add32 (a b : Nat) : Nat := (a + b) % 4294967296

/-- Unsigned 32-bit subtraction (wraps below zero). -/
def sub32 (a b : Nat) : Nat := (a + (4294967296 - b % 4294967296)) % 4294967296

/-! ## Collaborators taken as parameters -/

/-- The predicates of `Instruction` used by the analysis, as functions of the
32-bit instruction word (and of the current address for `get_target`). -/
structure Decoder where
  is_valid : Nat → Bool
  is_branch : Nat → Bool
  is_branch_conditional : Nat → Bool
  is_branch_unconditional : Nat → Bool
  is_call : Nat → Bool
  is_return : Nat → Bool
  get_target : Nat → Nat → Nat

/-- Guest memory: `nucleus.memory.read32`. -/
structure Memory where
  read32 : Nat → Nat

/-- Register-usage status (`Analyzer`): one mask per register. -/
structure Analyzer where
  gpr : Nat → Nat
  fpr : Nat → Nat
  vr : Nat → Nat

/-- The analyzer side of the opcode table: `run code status` is the effect of
`(status.*get_entry(code).analyzer)(code)`; `init` is a freshly constructed
status; `REG_READ_ORIG` and `REG_WRITE` are the two flag masks. -/
structure AnalyzerTable where
  init : Analyzer
  run : Nat → Analyzer → Analyzer
  REG_READ_ORIG : Nat
  REG_WRITE : Nat

/-! ## Ordered maps (`std::map<u32, T>`) and sets (`std::set<u32>`) -/

/-- Assignment `m[k] = v` on a map kept in ascending key order. -/
def mapAssign {α : Type} : List (Nat × α) → Nat → α → List (Nat × α)
  | [], k, v => [(k, v)]
  | (k', v') :: rest, k, v =>
    if k < k' then (k, v) :: (k', v') :: rest
    else if k = k' then (k, v) :: rest
    else (k', v') :: mapAssign rest k v

/-- Lookup `m.find(k)`. -/
def mapFind {α : Type} : List (Nat × α) → Nat → Option α
  | [], _ => none
  | (k', v') :: rest, k => if k = k' then some v' else mapFind rest k

/-- Read access `m[k]`: the stored value, or a value-initialised one that is
inserted when the key is missing. Returns the value and the map afterwards. -/
def mapIndex {α : Type} (dflt : α) (m : List (Nat × α)) (k : Nat) : α × List (Nat × α) :=
  match mapFind m k with
  | some v => (v, m)
  | none => (dflt, mapAssign m k dflt)

/-- Insertion `s.insert(x)` on a set kept in ascending order. -/
def setInsert : List Nat → Nat → List Nat
  | [], x => [x]
  | y :: rest, x =>
    if x < y then x :: y :: rest
    else if x = y then y :: rest
    else y :: setInsert rest x

/-! ## Blocks -/

/-- A basic block. Only the fields used by the analysis are kept (the IR handle
and the lowering flags are not read or written by it). -/
structure Block where
  address : Nat
  size : Nat
  branch_a : Nat
  branch_b : Nat
deriving DecidableEq, Repr

/-- A value-initialised block (`Block block_b{}`, or a fresh `blocks[k]`). -/
def Block.zero : Block := { address := 0, size := 0, branch_a := 0, branch_b := 0 }

/-- The method `Block::contains`. -/
def Block.contains (b : Block) (addr : Nat) : Bool :=
  let frm := b.address
  let upto := add32 b.address b.size
  decide (frm ≤ addr) && decide (addr < upto)

/-! ## Segments and functions -/

inductive FunctionTypeIn where
  | FUNCTION_IN_INTEGER
  | FUNCTION_IN_FLOAT
  | FUNCTION_IN_VECTOR
deriving DecidableEq, Repr

inductive FunctionTypeOut where
  | FUNCTION_OUT_VOID
  | FUNCTION_OUT_INTEGER
  | FUNCTION_OUT_FLOAT
  | FUNCTION_OUT_FLOAT_X2
  | FUNCTION_OUT_FLOAT_X3
  | FUNCTION_OUT_FLOAT_X4
  | FUNCTION_OUT_VECTOR
deriving DecidableEq, Repr

open FunctionTypeIn FunctionTypeOut

/-- The analysed part of a `Function`. -/
structure Function where
  address : Nat
  blocks : List (Nat × Block)
  type_in : List FunctionTypeIn
  type_out : FunctionTypeOut
deriving DecidableEq, Repr

/-- The code region of a `Segment` (its function map is the result of
`Segment.analyze`). -/
structure Segment where
  address : Nat
  size : Nat
deriving DecidableEq, Repr

/-- The method `Segment::contains`. -/
def Segment.contains (s : Segment) (addr : Nat) : Bool :=
  let frm := s.address
  let upto := add32 s.address s.size
  decide (frm ≤ addr) && decide (addr < upto)

/-- Outcome of a loop run with a step budget. -/
inductive Run (α : Type) where
  | timeout : Run α
  | reject : Run α
  | done : α → Run α
deriving DecidableEq, Repr

/-! ## `Function::analyze`: control-flow graph generation -/

/-- Result of the `for (auto& item : blocks)` loop of `Function::analyze`. -/
inductive BlockScan where
  | split (key : Nat) (block_a : Block)
  | bound (maxSize : Nat)
deriving DecidableEq, Repr

/-- The `for (auto& item : blocks)` loop: refine `maxSize` block after block
and stop at the first block containing `addr`. -/
def Function.scanBlocks (addr : Nat) : List (Nat × Block) → Nat → BlockScan
  | [], maxSize => BlockScan.bound maxSize
  | (key, block_a) :: rest, maxSize =>
    let maxSize1 :=
      if sub32 block_a.address addr < maxSize then sub32 block_a.address addr else maxSize
    if block_a.contains addr then BlockScan.split key block_a
    else Function.scanBlocks addr rest maxSize1

/-- The `while ((!code.is_branch() || code.is_call()) && current.size < maxSize)`
loop. Returns the final `addr`, `current.size` and instruction word. -/
def Function.grow (D : Decoder) (M : Memory) (maxSize : Nat) :
    Nat → Nat → Nat → Nat → Option (Nat × Nat × Nat)
  | 0, _, _, _ => none
  | fuel + 1, addr, size, code =>
    if (!D.is_branch code || D.is_call code) && decide (size < maxSize) then
      Function.grow D M maxSize fuel (add32 addr 4) (add32 size 4) (M.read32 (add32 addr 4))
    else some (addr, size, code)

/-- State of the worklist loop: the queue `labels` and the map `blocks`. -/
structure CfgState where
  labels : List Nat
  blocks : List (Nat × Block)
deriving DecidableEq, Repr

/-- The "Push new labels" part of the loop body for the block `current` ending
with instruction `code` at `addr`; `none` stands for `return false`. -/
def Function.pushLabels (D : Decoder) (parent : Segment) (code addr : Nat)
    (labels : List Nat) (current : Block) : Option (List Nat × Block) :=
  let r1 : Option (List Nat × Block) :=
    if D.is_branch_conditional code && !D.is_call code then
      let target_a := u32 (D.get_target code addr)
      let target_b := add32 addr 4
      if !parent.contains target_a || !parent.contains target_b then none
      else some (labels ++ [target_a, target_b],
                 { current with branch_a := target_a, branch_b := target_b })
    else some (labels, current)
  match r1 with
  | none => none
  | some (labels1, current1) =>
    if D.is_branch_unconditional code && !D.is_call code then
      let target := u32 (D.get_target code addr)
      if !parent.contains target then none
      else some (labels1 ++ [target], { current1 with branch_a := target })
    else some (labels1, current1)

/-- One iteration of `while (!labels.empty())` with `front = labels.front()`
and `rest` the queue behind it. -/
def Function.step (D : Decoder) (M : Memory) (parent : Segment) (fuel : Nat)
    (front : Nat) (rest : List Nat) (blocks : List (Nat × Block)) : Run CfgState :=
  let addr := front
  let code := M.read32 addr
  match Function.scanBlocks addr blocks 4294967295 with
  | BlockScan.split key block_a =>
    let block_b : Block :=
      { address := addr
        size := sub32 block_a.size (sub32 addr block_a.address)
        branch_a := block_a.branch_a
        branch_b := block_a.branch_b }
    let block_a1 : Block :=
      { block_a with size := sub32 addr block_a.address, branch_a := addr, branch_b := 0 }
    Run.done { labels := rest, blocks := mapAssign (mapAssign blocks key block_a1) addr block_b }
  | BlockScan.bound maxSize =>
    match Function.grow D M maxSize fuel addr 4 code with
    | none => Run.timeout
    | some (addr1, size, code1) =>
      let current : Block := { address := front, size := size, branch_a := 0, branch_b := 0 }
      match Function.pushLabels D parent code1 addr1 (front :: rest) current with
      | none => Run.reject
      | some (labels1, current1) =>
        Run.done { labels := labels1.tail, blocks := mapAssign blocks front current1 }

/-- The loop `while (!labels.empty())`. -/
def Function.cfg (D : Decoder) (M : Memory) (parent : Segment) (fuel : Nat) :
    Nat → CfgState → Run (List (Nat × Block))
  | 0, _ => Run.timeout
  | n + 1, st =>
    match st.labels with
    | [] => Run.done st.blocks
    | front :: rest =>
      match Function.step D M parent fuel front rest st.blocks with
      | Run.timeout => Run.timeout
      | Run.reject => Run.reject
      | Run.done st1 => Function.cfg D M parent fuel n st1

/-! ## `Function::get_type`: argument and return types -/

/-- Truth value of `mask & flag` as used in a C++ condition. -/
def hasFlag (mask flag : Nat) : Bool := (mask &&& flag) != 0

/-- The loop "Analyze read/written registers": `block` is the local copy of
the current block, `offset` the loop counter, `blocks` the map (which
`blocks[block.branch_a]` may extend). Returns the final status and map. -/
def Function.get_type.scan (D : Decoder) (M : Memory) (A : AnalyzerTable) :
    Nat → Analyzer → Block → Nat → List (Nat × Block) → Option (Analyzer × List (Nat × Block))
  | 0, _, _, _, _ => none
  | fuel + 1, status, block, offset, blocks =>
    if offset < block.size then
      let code := M.read32 (add32 block.address offset)
      let status1 := A.run code status
      if D.is_branch_conditional code || D.is_return code then some (status1, blocks)
      else if D.is_branch_unconditional code && !D.is_call code then
        let r := mapIndex Block.zero blocks block.branch_a
        Function.get_type.scan D M A fuel status1 r.1 (add32 0 4) r.2
      else Function.get_type.scan D M A fuel status1 block (add32 offset 4) blocks
    else some (status, blocks)

/-- Body of the loop "Determine type of function arguments" for one `reg`. -/
def Function.get_type.arg (A : AnalyzerTable) (status : Analyzer)
    (type_in : List FunctionTypeIn) (reg : Nat) : List FunctionTypeIn :=
  let t1 :=
    if hasFlag (status.gpr (reg + 3)) A.REG_READ_ORIG && decide (reg < 8)
    then type_in ++ [FUNCTION_IN_INTEGER] else type_in
  let t2 :=
    if hasFlag (status.fpr (reg + 1)) A.REG_READ_ORIG && decide (reg < 13)
    then t1 ++ [FUNCTION_IN_FLOAT] else t1
  if hasFlag (status.vr (reg + 2)) A.REG_READ_ORIG && decide (reg < 12)
  then t2 ++ [FUNCTION_IN_VECTOR] else t2

/-- The loop `for (u32 reg = 0; reg < 13; reg++)` appending to `type_in`. -/
def Function.get_type.args (A : AnalyzerTable) (status : Analyzer)
    (type_in : List FunctionTypeIn) : List FunctionTypeIn :=
  (List.range 13).foldl (Function.get_type.arg A status) type_in

/-- The part "Determine type of function return". -/
def Function.get_type.ret (A : AnalyzerTable) (status : Analyzer) : FunctionTypeOut :=
  let t0 := FUNCTION_OUT_VOID
  let t1 := if hasFlag (status.gpr 3) A.REG_WRITE then FUNCTION_OUT_INTEGER else t0
  let t2 := if hasFlag (status.vr 2) A.REG_WRITE then FUNCTION_OUT_VECTOR else t1
  if hasFlag (status.fpr 1) A.REG_WRITE then
    let f0 := FUNCTION_OUT_FLOAT
    let f1 := if hasFlag (status.fpr 2) A.REG_WRITE then FUNCTION_OUT_FLOAT_X2 else f0
    let f2 := if hasFlag (status.fpr 3) A.REG_WRITE then FUNCTION_OUT_FLOAT_X3 else f1
    if hasFlag (status.fpr 4) A.REG_WRITE then FUNCTION_OUT_FLOAT_X4 else f2
  else t2

/-- The method `Function::get_type` on a function whose `type_in` is
`f.type_in`; `none` when the scan loop does not finish within `fuel`. -/
def Function.get_type (D : Decoder) (M : Memory) (A : AnalyzerTable) (fuel : Nat)
    (f : Function) : Option Function :=
  let r := mapIndex Block.zero f.blocks f.address
  match Function.get_type.scan D M A fuel A.init r.1 0 r.2 with
  | none => none
  | some (status, blocks) =>
    some { address := f.address
           blocks := blocks
           type_in := Function.get_type.args A status f.type_in
           type_out := Function.get_type.ret A status }

/-- The method `Function::analyze` for the function at `address` in segment
`parent`. `Run.done f` stands for `return true` with the analysed function,
`Run.reject` for `return false`, `Run.timeout` for a run that needs more than
`fuel` iterations of one of its loops. -/
def Function.analyze (D : Decoder) (M : Memory) (A : AnalyzerTable) (parent : Segment)
    (fuel : Nat) (address : Nat) : Run Function :=
  match Function.cfg D M parent fuel fuel { labels := [address], blocks := [] } with
  | Run.timeout => Run.timeout
  | Run.reject => Run.reject
  | Run.done blocks =>
    match Function.get_type D M A fuel
        { address := address, blocks := blocks, type_in := [],
          type_out := FUNCTION_OUT_VOID } with
    | none => Run.timeout
    | some f => Run.done f

/-! ## `Segment::analyze` -/

/-- The three label sets and `currentBlock` of the "Basic Block Slicing" loop. -/
structure Slicing where
  currentBlock : Nat
  labelBlocks : List Nat
  labelCalls : List Nat
  labelJumps : List Nat
deriving DecidableEq, Repr

/-- Body of the slicing loop for the instruction `code` at address `i`. -/
def Segment.slice (D : Decoder) (i code : Nat) (s : Slicing) : Slicing :=
  -- New block appeared
  let cb1 := if D.is_valid code && s.currentBlock == 0 then i else s.currentBlock
  -- Block is corrupt
  let cb2 := if cb1 != 0 && !D.is_valid code then 0 else cb1
  -- Function call detected
  let calls :=
    if cb2 != 0 && D.is_call code then setInsert s.labelCalls (u32 (D.get_target code i))
    else s.labelCalls
  -- Block finished
  if cb2 != 0 && D.is_branch code && !D.is_call code then
    let j1 :=
      if D.is_branch_conditional code then
        setInsert (setInsert s.labelJumps (u32 (D.get_target code i))) (add32 i 4)
      else s.labelJumps
    let j2 :=
      if D.is_branch_unconditional code then setInsert j1 (u32 (D.get_target code i))
      else j1
    { currentBlock := 0, labelBlocks := setInsert s.labelBlocks cb2,
      labelCalls := calls, labelJumps := j2 }
  else
    { currentBlock := cb2, labelBlocks := s.labelBlocks,
      labelCalls := calls, labelJumps := s.labelJumps }

/-- The loop `for (u32 i = address; i < (address + size); i += 4)`. -/
def Segment.slicing (D : Decoder) (M : Memory) (seg : Segment) :
    Nat → Nat → Slicing → Option Slicing
  | 0, _, _ => none
  | fuel + 1, i, s =>
    if i < add32 seg.address seg.size then
      Segment.slicing D M seg fuel (add32 i 4) (Segment.slice D i (M.read32 i) s)
    else some s

/-- The set computation `Functions := ((Blocks \ Jumps) U Calls)`:
`std::set_difference` into the empty set `labelFunctions`, then
`std::set_union` whose output is inserted into `labelFunctions` itself. -/
def Segment.labelFunctions (s : Slicing) : List Nat :=
  let diff := (s.labelBlocks.filter (fun x => !s.labelJumps.contains x)).foldl setInsert []
  s.labelCalls.foldl setInsert diff

/-- The loop "List the functions and analyze them" over the remaining labels. -/
def Segment.analyzeLabels (D : Decoder) (M : Memory) (A : AnalyzerTable) (seg : Segment)
    (fuel : Nat) : List Nat → List (Nat × Function) → Option (List (Nat × Function))
  | [], functions => some functions
  | label :: rest, functions =>
    if seg.contains label then
      match Function.analyze D M A seg fuel label with
      | Run.timeout => none
      | Run.reject => Segment.analyzeLabels D M A seg fuel rest functions
      | Run.done function =>
        Segment.analyzeLabels D M A seg fuel rest (mapAssign functions label function)
    else Segment.analyzeLabels D M A seg fuel rest functions

/-- The method `Segment::analyze`, started with an empty `functions` map;
`none` when one of the loops needs more than `fuel` iterations. -/
def Segment.analyze (D : Decoder) (M : Memory) (A : AnalyzerTable) (seg : Segment)
    (fuel : Nat) : Option (List (Nat × Function)) :=
  match Segment.slicing D M seg fuel seg.address
      { currentBlock := 0, labelBlocks := [], labelCalls := [], labelJumps := [] } with
  | none => none
  | some s => Segment.analyzeLabels D M A seg fuel (Segment.labelFunctions s) []

/-! ## `Function::declare` -/

/-- The IR types built by `Function::declare`: `llvm::Type::getInt64Ty`,
`getDoubleTy`, `getIntNTy(n)` and `getVoidTy`. -/
inductive IRType where
  | Int64Ty
  | DoubleTy
  | IntNTy (n : Nat)
  | VoidTy
deriving DecidableEq, Repr

/-- An IR function type: `llvm::FunctionType::get(result, params, isVarArg)`. -/
structure FunctionType where
  result : IRType
  params : List IRType
  isVarArg : Bool
deriving DecidableEq, Repr

/-- The integer values of the enumerators of `FunctionTypeIn` and
`FunctionTypeOut`. The header declaring the two enumerations is not part of
the translated sources, so their values are a parameter of the model. -/
structure EnumValues where
  type_in : FunctionTypeIn → Nat
  type_out : FunctionTypeOut → Nat

/-- The `switch (type_out)` of `Function::declare`; every enumerator of
`FunctionTypeOut` has its own case. -/
def Function.declare.result : FunctionTypeOut → IRType
  | FUNCTION_OUT_INTEGER => IRType.Int64Ty
  | FUNCTION_OUT_FLOAT => IRType.DoubleTy
  | FUNCTION_OUT_FLOAT_X2 => IRType.DoubleTy
  | FUNCTION_OUT_FLOAT_X3 => IRType.DoubleTy
  | FUNCTION_OUT_FLOAT_X4 => IRType.DoubleTy
  | FUNCTION_OUT_VECTOR => IRType.IntNTy 128
  | FUNCTION_OUT_VOID => IRType.VoidTy

/-- Body of the loop `for (auto& type : type_in)` of `Function::declare`: a
`switch (type)` whose case labels are `FUNCTION_OUT_INTEGER`,
`FUNCTION_OUT_FLOAT` and `FUNCTION_OUT_VECTOR`; an element whose value is none
of the three falls through the switch and pushes nothing. -/
def Function.declare.param (E : EnumValues) (params : List IRType) (type : FunctionTypeIn) :
    List IRType :=
  if E.type_in type = E.type_out FUNCTION_OUT_INTEGER then params ++ [IRType.Int64Ty]
  else if E.type_in type = E.type_out FUNCTION_OUT_FLOAT then params ++ [IRType.DoubleTy]
  else if E.type_in type = E.type_out FUNCTION_OUT_VECTOR then params ++ [IRType.IntNTy 128]
  else params

/-- The function type built by `Function::declare` (the IR function is then
created with this type, external linkage and the name of the function). -/
def Function.declare (E : EnumValues) (f : Function) : FunctionType :=
  { result := Function.declare.result f.type_out
    params := f.type_in.foldl (Function.declare.param E) []
    isVarArg := false }

/-! ## `Block::is_split` and `Function::recompile` -/

/-- The bit fields `opcode` and `op19` of `Instruction` read by
`Block::is_split`, as functions of the instruction word. They are declared in
`ppu_instruction.h`, which is not part of the translated sources, so they are
a parameter of the model. -/
structure Fields where
  opcode : Nat → Nat
  op19 : Nat → Nat

/-- The method `Block::is_split`. -/
def Block.is_split (D : Decoder) (F : Fields) (M : Memory) (b : Block) : Bool :=
  let lastInstr := M.read32 (sub32 (add32 b.address b.size) 4)
  if !D.is_branch lastInstr || D.is_call lastInstr
      || (F.opcode lastInstr == 0x13 && F.op19 lastInstr == 0x210) then true
  else false

/-- Name of an IR basic block: `"entry"` or `format("block_%X", address)`. -/
inductive BlockName where
  | entry
  | block (address : Nat)
deriving DecidableEq, Repr

/-- What `Function::recompile` asks of the IR builder. The IR basic block `bb`
of a guest block is referred to by the key of that block in `blocks`; the
callback of the opcode table for an instruction is kept as the pair of
`currentAddress` and instruction word it is called with. -/
inductive IRAction where
  | createBasicBlock (key : Nat) (name : BlockName)
  | setInsertPoint (key : Nat)
  | instruction (currentAddress code : Nat)
  | createBranch (key : Nat)
  | createReturn
deriving DecidableEq, Repr

/-- The loop `for (auto& item : blocks)` of "Create LLVM basic blocks". -/
def Function.recompile.createBlocks (address : Nat) : List (Nat × Block) → List IRAction
  | [] => []
  | (key, block) :: rest =>
    if block.address != address then
      IRAction.createBasicBlock key (BlockName.block block.address)
        :: Function.recompile.createBlocks address rest
    else Function.recompile.createBlocks address rest

/-- The loop `for (u32 offset = 0; offset < block.size; offset += 4)` of
"Recompile block instructions"; `none` when it needs more than `fuel`
iterations. -/
def Function.recompile.instructions (M : Memory) (block : Block) :
    Nat → Nat → List IRAction → Option (List IRAction)
  | 0, _, _ => none
  | fuel + 1, offset, emitted =>
    if offset < block.size then
      let currentAddress := add32 block.address offset
      Function.recompile.instructions M block fuel (add32 offset 4)
        (emitted ++ [IRAction.instruction currentAddress (M.read32 currentAddress)])
    else some emitted

/-- The part "Block was splitted" of the lowering of one block. -/
def Function.recompile.stitch (D : Decoder) (F : Fields) (M : Memory)
    (blocks : List (Nat × Block)) (block : Block) : List IRAction :=
  if block.is_split D F M then
    let target := add32 block.address block.size
    if (mapFind blocks target).isSome then [IRAction.createBranch target]
    else [IRAction.createReturn]
  else []

/-- Lowering of the block `block` stored under `key`: insert point, the
instructions, then the stitching of a split block. -/
def Function.recompile.lower (D : Decoder) (F : Fields) (M : Memory) (fuel : Nat)
    (blocks : List (Nat × Block)) (key : Nat) (block : Block) : Option (List IRAction) :=
  match Function.recompile.instructions M block fuel 0 [IRAction.setInsertPoint key] with
  | none => none
  | some emitted => some (emitted ++ Function.recompile.stitch D F M blocks block)

/-- State of the loop "Recompile basic clocks": the queue, the block map, the
keys of the blocks whose flag `recompiled` is set, and the IR emitted. -/
structure Lowering where
  labels : List Nat
  blocks : List (Nat × Block)
  recompiled : List Nat
  emitted : List IRAction
deriving DecidableEq, Repr

/-- The loop `while (!labels.empty())` of `Function::recompile`. -/
def Function.recompile.loop (D : Decoder) (F : Fields) (M : Memory) (fuel : Nat) :
    Nat → Lowering → Option Lowering
  | 0, _ => none
  | n + 1, s =>
    match s.labels with
    | [] => some s
    | front :: rest =>
      let r := mapIndex Block.zero s.blocks front
      let block := r.1
      if s.recompiled.contains front then
        Function.recompile.loop D F M fuel n { s with labels := rest, blocks := r.2 }
      else
        match Function.recompile.lower D F M fuel r.2 front block with
        | none => none
        | some emitted =>
          let labels1 := if block.branch_a != 0 then (front :: rest) ++ [block.branch_a]
            else front :: rest
          let labels2 := if block.branch_b != 0 then labels1 ++ [block.branch_b] else labels1
          Function.recompile.loop D F M fuel n
            { labels := labels2.tail, blocks := r.2, recompiled := front :: s.recompiled,
              emitted := s.emitted ++ emitted }

/-- Modelled from the spec: the flag `recompiled` of `Block` is declared in a
header that is not part of the translated sources; it is unset until the block
is lowered ("Skip already-lowered blocks"), so the keys of the blocks whose
flag is set when `Function::recompile` starts are none. -/
def Function.recompile.lowered : List Nat := []

/-- The method `Function::recompile` up to the verification of the IR
function: the IR actions in the order they are issued, or `none` when a loop
needs more than `fuel` iterations. -/
def Function.recompile (D : Decoder) (F : Fields) (M : Memory) (fuel : Nat) (f : Function) :
    Option (List IRAction) :=
  let r := mapIndex Block.zero f.blocks f.address
  let created := IRAction.createBasicBlock f.address BlockName.entry
    :: Function.recompile.createBlocks f.address r.2
  match Function.recompile.loop D F M fuel fuel
      { labels := [f.address], blocks := r.2, recompiled := Function.recompile.lowered,
        emitted := created } with
  | none => none
  | some s => some s.emitted

/-! ## Statements of the specification -/

/-- The instruction word is a branch that is not a call. -/
def nonCallBranch (D : Decoder) (code : Nat) : Prop :=
  D.is_branch code = true ∧ D.is_call code = false

/-- The instruction word is a conditional branch that is not a call. -/
def condNonCall (D : Decoder) (code : Nat) : Prop :=
  D.is_branch_conditional code = true ∧ D.is_call code = false

/-- The instruction word is an unconditional branch that is not a call. -/
def uncondNonCall (D : Decoder) (code : Nat) : Prop :=
  D.is_branch_unconditional code = true ∧ D.is_call code = false

instance (D : Decoder) (code : Nat) : Decidable (nonCallBranch D code) := by
  unfold nonCallBranch; infer_instance

/-- The argument list as the specification words it: all integer arguments
(`GPR[3..10]`), then all float arguments (`FPR[1..13]`), then all vector
arguments (`VR[2..13]`). -/
def specTypeIn (A : AnalyzerTable) (status : Analyzer) : List FunctionTypeIn :=
  (List.range 8).flatMap (fun i =>
      if hasFlag (status.gpr (i + 3)) A.REG_READ_ORIG then [FUNCTION_IN_INTEGER] else [])
  ++ (List.range 13).flatMap (fun i =>
      if hasFlag (status.fpr (i + 1)) A.REG_READ_ORIG then [FUNCTION_IN_FLOAT] else [])
  ++ (List.range 12).flatMap (fun i =>
      if hasFlag (status.vr (i + 2)) A.REG_READ_ORIG then [FUNCTION_IN_VECTOR] else [])

/-- The argument list ordered by register index: for each `reg` in `0..12`
the integer, float and vector argument of that index, in this order. -/
def regTypeIn (A : AnalyzerTable) (status : Analyzer) : List FunctionTypeIn :=
  (List.range 13).flatMap (fun reg =>
    (if reg < 8 ∧ hasFlag (status.gpr (reg + 3)) A.REG_READ_ORIG = true
      then [FUNCTION_IN_INTEGER] else [])
    ++ (if hasFlag (status.fpr (reg + 1)) A.REG_READ_ORIG = true
      then [FUNCTION_IN_FLOAT] else [])
    ++ (if reg < 12 ∧ hasFlag (status.vr (reg + 2)) A.REG_READ_ORIG = true
      then [FUNCTION_IN_VECTOR] else []))

/-- The float return type as the specification words it: promoted while
`FPR[2]`, `FPR[3]`, `FPR[4]` are written contiguously. -/
def specFloatOut (w2 w3 w4 : Bool) : FunctionTypeOut :=
  if !w2 then FUNCTION_OUT_FLOAT
  else if !w3 then FUNCTION_OUT_FLOAT_X2
  else if !w4 then FUNCTION_OUT_FLOAT_X3
  else FUNCTION_OUT_FLOAT_X4

/-- The float return type decided by the highest written register among
`FPR[2]`, `FPR[3]`, `FPR[4]`. -/
def highestFloatOut (w2 w3 w4 : Bool) : FunctionTypeOut :=
  if w4 then FUNCTION_OUT_FLOAT_X4
  else if w3 then FUNCTION_OUT_FLOAT_X3
  else if w2 then FUNCTION_OUT_FLOAT_X2
  else FUNCTION_OUT_FLOAT

/-- The state of the worklist loop after `n` iterations that all went through
(`none` when the queue runs empty, or an iteration fails, before that). -/
def Function.iterate (D : Decoder) (M : Memory) (parent : Segment) (fuel : Nat) :
    Nat → CfgState → Option CfgState
  | 0, st => some st
  | n + 1, st =>
    match st.labels with
    | [] => none
    | front :: rest =>
      match Function.step D M parent fuel front rest st.blocks with
      | Run.done st1 => Function.iterate D M parent fuel n st1
      | _ => none

/-- The analysis of the function at `entry` creates a block whose terminating
instruction is `code` at address `pc`: some iteration of the worklist loop
takes a label outside every known block and its forward disassembly stops at
`pc`. -/
def CreatesBlockEndingAt (D : Decoder) (M : Memory) (parent : Segment) (entry pc code : Nat) :
    Prop :=
  ∃ fuel n st front rest maxSize size,
    Function.iterate D M parent fuel n { labels := [entry], blocks := [] } = some st
    ∧ st.labels = front :: rest
    ∧ Function.scanBlocks front st.blocks 4294967295 = BlockScan.bound maxSize
    ∧ Function.grow D M maxSize fuel front 4 (M.read32 front) = some (pc, size, code)

/-- The terminator `code` at `pc` has a successor outside the segment: it is a
non-call conditional branch with `target(pc)` or `pc + 4` outside, or a
non-call unconditional branch with `target(pc)` outside. -/
def SuccessorOutside (D : Decoder) (parent : Segment) (pc code : Nat) : Prop :=
  (condNonCall D code
    ∧ (parent.contains (u32 (D.get_target code pc)) = false
        ∨ parent.contains (add32 pc 4) = false))
  ∨ (uncondNonCall D code ∧ parent.contains (u32 (D.get_target code pc)) = false)

/-- Address of the `k`-th instruction scanned by `Segment.analyze`. -/
def Segment.slot (seg : Segment) (k : Nat) : Nat := seg.address + 4 * k

/-- The `k`-th instruction lies inside the segment. -/
def Segment.inScan (seg : Segment) (k : Nat) : Prop := seg.slot k < seg.address + seg.size

/-- The `k`-th instruction of the segment is valid. -/
def validAt (D : Decoder) (M : Memory) (seg : Segment) (k : Nat) : Prop :=
  D.is_valid (M.read32 (seg.slot k)) = true

/-- The `k`-th instruction of the segment is a non-call branch. -/
def branchAt (D : Decoder) (M : Memory) (seg : Segment) (k : Nat) : Prop :=
  nonCallBranch D (M.read32 (seg.slot k))

/-- A run start: the first valid instruction after the segment start, after an
invalid instruction, or after a non-call branch. -/
def RunStart (D : Decoder) (M : Memory) (seg : Segment) (k : Nat) : Prop :=
  validAt D M seg k
  ∧ ((∀ j, j < k → ¬ validAt D M seg j)
    ∨ (∃ j, j < k ∧ ¬ validAt D M seg j ∧ ∀ m, j < m → m < k → ¬ validAt D M seg m)
    ∨ (∃ j, j < k ∧ branchAt D M seg j ∧ ∀ m, j < m → m < k → ¬ validAt D M seg m))

/-- Instruction `e` is met inside the run that starts at `k`: every instruction
from `k` to `e` is valid and none before `e` is a non-call branch. -/
def InRun (D : Decoder) (M : Memory) (seg : Segment) (k e : Nat) : Prop :=
  RunStart D M seg k ∧ k ≤ e
  ∧ (∀ m, k ≤ m → m ≤ e → validAt D M seg m)
  ∧ (∀ m, k ≤ m → m < e → ¬ branchAt D M seg m)

/-- The set `labelBlocks` in words: starts of runs that reach a non-call
branch without an invalid instruction in between. -/
def SpecBlocks (D : Decoder) (M : Memory) (seg : Segment) (x : Nat) : Prop :=
  ∃ k e, seg.inScan e ∧ InRun D M seg k e ∧ branchAt D M seg e ∧ x = seg.slot k

/-- The set `labelJumps` in words: `target(pc)` of the non-call branches
reached by a run (for the conditional and the unconditional ones, the classes
with a direct target), plus `pc + 4` for the conditional ones. -/
def SpecJumps (D : Decoder) (M : Memory) (seg : Segment) (x : Nat) : Prop :=
  ∃ k e, seg.inScan e ∧ InRun D M seg k e ∧ branchAt D M seg e
    ∧ ((D.is_branch_conditional (M.read32 (seg.slot e)) = true
          ∧ (x = u32 (D.get_target (M.read32 (seg.slot e)) (seg.slot e))
              ∨ x = add32 (seg.slot e) 4))
        ∨ (D.is_branch_unconditional (M.read32 (seg.slot e)) = true
          ∧ x = u32 (D.get_target (M.read32 (seg.slot e)) (seg.slot e))))

/-- The set `labelCalls` in words: `target(pc)` of the call instructions met
while inside a run. -/
def SpecCalls (D : Decoder) (M : Memory) (seg : Segment) (x : Nat) : Prop :=
  ∃ k e, seg.inScan e ∧ InRun D M seg k e ∧ D.is_call (M.read32 (seg.slot e)) = true
    ∧ x = u32 (D.get_target (M.read32 (seg.slot e)) (seg.slot e))

/-- The function entry set `(labelBlocks \ labelJumps) ∪ labelCalls`. -/
def SpecEntry (D : Decoder) (M : Memory) (seg : Segment) (x : Nat) : Prop :=
  (SpecBlocks D M seg x ∧ ¬ SpecJumps D M seg x) ∨ SpecCalls D M seg x

/-- The IR type of an argument as the specification words it. -/
def specParam : FunctionTypeIn → IRType
  | FUNCTION_IN_INTEGER => IRType.Int64Ty
  | FUNCTION_IN_FLOAT => IRType.DoubleTy
  | FUNCTION_IN_VECTOR => IRType.IntNTy 128

/-- The IR return type as the specification words it. -/
def specResult : FunctionTypeOut → IRType
  | FUNCTION_OUT_VOID => IRType.VoidTy
  | FUNCTION_OUT_INTEGER => IRType.Int64Ty
  | FUNCTION_OUT_VECTOR => IRType.IntNTy 128
  | _ => IRType.DoubleTy

/-- The case labels of the argument switch are pairwise distinct (a `switch`
with two equal case labels does not compile). -/
def CaseLabelsDistinct (E : EnumValues) : Prop :=
  E.type_out FUNCTION_OUT_INTEGER ≠ E.type_out FUNCTION_OUT_FLOAT
  ∧ E.type_out FUNCTION_OUT_INTEGER ≠ E.type_out FUNCTION_OUT_VECTOR
  ∧ E.type_out FUNCTION_OUT_FLOAT ≠ E.type_out FUNCTION_OUT_VECTOR

/-- Each argument enumerator has the value of the return enumerator of the
same name. -/
def EnumsAgree (E : EnumValues) : Prop :=
  E.type_in FUNCTION_IN_INTEGER = E.type_out FUNCTION_OUT_INTEGER
  ∧ E.type_in FUNCTION_IN_FLOAT = E.type_out FUNCTION_OUT_FLOAT
  ∧ E.type_in FUNCTION_IN_VECTOR = E.type_out FUNCTION_OUT_VECTOR

/-- The last instruction of the block is branch-conditional-to-count-register:
primary opcode `0x13`, extended opcode `0x210`. -/
def EndsInBcctr (F : Fields) (M : Memory) (b : Block) : Prop :=
  F.opcode (M.read32 (sub32 (add32 b.address b.size) 4)) = 0x13
  ∧ F.op19 (M.read32 (sub32 (add32 b.address b.size) 4)) = 0x210

/-- The branch classes of the decoder are nested: a conditional branch and an
unconditional branch are branches. -/
def BranchKinds (D : Decoder) : Prop :=
  (∀ code, D.is_branch_conditional code = true → D.is_branch code = true)
  ∧ (∀ code, D.is_branch_unconditional code = true → D.is_branch code = true)

/-- No instruction word is classified both as a conditional and as an
unconditional branch. -/
def KindsExclusive (D : Decoder) : Prop :=
  ∀ code, D.is_branch_conditional code = true → D.is_branch_unconditional code = false

/-- Address of the last instruction of a block: `pc = address + size - 4`. -/
def Block.last (b : Block) : Nat := sub32 (add32 b.address b.size) 4

/-- The successors of the block match its terminator: after a conditional
non-call branch `branch_a = target(pc)` and `branch_b = pc + 4`, after an
unconditional non-call branch `branch_a = target(pc)` and `branch_b = 0`. -/
def SuccessorsMatch (D : Decoder) (M : Memory) (b : Block) : Prop :=
  (condNonCall D (M.read32 b.last) →
    b.branch_a = u32 (D.get_target (M.read32 b.last) b.last)
    ∧ b.branch_b = add32 b.last 4)
  ∧ (uncondNonCall D (M.read32 b.last) →
    b.branch_a = u32 (D.get_target (M.read32 b.last) b.last) ∧ b.branch_b = 0)

/-- From every 4-byte-aligned address of the segment the forward disassembly
meets a non-call branch within `K` further instructions, before the address
wraps past `2^32`. -/
def BranchAhead (D : Decoder) (M : Memory) (seg : Segment) (K : Nat) : Prop :=
  ∀ a, seg.contains a = true → a % 4 = 0 →
    ∃ k, k ≤ K ∧ a + 4 * k + 4 < 4294967296 ∧ nonCallBranch D (M.read32 (a + 4 * k))

/-- An edge of the control-flow graph: `y` is a non-zero `branch_a` or
`branch_b` of the block stored under `x`. -/
def Edge (blocks : List (Nat × Block)) (x y : Nat) : Prop :=
  ∃ b, (x, b) ∈ blocks ∧ y ≠ 0 ∧ (b.branch_a = y ∨ b.branch_b = y)

/-- The address `x` can be reached from `entry` by following edges. -/
def Reachable (blocks : List (Nat × Block)) (entry x : Nat) : Prop :=
  Relation.ReflTransGen (Edge blocks) entry x

/-! ## Invariants of the analysis loops -/

/-- Keys in strictly ascending order (the order kept by `std::map`). -/
def MapSorted {α : Type} (m : List (Nat × α)) : Prop :=
  m.Pairwise (fun p q => p.1 < q.1)

/-- The key `k` is present in the map. -/
def HasKey {α : Type} (m : List (Nat × α)) (k : Nat) : Prop := ∃ v, (k, v) ∈ m

/-- Every non-zero successor of a block is the key of a block or still waits
in the queue. -/
def Closed (st : CfgState) : Prop :=
  ∀ p ∈ st.blocks,
    (p.2.branch_a ≠ 0 → HasKey st.blocks p.2.branch_a ∨ p.2.branch_a ∈ st.labels)
    ∧ (p.2.branch_b ≠ 0 → HasKey st.blocks p.2.branch_b ∨ p.2.branch_b ∈ st.labels)

/-- The block starts inside the segment and so does each of its non-zero
successors. -/
def BlockInSegment (seg : Segment) (b : Block) : Prop :=
  (seg.address ≤ b.address ∧ b.address < seg.address + seg.size)
  ∧ (b.branch_a ≠ 0 → seg.address ≤ b.branch_a ∧ b.branch_a < seg.address + seg.size)
  ∧ (b.branch_b ≠ 0 → seg.address ≤ b.branch_b ∧ b.branch_b < seg.address + seg.size)

/-- Direct branch targets are 4-byte aligned: at an aligned address, the target
of a conditional branch, an unconditional branch or a call is a multiple of
4. -/
def AlignedTargets (D : Decoder) : Prop :=
  ∀ code pc, pc % 4 = 0 →
    (D.is_branch_conditional code = true ∨ D.is_branch_unconditional code = true
      ∨ D.is_call code = true) →
    D.get_target code pc % 4 = 0

/-- The end `address + size` of the block does not wrap past `2^32`. -/
def NoWrap (b : Block) : Prop := b.address + b.size < 4294967296

/-- Shape of the state of the worklist loop when every label is 4-byte
aligned: keys ascending, each block stored under its own address, every
address and size a multiple of 4, and any two blocks whose ends do not wrap
cover disjoint ranges. -/
structure Tidy (st : CfgState) : Prop where
  sorted : MapSorted st.blocks
  key_eq : ∀ p ∈ st.blocks, p.2.address = p.1
  size_lt : ∀ p ∈ st.blocks, p.2.size < 4294967296
  labels4 : ∀ l ∈ st.labels, l % 4 = 0
  keys4 : ∀ p ∈ st.blocks, p.1 % 4 = 0
  sizes4 : ∀ p ∈ st.blocks, p.2.size % 4 = 0
  disjoint : ∀ p ∈ st.blocks, ∀ q ∈ st.blocks, p.1 ≠ q.1 → NoWrap p.2 → NoWrap q.2 →
    p.2.address + p.2.size ≤ q.2.address ∨ q.2.address + q.2.size ≤ p.2.address

/-- Every queued label, every key and every non-zero successor passes
`Segment::contains` of the parent segment. -/
structure InSeg (parent : Segment) (st : CfgState) : Prop where
  labels : ∀ l ∈ st.labels, parent.contains l = true
  keys : ∀ p ∈ st.blocks, parent.contains p.1 = true
  branch_a : ∀ p ∈ st.blocks, p.2.branch_a ≠ 0 → parent.contains p.2.branch_a = true
  branch_b : ∀ p ∈ st.blocks, p.2.branch_b ≠ 0 → parent.contains p.2.branch_b = true

/-- What the blocks say about the memory they cover: no instruction of a block
other than its last one is a non-call branch, and when the last one is an
unconditional non-call branch, `branch_a` is a key or still waits in the
queue. -/
structure Content (D : Decoder) (M : Memory) (st : CfgState) : Prop where
  labels_lt : ∀ l ∈ st.labels, l < 4294967296
  inner : ∀ p ∈ st.blocks, ∀ o, o % 4 = 0 → o + 4 < p.2.size →
    ¬ nonCallBranch D (M.read32 (add32 p.2.address o))
  last : ∀ p ∈ st.blocks, ∀ o, o % 4 = 0 → o + 4 = p.2.size →
    uncondNonCall D (M.read32 (add32 p.2.address o)) →
    HasKey st.blocks p.2.branch_a ∨ p.2.branch_a ∈ st.labels

/-- The value of `currentBlock` after the tests "New block appeared" and
"Block is corrupt" of the slicing loop. -/
def Segment.current (D : Decoder) (i code cur : Nat) : Nat :=
  if D.is_valid code = true then (if cur = 0 then i else cur) else 0

/-- No run is open when the scan arrives at instruction `n`. -/
def Fresh (D : Decoder) (M : Memory) (seg : Segment) (n : Nat) : Prop :=
  n = 0 ∨ ∃ p, n = p + 1 ∧ (¬ validAt D M seg p ∨ branchAt D M seg p)

/-- State of the slicing loop when it arrives at instruction `n`. -/
structure SliceInv (D : Decoder) (M : Memory) (seg : Segment) (n : Nat) (s : Slicing) :
    Prop where
  cur : (s.currentBlock = 0 ∧ Fresh D M seg n)
    ∨ (∃ k, s.currentBlock = seg.slot k ∧ k < n ∧ RunStart D M seg k
        ∧ ∀ m, k ≤ m → m < n → validAt D M seg m ∧ ¬ branchAt D M seg m)
  blocks : ∀ x, x ∈ s.labelBlocks ↔
    ∃ k e, e < n ∧ InRun D M seg k e ∧ branchAt D M seg e ∧ x = seg.slot k
  jumps : ∀ x, x ∈ s.labelJumps ↔
    ∃ k e, e < n ∧ InRun D M seg k e ∧ branchAt D M seg e
      ∧ ((D.is_branch_conditional (M.read32 (seg.slot e)) = true
            ∧ (x = u32 (D.get_target (M.read32 (seg.slot e)) (seg.slot e))
                ∨ x = add32 (seg.slot e) 4))
          ∨ (D.is_branch_unconditional (M.read32 (seg.slot e)) = true
            ∧ x = u32 (D.get_target (M.read32 (seg.slot e)) (seg.slot e))))
  calls : ∀ x, x ∈ s.labelCalls ↔
    ∃ k e, e < n ∧ InRun D M seg k e ∧ D.is_call (M.read32 (seg.slot e)) = true
      ∧ x = u32 (D.get_target (M.read32 (seg.slot e)) (seg.slot e))

/-- Every block of the map contains its own start: it is not empty and its end
does not wrap past `2^32`. -/
def Solid (blocks : List (Nat × Block)) : Prop :=
  ∀ p ∈ blocks, 0 < p.2.size ∧ NoWrap p.2

/-- Every key and every queued label can be reached from the entry. -/
structure Reach (entry : Nat) (st : CfgState) : Prop where
  keys : ∀ p ∈ st.blocks, Reachable st.blocks entry p.1
  labels : ∀ l ∈ st.labels, Reachable st.blocks entry l

/-- State of the lowering worklist over the finished map `blocks0`: the map is
not changed, queued labels and lowered keys are keys, every lowered block has
had its insert point set, the entry is lowered or queued, and every successor
of a lowered block is lowered or queued. -/
structure Visiting (blocks0 : List (Nat × Block)) (entry : Nat) (s : Lowering) : Prop where
  blocks_eq : s.blocks = blocks0
  labels_keys : ∀ l ∈ s.labels, HasKey blocks0 l
  nodup : s.recompiled.Nodup
  done_keys : ∀ k ∈ s.recompiled, HasKey blocks0 k
  emitted : ∀ k ∈ s.recompiled, IRAction.setInsertPoint k ∈ s.emitted
  entry_seen : entry ∈ s.recompiled ∨ entry ∈ s.labels
  closed : ∀ k ∈ s.recompiled, ∀ y, Edge blocks0 k y → y ∈ s.recompiled ∨ y ∈ s.labels

/-! ## Concrete inputs -/

/-- Modelled from the spec: the instruction decoder (`ppu_instruction.h` is
not part of the translated sources). A PowerPC subset sufficient for the
scenarios of the specification: `b/ba/bl/bla` (primary opcode 18) are
unconditional direct branches, `bc/bca/bcl/bcla` (primary opcode 16) are
conditional direct branches, `bclr` and `bcctr` (primary opcode 19, extended
opcodes 16 and 528) are branches without a direct target, a branch with the
link bit set is a call, and `bclr` without link is a return. -/
def refDecoder : Decoder :=
  let opcode := fun (w : Nat) => w / 67108864 % 64
  let op19 := fun (w : Nat) => w / 2 % 1024
  let lk := fun (w : Nat) => w % 2
  let aa := fun (w : Nat) => w / 2 % 2
  let indirect := fun (w : Nat) => opcode w == 19 && (op19 w == 16 || op19 w == 528)
  let isBranch := fun (w : Nat) => opcode w == 16 || opcode w == 18 || indirect w
  { is_valid := fun w => [14, 15, 16, 18, 19, 24, 31, 32, 36].contains (opcode w)
    is_branch := isBranch
    is_branch_conditional := fun w => opcode w == 16
    is_branch_unconditional := fun w => opcode w == 18
    is_call := fun w => isBranch w && lk w == 1
    is_return := fun w => opcode w == 19 && op19 w == 16 && lk w == 0
    get_target := fun w pc =>
      let base := if aa w == 1 then 0 else pc
      if opcode w == 18 then
        let li := w % 67108864 / 4 * 4
        base + (if li < 33554432 then li else li + (4294967296 - 67108864))
      else if opcode w == 16 then
        let bd := w % 0x10000 / 4 * 4
        base + (if bd < 32768 then bd else bd + (4294967296 - 0x10000))
      else 0 }

/-- A memory image given by the words stored from `base` on; every other
address reads as zero. -/
def imageAt (base : Nat) (words : List Nat) : Memory :=
  { read32 := fun a =>
      if base ≤ a ∧ (a - base) % 4 = 0 then words.getD ((a - base) / 4) 0 else 0 }

/-- An analyzer table that records nothing. -/
def nullTable : AnalyzerTable :=
  { init := { gpr := fun _ => 0, fpr := fun _ => 0, vr := fun _ => 0 }
    run := fun _ s => s
    REG_READ_ORIG := 1
    REG_WRITE := 2 }

/-- A status in which exactly the listed registers carry the given mask. -/
def statusOf (mask : Nat) (gprs fprs vrs : List Nat) : Analyzer :=
  { gpr := fun i => if gprs.contains i then mask else 0
    fpr := fun i => if fprs.contains i then mask else 0
    vr := fun i => if vrs.contains i then mask else 0 }

/-- An analyzer table whose callback, for every instruction, leaves the register
usage `status` (READ_ORIG is bit 0 and WRITE is bit 1 of a mask). -/
def tableFrom (status : Analyzer) : AnalyzerTable :=
  { init := { gpr := fun _ => 0, fpr := fun _ => 0, vr := fun _ => 0 }
    run := fun _ _ => status
    REG_READ_ORIG := 1
    REG_WRITE := 2 }

/-- The memory image of scenario 1: a single `blr`. -/
def image1 : Memory := imageAt 0x10000 [0x4e800020]

/-- The function of scenario 1 after control-flow graph generation. -/
def scenario1 : Function :=
  { address := 0x10000,
    blocks := [(0x10000, { address := 0x10000, size := 4, branch_a := 0, branch_b := 0 })],
    type_in := [], type_out := FUNCTION_OUT_VOID }

/-- The memory image of scenario 3. -/
def image3 : Memory :=
  imageAt 0x10000 [0x41820010, 0x60000000, 0x60000000, 0x60000000, 0x60000000, 0x4e800020]

/-- The control-flow graph of scenario 3: a conditional branch to `+0x10`,
four fillers and `blr`. -/
def scenario3 : Function :=
  { address := 0x10000
    blocks := [(0x10000, { address := 0x10000, size := 4, branch_a := 0x10010,
                           branch_b := 0x10004 }),
               (0x10004, { address := 0x10004, size := 12, branch_a := 0, branch_b := 0 }),
               (0x10010, { address := 0x10010, size := 8, branch_a := 0, branch_b := 0 })]
    type_in := []
    type_out := FUNCTION_OUT_VOID }

/-- The memory image of scenario 5: an unconditional branch to `0x20000`. -/
def image5 : Memory := imageAt 0x10000 [0x48010000]

/-- The memory image of scenario 6: function A at `0x10000` (four fillers and
`blr`, 20 bytes), then `bl 0x10010` and `blr`; the call target B `0x10010` is
the last instruction of A. -/
def image6 : Memory :=
  imageAt 0x10000
    [0x60000000, 0x60000000, 0x60000000, 0x60000000, 0x4e800020, 0x4BFFFFFD, 0x4e800020]

/-- The memory image of the out-of-segment scan: `bl +8`, `blr` and a filler
fill the segment `[0x10000, 0x1000C)`; a filler and `blr` follow behind it. -/
def imagePastEnd : Memory :=
  imageAt 0x10000 [0x48000009, 0x4e800020, 0x60000000, 0x60000000, 0x4e800020]

/-- The function at `0x10000` of `imagePastEnd`: `bl +8; blr`. -/
def pastEndCaller : Function :=
  { address := 0x10000,
    blocks := [(0x10000, { address := 0x10000, size := 8, branch_a := 0, branch_b := 0 })],
    type_in := [], type_out := FUNCTION_OUT_VOID }

/-- The function at `0x10008` of `imagePastEnd`, whose block runs to the `blr`
behind the end of the segment. -/
def pastEndCallee : Function :=
  { address := 0x10008,
    blocks := [(0x10008, { address := 0x10008, size := 12, branch_a := 0, branch_b := 0 })],
    type_in := [], type_out := FUNCTION_OUT_VOID }

/-- The memory image of the call at address zero: `bl +12`, `blr`, an invalid
word, a filler that ends the segment `[0, 16)`, and `blr` behind it. -/
def imageZero : Memory := imageAt 0 [0x4800000D, 0x4e800020, 0, 0x60000000, 0x4e800020]

/-- The only function retained from `imageZero`. -/
def zeroRetained : Function :=
  { address := 4,
    blocks := [(4, { address := 4, size := 4, branch_a := 0, branch_b := 0 })],
    type_in := [], type_out := FUNCTION_OUT_VOID }

/-- The function `Function.analyze` finds at the call target `12` of
`imageZero`. -/
def zeroCallee : Function :=
  { address := 12,
    blocks := [(12, { address := 12, size := 8, branch_a := 0, branch_b := 0 })],
    type_in := [], type_out := FUNCTION_OUT_VOID }

/-- The two enumerations numbered from 0 in the order in which the source
lists their enumerators (the order of the cases of `switch (type_out)`, and of
the three tests of `get_type`), as C++ numbers enumerators that are declared
without explicit values. -/
def sourceOrderEnums : EnumValues :=
  { type_in := fun t =>
      match t with
      | FUNCTION_IN_INTEGER => 0
      | FUNCTION_IN_FLOAT => 1
      | FUNCTION_IN_VECTOR => 2
    type_out := fun t =>
      match t with
      | FUNCTION_OUT_INTEGER => 0
      | FUNCTION_OUT_FLOAT => 1
      | FUNCTION_OUT_FLOAT_X2 => 2
      | FUNCTION_OUT_FLOAT_X3 => 3
      | FUNCTION_OUT_FLOAT_X4 => 4
      | FUNCTION_OUT_VECTOR => 5
      | FUNCTION_OUT_VOID => 6 }

/-- A function that takes an integer and a vector argument and returns
nothing. -/
def vectorArgument : Function :=
  { address := 0x10000,
    blocks := [(0x10000, { address := 0x10000, size := 4, branch_a := 0, branch_b := 0 })],
    type_in := [FUNCTION_IN_INTEGER, FUNCTION_IN_VECTOR], type_out := FUNCTION_OUT_VOID }

/-- Modelled from the spec: the instruction fields (`ppu_instruction.h` is not
part of the translated sources): the primary opcode is in the top 6 bits, and
the extended opcode of the forms of primary opcode 19 is the 10-bit field
above the lowest bit. -/
def refFields : Fields :=
  { opcode := fun w => w / 67108864 % 64
    op19 := fun w => w / 2 % 1024 }

/-- A memory image with a `bcctr` in the middle of a function: `beq +8`, then
`bctr`, then `blr`. -/
def imageBcctr : Memory := imageAt 0x10000 [0x41820008, 0x4e800420, 0x4e800020]

/-- The function analysed from `imageBcctr`: three blocks of one instruction. -/
def bcctrFunction : Function :=
  { address := 0x10000
    blocks := [(0x10000, { address := 0x10000, size := 4, branch_a := 0x10008,
                           branch_b := 0x10004 }),
               (0x10004, { address := 0x10004, size := 4, branch_a := 0, branch_b := 0 }),
               (0x10008, { address := 0x10008, size := 4, branch_a := 0, branch_b := 0 })]
    type_in := []
    type_out := FUNCTION_OUT_VOID }

/-- A memory image holding the stub `bctr` alone. -/
def imageStub : Memory := imageAt 0x10000 [0x4e800420]

/-- The single-block function analysed from `imageStub`. -/
def stubFunction : Function :=
  { address := 0x10000,
    blocks := [(0x10000, { address := 0x10000, size := 4, branch_a := 0, branch_b := 0 })],
    type_in := [], type_out := FUNCTION_OUT_VOID }

/-- The memory image of scenario 4: two fillers and `b entry`. -/
def image4 : Memory := imageAt 0x10000 [0x60000000, 0x60000000, 0x4BFFFFF8]

/-- The single block of scenario 4. -/
def block4 : Block := { address := 0x10000, size := 12, branch_a := 0x10000, branch_b := 0 }

/-- An analyzer table that records the instruction words its callbacks are
called with: `gpr 0` counts the calls and `gpr n` holds the word of the `n`-th
call. -/
def logTable : AnalyzerTable :=
  { init := { gpr := fun _ => 0, fpr := fun _ => 0, vr := fun _ => 0 }
    run := fun code s =>
      { gpr := fun i =>
          if i = 0 then s.gpr 0 + 1 else if i = s.gpr 0 + 1 then code else s.gpr i
        fpr := s.fpr
        vr := s.vr }
    REG_READ_ORIG := 1
    REG_WRITE := 2 }

/-- The instruction words recorded by `logTable`, in the order of the calls. -/
def analyzed (status : Analyzer) : List Nat :=
  (List.range (status.gpr 0)).map (fun i => status.gpr (i + 1))

/-- A memory image whose entry block jumps: `b +8`, a filler, then the target
block `mr r3,r4; blr` at `0x10008`. -/
def imageJump : Memory := imageAt 0x10000 [0x48000008, 0x60000000, 0x7c832378, 0x4e800020]

/-- The control-flow graph of `imageJump`: the entry block with
`branch_a = 0x10008`, and the target block. -/
def jumpBlocks : List (Nat × Block) :=
  [(0x10000, { address := 0x10000, size := 4, branch_a := 0x10008, branch_b := 0 }),
   (0x10008, { address := 0x10008, size := 8, branch_a := 0, branch_b := 0 })]

/-- A memory image without any instruction: every word reads as zero. -/
def imageBlank : Memory := imageAt 0x10000 []

/-- The function analysed at `0x10004` of `image1`, where the only branch of
the whole address space, the `blr` at `0x10000`, lies right before the entry:
the forward disassembly wraps past `2^32` and the size of the block wraps to
zero. -/
def wrappedFunction : Function :=
  { address := 0x10004,
    blocks := [(0x10004, { address := 0x10004, size := 0, branch_a := 0, branch_b := 0 })],
    type_in := [], type_out := FUNCTION_OUT_VOID }

/-- A memory image whose only non-zero word is the `beq +8` at `0x10000`. -/
def imageBeq : Memory := imageAt 0x10000 [0x41820008]

/-- The function analysed at `0x10004` of `imageBeq`, where the only branch of
the whole address space, the `beq +8` at `0x10000`, lies right before the
entry: the forward disassembly of the entry wraps past `2^32`, the blocks first
built at `0x10004` and at `0x10008` contain no address, and both are built
again as blocks of one instruction without a successor. -/
def orphanFunction : Function :=
  { address := 0x10004
    blocks := [(0x10004, { address := 0x10004, size := 4, branch_a := 0, branch_b := 0 }),
               (0x10008, { address := 0x10008, size := 4, branch_a := 0, branch_b := 0 })]
    type_in := []
    type_out := FUNCTION_OUT_VOID }

/-! ## Ordered maps: basic facts -/

theorem mem_mapAssign_weak {α : Type} (m : List (Nat × α)) (k : Nat) (v : α) (p : Nat × α)
    (h : p ∈ mapAssign m k v) : p = (k, v) ∨ p ∈ m := by
  induction m with
  | nil => simpa [mapAssign] using h
  | cons hd rest ih =>
    obtain ⟨k', v'⟩ := hd
    unfold mapAssign at h
    split_ifs at h with h1 h2
    · rcases List.mem_cons.1 h with h | h
      · exact Or.inl h
      · exact Or.inr h
    · rcases List.mem_cons.1 h with h | h
      · exact Or.inl h
      · exact Or.inr (List.mem_cons_of_mem _ h)
    · rcases List.mem_cons.1 h with h | h
      · exact Or.inr (h ▸ List.mem_cons_self _ _)
      · rcases ih h with h | h
        · exact Or.inl h
        · exact Or.inr (List.mem_cons_of_mem _ h)

theorem mem_mapAssign_self {α : Type} (m : List (Nat × α)) (k : Nat) (v : α) :
    (k, v) ∈ mapAssign m k v := by
  induction m with
  | nil => simp [mapAssign]
  | cons hd rest ih =>
    obtain ⟨k', v'⟩ := hd
    unfold mapAssign
    split_ifs with h1 h2
    · exact List.mem_cons_self _ _
    · exact List.mem_cons_self _ _
    · exact List.mem_cons_of_mem _ ih

theorem mem_mapAssign_of_ne {α : Type} (m : List (Nat × α)) (k : Nat) (v : α) (p : Nat × α)
    (h : p ∈ m) (hne : p.1 ≠ k) : p ∈ mapAssign m k v := by
  induction m with
  | nil => simp at h
  | cons hd rest ih =>
    obtain ⟨k', v'⟩ := hd
    unfold mapAssign
    split_ifs with h1 h2
    · exact List.mem_cons_of_mem _ h
    · rcases List.mem_cons.1 h with h | h
      · subst h
        exact absurd h2.symm hne
      · exact List.mem_cons_of_mem _ h
    · rcases List.mem_cons.1 h with h | h
      · exact h ▸ List.mem_cons_self _ _
      · exact List.mem_cons_of_mem _ (ih h)

theorem hasKey_mapAssign {α : Type} (m : List (Nat × α)) (k : Nat) (v : α) (x : Nat) :
    HasKey (mapAssign m k v) x ↔ x = k ∨ HasKey m x := by
  constructor
  · rintro ⟨w, hw⟩
    rcases mem_mapAssign_weak m k v _ hw with h | h
    · exact Or.inl (congrArg Prod.fst h)
    · exact Or.inr ⟨w, h⟩
  · rintro (h | ⟨w, hw⟩)
    · exact ⟨v, h ▸ mem_mapAssign_self m k v⟩
    · by_cases hx : x = k
      · exact ⟨v, hx ▸ mem_mapAssign_self m x v⟩
      · exact ⟨w, mem_mapAssign_of_ne m k v _ hw hx⟩

theorem sorted_mapAssign {α : Type} (m : List (Nat × α)) (k : Nat) (v : α)
    (hs : MapSorted m) : MapSorted (mapAssign m k v) := by
  induction m with
  | nil => simp [mapAssign, MapSorted]
  | cons hd rest ih =>
    obtain ⟨k', v'⟩ := hd
    unfold MapSorted at hs ⊢
    rw [List.pairwise_cons] at hs
    unfold mapAssign
    split_ifs with h1 h2
    · rw [List.pairwise_cons, List.pairwise_cons]
      refine ⟨?_, hs⟩
      intro p hp
      rcases List.mem_cons.1 hp with hp | hp
      · subst hp; exact h1
      · exact Nat.lt_trans h1 (hs.1 p hp)
    · rw [List.pairwise_cons]
      refine ⟨?_, hs.2⟩
      intro p hp
      have := hs.1 p hp
      simp only at this ⊢
      omega
    · rw [List.pairwise_cons]
      refine ⟨?_, ih hs.2⟩
      intro p hp
      rcases mem_mapAssign_weak rest k v p hp with hp | hp
      · subst hp
        simp only
        omega
      · exact hs.1 p hp

theorem sorted_unique {α : Type} (m : List (Nat × α)) (hs : MapSorted m) (k : Nat) (v w : α)
    (hv : (k, v) ∈ m) (hw : (k, w) ∈ m) : v = w := by
  induction m with
  | nil => simp at hv
  | cons hd rest ih =>
    unfold MapSorted at hs
    rw [List.pairwise_cons] at hs
    rcases List.mem_cons.1 hv with hv | hv <;> rcases List.mem_cons.1 hw with hw | hw
    · rw [← hv] at hw
      exact (Prod.mk.inj hw).2.symm
    · have := hs.1 _ hw
      rw [← hv] at this
      exact absurd this (Nat.lt_irrefl _)
    · have := hs.1 _ hv
      rw [← hw] at this
      exact absurd this (Nat.lt_irrefl _)
    · exact ih hs.2 hv hw

theorem mem_mapAssign_strong {α : Type} (m : List (Nat × α)) (k : Nat) (v : α) (p : Nat × α)
    (hs : MapSorted m) (h : p ∈ mapAssign m k v) : p = (k, v) ∨ (p.1 ≠ k ∧ p ∈ m) := by
  rcases mem_mapAssign_weak m k v p h with h1 | h1
  · exact Or.inl h1
  · by_cases hk : p.1 = k
    · left
      have hs2 := sorted_mapAssign m k v hs
      have hself := mem_mapAssign_self m k v
      obtain ⟨pk, pv⟩ := p
      simp only at hk
      subst hk
      rw [sorted_unique _ hs2 pk pv v h hself]
    · exact Or.inr ⟨hk, h1⟩

theorem mapFind_some_mem {α : Type} (m : List (Nat × α)) (k : Nat) (v : α)
    (h : mapFind m k = some v) : (k, v) ∈ m := by
  induction m with
  | nil => simp [mapFind] at h
  | cons hd rest ih =>
    obtain ⟨k', v'⟩ := hd
    unfold mapFind at h
    split_ifs at h with h1
    · rw [h1, ← Option.some.inj h]
      exact List.mem_cons_self _ _
    · exact List.mem_cons_of_mem _ (ih h)

theorem mapFind_none_not_mem {α : Type} (m : List (Nat × α)) (k : Nat)
    (h : mapFind m k = none) : ¬ HasKey m k := by
  induction m with
  | nil => rintro ⟨v, hv⟩; simp at hv
  | cons hd rest ih =>
    obtain ⟨k', v'⟩ := hd
    unfold mapFind at h
    split_ifs at h with h1
    rintro ⟨v, hv⟩
    rcases List.mem_cons.1 hv with hv | hv
    · exact h1 (Prod.mk.inj hv).1
    · exact ih h ⟨v, hv⟩

/-! ## Properties of `Function::get_type` -/

theorem get_type_args_append (A : AnalyzerTable) (status : Analyzer)
    (regs : List Nat) (acc : List FunctionTypeIn) :
    regs.foldl (Function.get_type.arg A status) acc
      = acc ++ regs.flatMap (fun reg =>
          (if reg < 8 ∧ hasFlag (status.gpr (reg + 3)) A.REG_READ_ORIG = true
            then [FUNCTION_IN_INTEGER] else [])
          ++ (if hasFlag (status.fpr (reg + 1)) A.REG_READ_ORIG = true ∧ reg < 13
            then [FUNCTION_IN_FLOAT] else [])
          ++ (if reg < 12 ∧ hasFlag (status.vr (reg + 2)) A.REG_READ_ORIG = true
            then [FUNCTION_IN_VECTOR] else [])) := by
  induction regs generalizing acc with
  | nil => simp
  | cons reg rest ih =>
    rw [List.foldl_cons, ih]
    simp only [Function.get_type.arg, List.flatMap_cons, Bool.and_eq_true, decide_eq_true_eq]
    by_cases h1 : hasFlag (status.gpr (reg + 3)) A.REG_READ_ORIG = true <;>
    by_cases h2 : hasFlag (status.fpr (reg + 1)) A.REG_READ_ORIG = true <;>
    by_cases h3 : hasFlag (status.vr (reg + 2)) A.REG_READ_ORIG = true <;>
    by_cases h4 : reg < 8 <;> by_cases h5 : reg < 13 <;> by_cases h6 : reg < 12 <;>
    simp [h1, h2, h3, h4, h5, h6]

theorem range13_eq : List.range 13 = [0, 1, 2, 3, 4, 5, 6, 7, 8, 9, 10, 11, 12] := by decide

theorem range12_eq : List.range 12 = [0, 1, 2, 3, 4, 5, 6, 7, 8, 9, 10, 11] := by decide

theorem range8_eq : List.range 8 = [0, 1, 2, 3, 4, 5, 6, 7] := by decide

theorem get_type_args_eq (A : AnalyzerTable) (status : Analyzer) :
    Function.get_type.args A status [] = regTypeIn A status := by
  unfold Function.get_type.args regTypeIn
  rw [get_type_args_append, range13_eq]
  simp

theorem flatMap_three_perm {β : Type} [DecidableEq β] (a b c : Nat → List β) (rs : List Nat) :
    (rs.flatMap (fun r => a r ++ b r ++ c r)).Perm
      (rs.flatMap a ++ rs.flatMap b ++ rs.flatMap c) := by
  induction rs with
  | nil => simp
  | cons r rest ih =>
    simp only [List.flatMap_cons]
    have h1 : (a r ++ b r ++ c r ++ List.flatMap rest (fun r => a r ++ b r ++ c r)).Perm
        (a r ++ b r ++ c r ++ (rest.flatMap a ++ rest.flatMap b ++ rest.flatMap c)) :=
      List.Perm.append_left _ ih
    refine h1.trans ?_
    rw [List.perm_iff_count]
    intro x
    simp only [List.count_append]
    omega

theorem regTypeIn_perm (A : AnalyzerTable) (status : Analyzer) :
    (regTypeIn A status).Perm (specTypeIn A status) := by
  unfold regTypeIn specTypeIn
  refine (flatMap_three_perm _ _ _ _).trans ?_
  rw [range13_eq, range12_eq, range8_eq]
  simp [List.flatMap_cons]

/-! ### Claims on the argument and return types -/

theorem get_type_some (D : Decoder) (M : Memory) (A : AnalyzerTable) (fuel : Nat)
    (f g : Function) (h : Function.get_type D M A fuel f = some g) :
    ∃ status blocks,
      Function.get_type.scan D M A fuel A.init (mapIndex Block.zero f.blocks f.address).1 0
          (mapIndex Block.zero f.blocks f.address).2 = some (status, blocks)
      ∧ g.type_in = Function.get_type.args A status f.type_in
      ∧ g.type_out = Function.get_type.ret A status := by
  unfold Function.get_type at h
  simp only at h
  split at h
  · exact absurd h (by simp)
  · rename_i status blocks hscan
    rw [← Option.some.inj h]
    exact ⟨status, blocks, hscan, rfl, rfl⟩

theorem ret_eq (A : AnalyzerTable) (status : Analyzer) :
    Function.get_type.ret A status =
      if hasFlag (status.fpr 1) A.REG_WRITE then
        highestFloatOut (hasFlag (status.fpr 2) A.REG_WRITE)
          (hasFlag (status.fpr 3) A.REG_WRITE) (hasFlag (status.fpr 4) A.REG_WRITE)
      else if hasFlag (status.vr 2) A.REG_WRITE then FUNCTION_OUT_VECTOR
      else if hasFlag (status.gpr 3) A.REG_WRITE then FUNCTION_OUT_INTEGER
      else FUNCTION_OUT_VOID := by
  unfold Function.get_type.ret highestFloatOut
  cases hasFlag (status.fpr 1) A.REG_WRITE <;> cases hasFlag (status.fpr 2) A.REG_WRITE <;>
  cases hasFlag (status.fpr 3) A.REG_WRITE <;> cases hasFlag (status.fpr 4) A.REG_WRITE <;>
  cases hasFlag (status.vr 2) A.REG_WRITE <;> cases hasFlag (status.gpr 3) A.REG_WRITE <;>
  rfl

theorem highestFloatOut_family (w2 w3 w4 : Bool) :
    highestFloatOut w2 w3 w4 ∈ [FUNCTION_OUT_FLOAT, FUNCTION_OUT_FLOAT_X2,
      FUNCTION_OUT_FLOAT_X3, FUNCTION_OUT_FLOAT_X4] := by
  cases w2 <;> cases w3 <;> cases w4 <;> simp [highestFloatOut]

/-- C6 (as stated, refuted): for the function `blr` whose instruction reads
`GPR[3]`, `GPR[4]` and `FPR[1]` before any write, `get_type` produces
`[INTEGER, FLOAT, INTEGER]`, which is not the list "all integers, then all
floats, then all vectors" `[INTEGER, INTEGER, FLOAT]`. -/
theorem get_type_type_in_not_grouped :
    (Function.get_type refDecoder image1 (tableFrom (statusOf 1 [3, 4] [1] [])) 4
        scenario1).map (fun f => f.type_in)
      = some [FUNCTION_IN_INTEGER, FUNCTION_IN_FLOAT, FUNCTION_IN_INTEGER]
    ∧ [FUNCTION_IN_INTEGER, FUNCTION_IN_FLOAT, FUNCTION_IN_INTEGER]
      ≠ specTypeIn (tableFrom (statusOf 1 [3, 4] [1] [])) (statusOf 1 [3, 4] [1] []) := by
  constructor <;> decide

/-- C6 (amended): when `get_type` finishes on a function whose `type_in` is
empty, the status computed by the entry-path scan determines `type_in` as the
list ordered by register index (for each `reg` in `0..12`: INTEGER if `reg < 8`
and `GPR[reg+3]` has READ_ORIG, then FLOAT if `FPR[reg+1]` has it, then VECTOR
if `reg < 12` and `VR[reg+2]` has it); this list is a permutation of the list
grouped by register class. -/
theorem get_type_type_in (D : Decoder) (M : Memory) (A : AnalyzerTable) (fuel : Nat)
    (f g : Function) (h0 : f.type_in = [])
    (h : Function.get_type D M A fuel f = some g) :
    ∃ status blocks,
      Function.get_type.scan D M A fuel A.init (mapIndex Block.zero f.blocks f.address).1 0
          (mapIndex Block.zero f.blocks f.address).2 = some (status, blocks)
      ∧ g.type_in = regTypeIn A status
      ∧ g.type_in.Perm (specTypeIn A status) := by
  obtain ⟨status, blocks, hscan, hin, _⟩ := get_type_some D M A fuel f g h
  have hg : g.type_in = regTypeIn A status := by
    rw [hin, h0]
    exact get_type_args_eq A status
  exact ⟨status, blocks, hscan, hg, hg ▸ regTypeIn_perm A status⟩

theorem get_type_type_in_witness :
    ∃ status blocks,
      Function.get_type.scan refDecoder image1 (tableFrom (statusOf 1 [3, 4] [1] [])) 4
          (tableFrom (statusOf 1 [3, 4] [1] [])).init
          (mapIndex Block.zero scenario1.blocks scenario1.address).1 0
          (mapIndex Block.zero scenario1.blocks scenario1.address).2 = some (status, blocks)
      ∧ [FUNCTION_IN_INTEGER, FUNCTION_IN_FLOAT, FUNCTION_IN_INTEGER]
          = regTypeIn (tableFrom (statusOf 1 [3, 4] [1] [])) status
      ∧ [FUNCTION_IN_INTEGER, FUNCTION_IN_FLOAT, FUNCTION_IN_INTEGER].Perm
          (specTypeIn (tableFrom (statusOf 1 [3, 4] [1] [])) status) :=
  get_type_type_in refDecoder image1 (tableFrom (statusOf 1 [3, 4] [1] [])) 4 scenario1
    { scenario1 with
      type_in := [FUNCTION_IN_INTEGER, FUNCTION_IN_FLOAT, FUNCTION_IN_INTEGER] }
    rfl (by decide)

/-- C7: when `get_type` finishes, `type_out` follows a fixed precedence over
the status computed by the entry-path scan and is a function of the WRITE bits
of `FPR[1..4]`, `VR[2]` and `GPR[3]` only: a FLOAT-family type (a function of
the WRITE bits of `FPR[2..4]`) when `FPR[1]` has WRITE, otherwise VECTOR when
`VR[2]` has WRITE, otherwise INTEGER when `GPR[3]` has WRITE, otherwise
VOID. -/
theorem get_type_type_out_precedence (D : Decoder) (M : Memory) (A : AnalyzerTable)
    (fuel : Nat) (f g : Function) (h : Function.get_type D M A fuel f = some g) :
    ∃ status blocks,
      Function.get_type.scan D M A fuel A.init (mapIndex Block.zero f.blocks f.address).1 0
          (mapIndex Block.zero f.blocks f.address).2 = some (status, blocks)
      ∧ g.type_out =
          (if hasFlag (status.fpr 1) A.REG_WRITE then
            highestFloatOut (hasFlag (status.fpr 2) A.REG_WRITE)
              (hasFlag (status.fpr 3) A.REG_WRITE) (hasFlag (status.fpr 4) A.REG_WRITE)
          else if hasFlag (status.vr 2) A.REG_WRITE then FUNCTION_OUT_VECTOR
          else if hasFlag (status.gpr 3) A.REG_WRITE then FUNCTION_OUT_INTEGER
          else FUNCTION_OUT_VOID)
      ∧ highestFloatOut (hasFlag (status.fpr 2) A.REG_WRITE)
            (hasFlag (status.fpr 3) A.REG_WRITE) (hasFlag (status.fpr 4) A.REG_WRITE)
          ∈ [FUNCTION_OUT_FLOAT, FUNCTION_OUT_FLOAT_X2, FUNCTION_OUT_FLOAT_X3,
              FUNCTION_OUT_FLOAT_X4] := by
  obtain ⟨status, blocks, hscan, _, hout⟩ := get_type_some D M A fuel f g h
  exact ⟨status, blocks, hscan, by rw [hout]; exact ret_eq A status,
    highestFloatOut_family _ _ _⟩

theorem get_type_type_out_precedence_witness :
    ∃ status blocks,
      Function.get_type.scan refDecoder image1 (tableFrom (statusOf 2 [3] [] [2])) 4
          (tableFrom (statusOf 2 [3] [] [2])).init
          (mapIndex Block.zero scenario1.blocks scenario1.address).1 0
          (mapIndex Block.zero scenario1.blocks scenario1.address).2 = some (status, blocks)
      ∧ FUNCTION_OUT_VECTOR =
          (if hasFlag (status.fpr 1) (tableFrom (statusOf 2 [3] [] [2])).REG_WRITE then
            highestFloatOut (hasFlag (status.fpr 2) (tableFrom (statusOf 2 [3] [] [2])).REG_WRITE)
              (hasFlag (status.fpr 3) (tableFrom (statusOf 2 [3] [] [2])).REG_WRITE)
              (hasFlag (status.fpr 4) (tableFrom (statusOf 2 [3] [] [2])).REG_WRITE)
          else if hasFlag (status.vr 2) (tableFrom (statusOf 2 [3] [] [2])).REG_WRITE
            then FUNCTION_OUT_VECTOR
          else if hasFlag (status.gpr 3) (tableFrom (statusOf 2 [3] [] [2])).REG_WRITE
            then FUNCTION_OUT_INTEGER
          else FUNCTION_OUT_VOID)
      ∧ highestFloatOut (hasFlag (status.fpr 2) (tableFrom (statusOf 2 [3] [] [2])).REG_WRITE)
            (hasFlag (status.fpr 3) (tableFrom (statusOf 2 [3] [] [2])).REG_WRITE)
            (hasFlag (status.fpr 4) (tableFrom (statusOf 2 [3] [] [2])).REG_WRITE)
          ∈ [FUNCTION_OUT_FLOAT, FUNCTION_OUT_FLOAT_X2, FUNCTION_OUT_FLOAT_X3,
              FUNCTION_OUT_FLOAT_X4] :=
  get_type_type_out_precedence refDecoder image1 (tableFrom (statusOf 2 [3] [] [2])) 4
    scenario1 { scenario1 with type_out := FUNCTION_OUT_VECTOR } (by decide)

/-- C8 (as stated, refuted): for the function `blr` whose instruction writes
`FPR[1]` and `FPR[3]` but not `FPR[2]`, `get_type` selects FLOAT_X3, whereas
contiguous promotion gives FLOAT. -/
theorem get_type_float_not_contiguous :
    (Function.get_type refDecoder image1 (tableFrom (statusOf 2 [] [1, 3] [])) 4
        scenario1).map (fun f => f.type_out) = some FUNCTION_OUT_FLOAT_X3
    ∧ hasFlag ((statusOf 2 [] [1, 3] []).fpr 1) (tableFrom (statusOf 2 [] [1, 3] [])).REG_WRITE
        = true
    ∧ hasFlag ((statusOf 2 [] [1, 3] []).fpr 2) (tableFrom (statusOf 2 [] [1, 3] [])).REG_WRITE
        = false
    ∧ FUNCTION_OUT_FLOAT_X3
        ≠ specFloatOut
            (hasFlag ((statusOf 2 [] [1, 3] []).fpr 2)
              (tableFrom (statusOf 2 [] [1, 3] [])).REG_WRITE)
            (hasFlag ((statusOf 2 [] [1, 3] []).fpr 3)
              (tableFrom (statusOf 2 [] [1, 3] [])).REG_WRITE)
            (hasFlag ((statusOf 2 [] [1, 3] []).fpr 4)
              (tableFrom (statusOf 2 [] [1, 3] [])).REG_WRITE) := by
  decide

/-- C8 (amended): when `get_type` finishes and `FPR[1]` has WRITE in the status
computed by the entry-path scan, `type_out` is decided by the highest written
register among `FPR[2..4]`: FLOAT_X4 if `FPR[4]` has WRITE, otherwise FLOAT_X3
if `FPR[3]` has it, otherwise FLOAT_X2 if `FPR[2]` has it, otherwise FLOAT;
this is the contiguous promotion of the specification whenever the written
registers are contiguous (`FPR[3]` written only with `FPR[2]`, `FPR[4]` only
with `FPR[3]`). -/
theorem get_type_float_promotion (D : Decoder) (M : Memory) (A : AnalyzerTable)
    (fuel : Nat) (f g : Function) (h : Function.get_type D M A fuel f = some g) :
    ∃ status blocks,
      Function.get_type.scan D M A fuel A.init (mapIndex Block.zero f.blocks f.address).1 0
          (mapIndex Block.zero f.blocks f.address).2 = some (status, blocks)
      ∧ (hasFlag (status.fpr 1) A.REG_WRITE = true →
          g.type_out
            = highestFloatOut (hasFlag (status.fpr 2) A.REG_WRITE)
                (hasFlag (status.fpr 3) A.REG_WRITE) (hasFlag (status.fpr 4) A.REG_WRITE)
          ∧ ((hasFlag (status.fpr 3) A.REG_WRITE = true →
                hasFlag (status.fpr 2) A.REG_WRITE = true) →
             (hasFlag (status.fpr 4) A.REG_WRITE = true →
                hasFlag (status.fpr 3) A.REG_WRITE = true) →
              g.type_out
                = specFloatOut (hasFlag (status.fpr 2) A.REG_WRITE)
                    (hasFlag (status.fpr 3) A.REG_WRITE)
                    (hasFlag (status.fpr 4) A.REG_WRITE))) := by
  obtain ⟨status, blocks, hscan, _, hout⟩ := get_type_some D M A fuel f g h
  refine ⟨status, blocks, hscan, fun h1 => ?_⟩
  rw [hout, ret_eq, h1]
  unfold highestFloatOut specFloatOut
  cases hasFlag (status.fpr 2) A.REG_WRITE <;>
  cases hasFlag (status.fpr 3) A.REG_WRITE <;> cases hasFlag (status.fpr 4) A.REG_WRITE <;>
  simp

theorem get_type_float_promotion_witness :
    ∃ status blocks,
      Function.get_type.scan refDecoder image1 (tableFrom (statusOf 2 [] [1, 3] [])) 4
          (tableFrom (statusOf 2 [] [1, 3] [])).init
          (mapIndex Block.zero scenario1.blocks scenario1.address).1 0
          (mapIndex Block.zero scenario1.blocks scenario1.address).2 = some (status, blocks)
      ∧ (hasFlag (status.fpr 1) (tableFrom (statusOf 2 [] [1, 3] [])).REG_WRITE = true →
          FUNCTION_OUT_FLOAT_X3
            = highestFloatOut
                (hasFlag (status.fpr 2) (tableFrom (statusOf 2 [] [1, 3] [])).REG_WRITE)
                (hasFlag (status.fpr 3) (tableFrom (statusOf 2 [] [1, 3] [])).REG_WRITE)
                (hasFlag (status.fpr 4) (tableFrom (statusOf 2 [] [1, 3] [])).REG_WRITE)
          ∧ ((hasFlag (status.fpr 3) (tableFrom (statusOf 2 [] [1, 3] [])).REG_WRITE = true →
                hasFlag (status.fpr 2) (tableFrom (statusOf 2 [] [1, 3] [])).REG_WRITE = true) →
             (hasFlag (status.fpr 4) (tableFrom (statusOf 2 [] [1, 3] [])).REG_WRITE = true →
                hasFlag (status.fpr 3) (tableFrom (statusOf 2 [] [1, 3] [])).REG_WRITE = true) →
              FUNCTION_OUT_FLOAT_X3
                = specFloatOut
                    (hasFlag (status.fpr 2) (tableFrom (statusOf 2 [] [1, 3] [])).REG_WRITE)
                    (hasFlag (status.fpr 3) (tableFrom (statusOf 2 [] [1, 3] [])).REG_WRITE)
                    (hasFlag (status.fpr 4) (tableFrom (statusOf 2 [] [1, 3] [])).REG_WRITE))) :=
  get_type_float_promotion refDecoder image1 (tableFrom (statusOf 2 [] [1, 3] [])) 4
    scenario1 { scenario1 with type_out := FUNCTION_OUT_FLOAT_X3 } (by decide)

/-! ## One iteration of the worklist loop -/

theorem scanBlocks_split (addr : Nat) (blocks : List (Nat × Block)) (m key : Nat) (A : Block)
    (h : Function.scanBlocks addr blocks m = BlockScan.split key A) :
    (key, A) ∈ blocks ∧ A.contains addr = true := by
  induction blocks generalizing m with
  | nil => simp [Function.scanBlocks] at h
  | cons hd rest ih =>
    obtain ⟨k, b⟩ := hd
    unfold Function.scanBlocks at h
    simp only at h
    split_ifs at h with h1 h2
    · injection h with hk hb
      subst hk; subst hb
      exact ⟨List.mem_cons_self _ _, h1⟩
    · exact ⟨List.mem_cons_of_mem _ (ih _ h).1, (ih _ h).2⟩
    · exact ⟨List.mem_cons_of_mem _ (ih _ h).1, (ih _ h).2⟩

theorem scanBlocks_bound (addr : Nat) (blocks : List (Nat × Block)) (m maxSize : Nat)
    (h : Function.scanBlocks addr blocks m = BlockScan.bound maxSize) :
    maxSize ≤ m ∧
      ∀ p ∈ blocks, p.2.contains addr = false ∧ maxSize ≤ sub32 p.2.address addr := by
  induction blocks generalizing m with
  | nil =>
    simp only [Function.scanBlocks, BlockScan.bound.injEq] at h
    subst h
    exact ⟨Nat.le_refl _, by simp⟩
  | cons hd rest ih =>
    obtain ⟨k, b⟩ := hd
    unfold Function.scanBlocks at h
    simp only at h
    split_ifs at h with h1 h2
    · have := ih _ h
      refine ⟨by omega, ?_⟩
      intro p hp
      rcases List.mem_cons.1 hp with hp | hp
      · subst hp
        exact ⟨by simpa using h1, this.1⟩
      · exact this.2 p hp
    · have := ih _ h
      refine ⟨this.1, ?_⟩
      intro p hp
      rcases List.mem_cons.1 hp with hp | hp
      · subst hp
        exact ⟨by simpa using h1, by simp only; omega⟩
      · exact this.2 p hp

theorem loopCond_iff (D : Decoder) (code size maxSize : Nat) :
    ((!D.is_branch code || D.is_call code) && decide (size < maxSize)) = true
      ↔ ¬ nonCallBranch D code ∧ size < maxSize := by
  unfold nonCallBranch
  cases D.is_branch code <;> cases D.is_call code <;> simp

theorem grow_inv (D : Decoder) (M : Memory) (maxSize : Nat) (P : Nat → Nat → Nat → Prop)
    (hstep : ∀ addr size code, P addr size code → ¬ nonCallBranch D code → size < maxSize →
      P (add32 addr 4) (add32 size 4) (M.read32 (add32 addr 4)))
    (fuel addr size code : Nat) (r : Nat × Nat × Nat) (h0 : P addr size code)
    (h : Function.grow D M maxSize fuel addr size code = some r) :
    P r.1 r.2.1 r.2.2 ∧ (nonCallBranch D r.2.2 ∨ ¬ r.2.1 < maxSize) := by
  induction fuel generalizing addr size code with
  | zero => simp [Function.grow] at h
  | succ n ih =>
    unfold Function.grow at h
    split_ifs at h with hc
    · rw [loopCond_iff] at hc
      exact ih _ _ _ (hstep _ _ _ h0 hc.1 hc.2) h
    · rw [loopCond_iff] at hc
      have hr := Option.some.inj h
      subst hr
      refine ⟨h0, ?_⟩
      by_cases hb : nonCallBranch D code
      · exact Or.inl hb
      · exact Or.inr (fun hlt => hc ⟨hb, hlt⟩)

theorem pushLabels_some (D : Decoder) (parent : Segment) (code pc : Nat) (labels : List Nat)
    (cur : Block) (labels1 : List Nat) (cur1 : Block)
    (h : Function.pushLabels D parent code pc labels cur = some (labels1, cur1)) :
    ∃ pushed, labels1 = labels ++ pushed
      ∧ (∀ x ∈ pushed, parent.contains x = true
          ∧ ((x = u32 (D.get_target code pc)
                ∧ (D.is_branch_conditional code = true
                    ∨ D.is_branch_unconditional code = true))
              ∨ x = add32 pc 4))
      ∧ cur1.address = cur.address ∧ cur1.size = cur.size
      ∧ (cur1.branch_a = cur.branch_a ∨ cur1.branch_a ∈ pushed)
      ∧ (cur1.branch_b = cur.branch_b ∨ cur1.branch_b ∈ pushed)
      ∧ (uncondNonCall D code → cur1.branch_a ∈ pushed) := by
  unfold Function.pushLabels at h
  unfold uncondNonCall
  by_cases hc : (D.is_branch_conditional code && !D.is_call code) = true <;>
  by_cases hu : (D.is_branch_unconditional code && !D.is_call code) = true <;>
  by_cases ha : parent.contains (u32 (D.get_target code pc)) = true <;>
  by_cases hb : parent.contains (add32 pc 4) = true <;>
  simp only [hc, hu, ha, hb, if_true, if_false, Bool.not_true, Bool.not_false, Bool.or_false,
    Bool.or_true, Bool.false_or, Bool.true_or, Bool.false_eq_true, reduceCtorEq,
    Option.some.injEq, Prod.mk.injEq] at h
  · obtain ⟨h1, h2⟩ := h
    subst h1; subst h2
    exact ⟨[u32 (D.get_target code pc), add32 pc 4, u32 (D.get_target code pc)],
      by simp, by simp_all, rfl, rfl, by simp, by simp, by simp⟩
  · obtain ⟨h1, h2⟩ := h
    subst h1; subst h2
    refine ⟨[u32 (D.get_target code pc), add32 pc 4], by simp, by simp_all, rfl, rfl,
      by simp, by simp, ?_⟩
    intro hh
    simp [hh.1, hh.2] at hu
  · obtain ⟨h1, h2⟩ := h
    subst h1; subst h2
    exact ⟨[u32 (D.get_target code pc)], by simp, by simp_all, rfl, rfl, by simp, by simp,
      by simp⟩
  · obtain ⟨h1, h2⟩ := h
    subst h1; subst h2
    exact ⟨[u32 (D.get_target code pc)], by simp, by simp_all, rfl, rfl, by simp, by simp,
      by simp⟩
  · obtain ⟨h1, h2⟩ := h
    subst h1; subst h2
    refine ⟨[], by simp, by simp, rfl, rfl, by simp, by simp, ?_⟩
    intro hh
    simp [hh.1, hh.2] at hu
  · obtain ⟨h1, h2⟩ := h
    subst h1; subst h2
    refine ⟨[], by simp, by simp, rfl, rfl, by simp, by simp, ?_⟩
    intro hh
    simp [hh.1, hh.2] at hu
  · obtain ⟨h1, h2⟩ := h
    subst h1; subst h2
    refine ⟨[], by simp, by simp, rfl, rfl, by simp, by simp, ?_⟩
    intro hh
    simp [hh.1, hh.2] at hu
  · obtain ⟨h1, h2⟩ := h
    subst h1; subst h2
    refine ⟨[], by simp, by simp, rfl, rfl, by simp, by simp, ?_⟩
    intro hh
    simp [hh.1, hh.2] at hu

theorem step_cases (D : Decoder) (M : Memory) (parent : Segment) (fuel front : Nat)
    (rest : List Nat) (blocks : List (Nat × Block)) (st1 : CfgState)
    (h : Function.step D M parent fuel front rest blocks = Run.done st1) :
    (∃ key A, (key, A) ∈ blocks ∧ A.contains front = true ∧ st1.labels = rest
        ∧ st1.blocks = mapAssign
            (mapAssign blocks key
              { A with size := sub32 front A.address, branch_a := front, branch_b := 0 })
            front
            { address := front, size := sub32 A.size (sub32 front A.address),
              branch_a := A.branch_a, branch_b := A.branch_b })
    ∨ (∃ maxSize pc size code pushed cur1,
        Function.scanBlocks front blocks 4294967295 = BlockScan.bound maxSize
        ∧ Function.grow D M maxSize fuel front 4 (M.read32 front) = some (pc, size, code)
        ∧ st1.labels = rest ++ pushed
        ∧ (∀ x ∈ pushed, parent.contains x = true
            ∧ ((x = u32 (D.get_target code pc)
                  ∧ (D.is_branch_conditional code = true
                      ∨ D.is_branch_unconditional code = true))
                ∨ x = add32 pc 4))
        ∧ cur1.address = front ∧ cur1.size = size
        ∧ (cur1.branch_a = 0 ∨ cur1.branch_a ∈ pushed)
        ∧ (cur1.branch_b = 0 ∨ cur1.branch_b ∈ pushed)
        ∧ (uncondNonCall D code → cur1.branch_a ∈ pushed)
        ∧ st1.blocks = mapAssign blocks front cur1) := by
  unfold Function.step at h
  simp only at h
  split at h
  · rename_i key A hscan
    left
    have hs := scanBlocks_split _ _ _ _ _ hscan
    injection h with h
    subst h
    exact ⟨key, A, hs.1, hs.2, rfl, rfl⟩
  · rename_i maxSize hscan
    right
    split at h
    · exact absurd h (by simp)
    · rename_i pc size code hgrow
      split at h
      · exact absurd h (by simp)
      · rename_i labels1 cur1 hpush
        injection h with h
        subst h
        obtain ⟨pushed, hl, hp, ha, hsz, hba, hbb, hu⟩ := pushLabels_some _ _ _ _ _ _ _ _ hpush
        refine ⟨maxSize, pc, size, code, pushed, cur1, hscan, hgrow, ?_, hp, ha, hsz, hba, hbb,
          hu, rfl⟩
        simp [hl]

theorem cfg_inv (D : Decoder) (M : Memory) (parent : Segment) (fuel : Nat)
    (P : CfgState → Prop)
    (hstep : ∀ front rest blocks st1, P { labels := front :: rest, blocks := blocks } →
      Function.step D M parent fuel front rest blocks = Run.done st1 → P st1)
    (n : Nat) (st : CfgState) (blocks : List (Nat × Block)) (h0 : P st)
    (h : Function.cfg D M parent fuel n st = Run.done blocks) :
    P { labels := [], blocks := blocks } := by
  induction n generalizing st with
  | zero => simp [Function.cfg] at h
  | succ n ih =>
    obtain ⟨labels, bl⟩ := st
    unfold Function.cfg at h
    simp only at h
    split at h
    · injection h with h
      subst h
      exact h0
    · rename_i front rest
      split at h
      · exact absurd h (by simp)
      · exact absurd h (by simp)
      · rename_i st1 hst
        exact ih st1 (hstep _ _ _ _ h0 hst) h

theorem mapIndex_cases {α : Type} (dflt : α) (m : List (Nat × α)) (k : Nat) :
    ((mapIndex dflt m k).2 = m ∧ (k, (mapIndex dflt m k).1) ∈ m)
    ∨ (¬ HasKey m k ∧ (mapIndex dflt m k).1 = dflt
        ∧ (mapIndex dflt m k).2 = mapAssign m k dflt) := by
  unfold mapIndex
  split
  · rename_i v hv
    exact Or.inl ⟨rfl, mapFind_some_mem m k v hv⟩
  · rename_i hv
    exact Or.inr ⟨mapFind_none_not_mem m k hv, rfl, rfl⟩

/-- What a read access `blocks[k]` can do to the map: nothing, or add a
value-initialised block under a fresh key. -/
theorem mapIndex_frame (m : List (Nat × Block)) (k : Nat) :
    (∀ p ∈ m, p ∈ (mapIndex Block.zero m k).2)
    ∧ (∀ p ∈ (mapIndex Block.zero m k).2, p ∈ m ∨ p = (k, Block.zero))
    ∧ (MapSorted m → MapSorted (mapIndex Block.zero m k).2) := by
  rcases mapIndex_cases Block.zero m k with ⟨h1, _⟩ | ⟨h1, _, h3⟩
  · rw [h1]
    exact ⟨fun p hp => hp, fun p hp => Or.inl hp, fun hs => hs⟩
  · rw [h3]
    refine ⟨?_, ?_, fun hs => sorted_mapAssign _ _ _ hs⟩
    · intro p hp
      refine mem_mapAssign_of_ne _ _ _ _ hp ?_
      intro hk
      exact h1 ⟨p.2, by rw [← hk]; exact hp⟩
    · intro p hp
      rcases mem_mapAssign_weak _ _ _ _ hp with h | h
      · exact Or.inr h
      · exact Or.inl h

theorem scan_frame (D : Decoder) (M : Memory) (A : AnalyzerTable) (fuel : Nat)
    (status : Analyzer) (block : Block) (offset : Nat) (blocks : List (Nat × Block))
    (r : Analyzer × List (Nat × Block))
    (h : Function.get_type.scan D M A fuel status block offset blocks = some r) :
    (∀ p ∈ blocks, p ∈ r.2)
    ∧ (∀ p ∈ r.2, p ∈ blocks ∨ p.2 = Block.zero)
    ∧ (MapSorted blocks → MapSorted r.2) := by
  induction fuel generalizing status block offset blocks with
  | zero => simp [Function.get_type.scan] at h
  | succ n ih =>
    unfold Function.get_type.scan at h
    simp only at h
    split_ifs at h with h1 h2 h3
    · injection h with h
      subst h
      exact ⟨fun p hp => hp, fun p hp => Or.inl hp, fun hs => hs⟩
    · have hi := ih _ _ _ _ h
      have hf := mapIndex_frame blocks block.branch_a
      refine ⟨fun p hp => hi.1 p (hf.1 p hp), ?_, fun hs => hi.2.2 (hf.2.2 hs)⟩
      intro p hp
      rcases hi.2.1 p hp with hp | hp
      · rcases hf.2.1 p hp with hp | hp
        · exact Or.inl hp
        · exact Or.inr (by rw [hp])
      · exact Or.inr hp
    · exact ih _ _ _ _ h
    · injection h with h
      subst h
      exact ⟨fun p hp => hp, fun p hp => Or.inl hp, fun hs => hs⟩

theorem get_type_frame (D : Decoder) (M : Memory) (A : AnalyzerTable) (fuel : Nat)
    (f g : Function) (h : Function.get_type D M A fuel f = some g) :
    g.address = f.address
    ∧ (∀ p ∈ f.blocks, p ∈ g.blocks)
    ∧ (∀ p ∈ g.blocks, p ∈ f.blocks ∨ p.2 = Block.zero)
    ∧ (MapSorted f.blocks → MapSorted g.blocks) := by
  unfold Function.get_type at h
  simp only at h
  split at h
  · exact absurd h (by simp)
  · rename_i status blocks hscan
    injection h with h
    subst h
    have hi := scan_frame _ _ _ _ _ _ _ _ _ hscan
    have hf := mapIndex_frame f.blocks f.address
    refine ⟨rfl, fun p hp => hi.1 p (hf.1 p hp), ?_, fun hs => hi.2.2 (hf.2.2 hs)⟩
    intro p hp
    rcases hi.2.1 p hp with hp | hp
    · rcases hf.2.1 p hp with hp | hp
      · exact Or.inl hp
      · exact Or.inr (by rw [hp])
    · exact Or.inr hp

theorem analyze_done (D : Decoder) (M : Memory) (A : AnalyzerTable) (parent : Segment)
    (fuel entry : Nat) (f : Function)
    (h : Function.analyze D M A parent fuel entry = Run.done f) :
    ∃ blocks,
      Function.cfg D M parent fuel fuel { labels := [entry], blocks := [] } = Run.done blocks
      ∧ Function.get_type D M A fuel
          { address := entry, blocks := blocks, type_in := [],
            type_out := FUNCTION_OUT_VOID } = some f := by
  unfold Function.analyze at h
  split at h
  · exact absurd h (by simp)
  · exact absurd h (by simp)
  · rename_i blocks hcfg
    split at h
    · exact absurd h (by simp)
    · rename_i g hg
      injection h with h
      subst h
      exact ⟨blocks, hcfg, hg⟩

/-! ## Closed control-flow graph -/

theorem closed_step (D : Decoder) (M : Memory) (parent : Segment) (fuel front : Nat)
    (rest : List Nat) (blocks : List (Nat × Block)) (st1 : CfgState)
    (h0 : Closed { labels := front :: rest, blocks := blocks })
    (h : Function.step D M parent fuel front rest blocks = Run.done st1) : Closed st1 := by
  obtain ⟨labels1, blocks1⟩ := st1
  -- successors known before the iteration stay known after it
  have keep : ∀ x : Nat, (∀ y, HasKey blocks y → HasKey blocks1 y) → HasKey blocks1 front →
      (∀ y ∈ rest, y ∈ labels1) →
      (HasKey blocks x ∨ x ∈ front :: rest) → (HasKey blocks1 x ∨ x ∈ labels1) := by
    intro x hk hf hr hx
    rcases hx with hx | hx
    · exact Or.inl (hk x hx)
    · rcases List.mem_cons.1 hx with hx | hx
      · exact Or.inl (hx ▸ hf)
      · exact Or.inr (hr x hx)
  rcases step_cases _ _ _ _ _ _ _ _ h with
    ⟨key, A, hA, _, hl, hb⟩ | ⟨maxSize, pc, size, code, pushed, cur1, _, _, hl, _, _, _, hba,
      hbb, _, hb⟩
  · simp only at hl hb
    subst hl; subst hb
    have hk : ∀ y, HasKey blocks y → HasKey (mapAssign (mapAssign blocks key
        { A with size := sub32 front A.address, branch_a := front, branch_b := 0 }) front
        { address := front, size := sub32 A.size (sub32 front A.address),
          branch_a := A.branch_a, branch_b := A.branch_b }) y := by
      intro y hy
      rw [hasKey_mapAssign, hasKey_mapAssign]
      exact Or.inr (Or.inr hy)
    have hf : HasKey (mapAssign (mapAssign blocks key
        { A with size := sub32 front A.address, branch_a := front, branch_b := 0 }) front
        { address := front, size := sub32 A.size (sub32 front A.address),
          branch_a := A.branch_a, branch_b := A.branch_b }) front := by
      rw [hasKey_mapAssign]
      exact Or.inl rfl
    intro p hp
    rcases mem_mapAssign_weak _ _ _ _ hp with hp | hp
    · subst hp
      exact ⟨fun hne => keep _ hk hf (fun y hy => hy) ((h0 _ hA).1 hne),
        fun hne => keep _ hk hf (fun y hy => hy) ((h0 _ hA).2 hne)⟩
    · rcases mem_mapAssign_weak _ _ _ _ hp with hp | hp
      · subst hp
        exact ⟨fun _ => Or.inl hf, fun hne => absurd rfl hne⟩
      · exact ⟨fun hne => keep _ hk hf (fun y hy => hy) ((h0 _ hp).1 hne),
          fun hne => keep _ hk hf (fun y hy => hy) ((h0 _ hp).2 hne)⟩
  · simp only at hl hb
    subst hl; subst hb
    have hk : ∀ y, HasKey blocks y → HasKey (mapAssign blocks front cur1) y := by
      intro y hy
      rw [hasKey_mapAssign]
      exact Or.inr hy
    have hf : HasKey (mapAssign blocks front cur1) front := by
      rw [hasKey_mapAssign]
      exact Or.inl rfl
    have hr : ∀ y ∈ rest, y ∈ rest ++ pushed := fun y hy => List.mem_append_left _ hy
    intro p hp
    rcases mem_mapAssign_weak _ _ _ _ hp with hp | hp
    · subst hp
      refine ⟨fun hne => ?_, fun hne => ?_⟩
      · rcases hba with hba | hba
        · exact absurd hba hne
        · exact Or.inr (List.mem_append_right _ hba)
      · rcases hbb with hbb | hbb
        · exact absurd hbb hne
        · exact Or.inr (List.mem_append_right _ hbb)
    · exact ⟨fun hne => keep _ hk hf hr ((h0 _ hp).1 hne),
        fun hne => keep _ hk hf hr ((h0 _ hp).2 hne)⟩

/-- C2: when `Function.analyze` returns true, every non-zero `branch_a` and
every non-zero `branch_b` of every block of the resulting map is the key of a
block of the same map. -/
theorem analyze_closed_cfg (D : Decoder) (M : Memory) (A : AnalyzerTable) (parent : Segment)
    (fuel entry : Nat) (f : Function)
    (h : Function.analyze D M A parent fuel entry = Run.done f) :
    ∀ p ∈ f.blocks,
      (p.2.branch_a ≠ 0 → ∃ b, (p.2.branch_a, b) ∈ f.blocks)
      ∧ (p.2.branch_b ≠ 0 → ∃ b, (p.2.branch_b, b) ∈ f.blocks) := by
  obtain ⟨blocks, hcfg, hget⟩ := analyze_done _ _ _ _ _ _ _ h
  have hclosed : Closed { labels := [], blocks := blocks } :=
    cfg_inv D M parent fuel Closed (closed_step D M parent fuel) fuel _ _
      (by intro p hp; simp at hp) hcfg
  obtain ⟨_, hsub, hsup, _⟩ := get_type_frame _ _ _ _ _ _ hget
  simp only at hsub hsup
  intro p hp
  rcases hsup p hp with hp | hp
  · refine ⟨fun hne => ?_, fun hne => ?_⟩
    · rcases (hclosed p hp).1 hne with ⟨b, hb⟩ | hx
      · exact ⟨b, hsub _ hb⟩
      · simp at hx
    · rcases (hclosed p hp).2 hne with ⟨b, hb⟩ | hx
      · exact ⟨b, hsub _ hb⟩
      · simp at hx
  · rw [hp]
    exact ⟨fun hne => absurd rfl hne, fun hne => absurd rfl hne⟩

theorem analyze_closed_cfg_witness :
    Function.analyze refDecoder image3 nullTable { address := 0x10000, size := 24 } 10 0x10000
      = Run.done scenario3
    ∧ (∃ b, (0x10010, b) ∈ scenario3.blocks) ∧ (∃ b, (0x10004, b) ∈ scenario3.blocks) :=
  ⟨by decide,
   ((analyze_closed_cfg refDecoder image3 nullTable { address := 0x10000, size := 24 } 10
      0x10000 scenario3 (by decide)
      (0x10000, { address := 0x10000, size := 4, branch_a := 0x10010, branch_b := 0x10004 })
      (by decide)).1 (by decide)),
   ((analyze_closed_cfg refDecoder image3 nullTable { address := 0x10000, size := 24 } 10
      0x10000 scenario3 (by decide)
      (0x10000, { address := 0x10000, size := 4, branch_a := 0x10010, branch_b := 0x10004 })
      (by decide)).2 (by decide))⟩

/-! ## Non-overlap -/

theorem grow_size (D : Decoder) (M : Memory) (maxSize fuel front pc size code : Nat)
    (hf : front % 4 = 0)
    (h : Function.grow D M maxSize fuel front 4 (M.read32 front) = some (pc, size, code)) :
    pc % 4 = 0 ∧ size % 4 = 0 ∧ size < 4294967296
      ∧ ∀ d, d % 4 = 0 → 4 ≤ d → maxSize ≤ d → size ≤ d := by
  have := grow_inv D M maxSize
    (fun addr size _ => addr % 4 = 0 ∧ size % 4 = 0 ∧ size < 4294967296
      ∧ ∀ d, d % 4 = 0 → 4 ≤ d → maxSize ≤ d → size ≤ d)
    (by
      intro addr size code hP _ hlt
      obtain ⟨h1, h2, h3, h4⟩ := hP
      refine ⟨by unfold add32; omega, by unfold add32; omega, by unfold add32; omega, ?_⟩
      intro d hd1 hd2 hd3
      have := h4 d hd1 hd2 hd3
      unfold add32
      omega)
    fuel front 4 (M.read32 front) (pc, size, code)
    ⟨hf, by norm_num, by norm_num, fun d _ hd _ => hd⟩ h
  exact this.1

theorem contains_iff (b : Block) (addr : Nat) (hs : b.size < 4294967296) :
    b.contains addr = true ↔
      b.address ≤ addr ∧ addr < b.address + b.size ∧ b.address + b.size < 4294967296 := by
  unfold Block.contains add32
  simp only [Bool.and_eq_true, decide_eq_true_eq]
  constructor
  · rintro ⟨h1, h2⟩
    omega
  · rintro ⟨h1, h2, h3⟩
    refine ⟨h1, ?_⟩
    rw [Nat.mod_eq_of_lt h3]
    exact h2

theorem tidy_step (D : Decoder) (M : Memory) (parent : Segment) (fuel front : Nat)
    (htarget : AlignedTargets D)
    (rest : List Nat) (blocks : List (Nat × Block)) (st1 : CfgState)
    (h0 : Tidy { labels := front :: rest, blocks := blocks })
    (h : Function.step D M parent fuel front rest blocks = Run.done st1) : Tidy st1 := by
  obtain ⟨labels1, blocks1⟩ := st1
  obtain ⟨hsorted, hkey, hsize, hl4, hk4, hs4, hdis⟩ := h0
  simp only at hsorted hkey hsize hl4 hk4 hs4 hdis
  have hfront : front % 4 = 0 := hl4 front (List.mem_cons_self _ _)
  rcases step_cases _ _ _ _ _ _ _ _ h with
    ⟨key, A, hA, hcont, hl, hb⟩ | ⟨maxSize, pc, size, code, pushed, cur1, hscan, hgrow, hl,
      hpushed, hca, hcs, _, _, _, hb⟩
  · -- the label falls inside block `A`: split
    simp only at hl hb
    subst hl
    have hAk : A.address = key := hkey _ hA
    have hAs := hsize _ hA
    have hA4 := hk4 _ hA
    have hAs4 := hs4 _ hA
    simp only at hAs hA4 hAs4
    rw [contains_iff A front hAs] at hcont
    obtain ⟨hc1, hc2, hc3⟩ := hcont
    have e1 : sub32 front A.address = front - A.address := by unfold sub32; omega
    have e2 : sub32 A.size (front - A.address) = A.size - (front - A.address) := by
      unfold sub32; omega
    rw [e1, e2] at hb
    have hmid := sorted_mapAssign blocks key
      { A with size := front - A.address, branch_a := front, branch_b := 0 } hsorted
    -- origin of every block of the new map
    have origin : ∀ p ∈ blocks1,
        p = (front, { address := front, size := A.size - (front - A.address),
                      branch_a := A.branch_a, branch_b := A.branch_b })
        ∨ (key ≠ front ∧ p = (key, { A with size := front - A.address, branch_a := front,
                                             branch_b := 0 }))
        ∨ (p.1 ≠ front ∧ p.1 ≠ key ∧ p ∈ blocks) := by
      intro p hp
      rw [hb] at hp
      rcases mem_mapAssign_strong _ _ _ _ hmid hp with hp | ⟨hne, hp⟩
      · exact Or.inl hp
      · rcases mem_mapAssign_strong _ _ _ _ hsorted hp with hp | ⟨hne2, hp⟩
        · right; left
          refine ⟨?_, hp⟩
          rw [hp] at hne
          exact hne
        · exact Or.inr (Or.inr ⟨hne, hne2, hp⟩)
    refine ⟨?_, ?_, ?_, ?_, ?_, ?_, ?_⟩
    · rw [hb]; exact sorted_mapAssign _ _ _ hmid
    · intro p hp
      rcases origin p hp with hp | ⟨_, hp⟩ | ⟨_, _, hp⟩
      · rw [hp]
      · rw [hp]; exact hAk
      · exact hkey p hp
    · intro p hp
      rcases origin p hp with hp | ⟨_, hp⟩ | ⟨_, _, hp⟩
      · rw [hp]; simp only; omega
      · rw [hp]; simp only; omega
      · exact hsize p hp
    · intro l hl
      exact hl4 l (List.mem_cons_of_mem _ hl)
    · intro p hp
      rcases origin p hp with hp | ⟨_, hp⟩ | ⟨_, _, hp⟩
      · rw [hp]; exact hfront
      · rw [hp]; exact hA4
      · exact hk4 p hp
    · intro p hp
      rcases origin p hp with hp | ⟨_, hp⟩ | ⟨_, _, hp⟩
      · rw [hp]; simp only; omega
      · rw [hp]; simp only; omega
      · exact hs4 p hp
    · intro p hp q hq hne hnp hnq
      have hAw : NoWrap A := hc3
      have hAq : ∀ q ∈ blocks, q.1 ≠ key → NoWrap q.2 →
          A.address + A.size ≤ q.2.address ∨ q.2.address + q.2.size ≤ A.address :=
        fun q hq hn hw => hdis (key, A) hA q hq (fun e => hn e.symm) hAw hw
      rcases origin p hp with hp | ⟨hkf, hp⟩ | ⟨hp1, hp2, hp⟩ <;>
      rcases origin q hq with hq | ⟨hkf2, hq⟩ | ⟨hq1, hq2, hq⟩
      · rw [hp, hq] at hne; exact absurd rfl hne
      · rw [hp, hq]; simp only; omega
      · have := hAq q hq hq2 hnq
        rw [hp]; simp only; omega
      · rw [hp, hq]; simp only; omega
      · rw [hp, hq] at hne; exact absurd rfl hne
      · have := hAq q hq hq2 hnq
        rw [hp]; simp only; omega
      · have := hAq p hp hp2 hnp
        rw [hq]; simp only; omega
      · have := hAq p hp hp2 hnp
        rw [hq]; simp only; omega
      · exact hdis p hp q hq hne hnp hnq
  · -- a new block is created at the label
    simp only at hl hb
    subst hl
    obtain ⟨hpc4, hsz4, hszlt, hbound⟩ := grow_size _ _ _ _ _ _ _ _ hfront hgrow
    obtain ⟨_, hscan⟩ := scanBlocks_bound _ _ _ _ hscan
    have origin : ∀ p ∈ blocks1, p = (front, cur1) ∨ (p.1 ≠ front ∧ p ∈ blocks) := by
      intro p hp
      rw [hb] at hp
      exact mem_mapAssign_strong _ _ _ _ hsorted hp
    -- a new block ends before every other block that starts behind it
    have fresh : ∀ q ∈ blocks, q.1 ≠ front → NoWrap cur1 → NoWrap q.2 →
        cur1.address + cur1.size ≤ q.2.address ∨ q.2.address + q.2.size ≤ cur1.address := by
      intro q hq hne hn1 hn2
      obtain ⟨hc, hm⟩ := hscan q hq
      have hqa := hkey q hq
      have hq4 := hk4 q hq
      have hqs := hsize q hq
      have hnc : ¬ (q.2.contains front = true) := by rw [hc]; simp
      rw [contains_iff q.2 front hqs] at hnc
      unfold NoWrap at hn1 hn2
      rw [hca, hcs] at hn1 ⊢
      by_cases hlt : front < q.2.address
      · left
        have hd := hbound (sub32 q.2.address front) (by unfold sub32; omega)
          (by unfold sub32; omega) hm
        unfold sub32 at hd
        omega
      · right
        omega
    refine ⟨?_, ?_, ?_, ?_, ?_, ?_, ?_⟩
    · rw [hb]; exact sorted_mapAssign _ _ _ hsorted
    · intro p hp
      rcases origin p hp with hp | ⟨_, hp⟩
      · rw [hp]; exact hca
      · exact hkey p hp
    · intro p hp
      rcases origin p hp with hp | ⟨_, hp⟩
      · rw [hp]; simp only; omega
      · exact hsize p hp
    · intro l hl
      rcases List.mem_append.1 hl with hl | hl
      · exact hl4 l (List.mem_cons_of_mem _ hl)
      · rcases (hpushed l hl).2 with ⟨hx, hcls⟩ | hx
        · have := htarget code pc hpc4
            (hcls.elim (fun h => Or.inl h) (fun h => Or.inr (Or.inl h)))
          rw [hx]; unfold u32; omega
        · rw [hx]; unfold add32; omega
    · intro p hp
      rcases origin p hp with hp | ⟨_, hp⟩
      · rw [hp]; exact hfront
      · exact hk4 p hp
    · intro p hp
      rcases origin p hp with hp | ⟨_, hp⟩
      · rw [hp]; simp only; omega
      · exact hs4 p hp
    · intro p hp q hq hne hnp hnq
      rcases origin p hp with hp | ⟨hp1, hp⟩ <;> rcases origin q hq with hq | ⟨hq1, hq⟩
      · rw [hp, hq] at hne; exact absurd rfl hne
      · rw [hp] at hnp ⊢
        exact fresh q hq hq1 hnp hnq
      · rw [hq] at hnq ⊢
        exact (fresh p hp hp1 hnq hnp).symm
      · exact hdis p hp q hq hne hnp hnq

theorem tidy_cfg (D : Decoder) (M : Memory) (parent : Segment) (fuel entry : Nat)
    (blocks : List (Nat × Block)) (hentry : entry % 4 = 0)
    (htarget : AlignedTargets D)
    (h : Function.cfg D M parent fuel fuel { labels := [entry], blocks := [] }
      = Run.done blocks) :
    Tidy { labels := [], blocks := blocks } := by
  refine cfg_inv D M parent fuel Tidy
    (fun front rest bl st1 => tidy_step D M parent fuel front htarget rest bl st1) fuel _ _ ?_ h
  refine ⟨by simp [MapSorted], ?_, ?_, ?_, ?_, ?_, ?_⟩ <;> simp [hentry]

theorem refDecoder_target_aligned : AlignedTargets refDecoder := by
  intro code pc h _
  simp only [refDecoder]
  split_ifs <;> omega

/-- C1: when `Function.analyze` returns true for a 4-byte-aligned entry, with
a decoder whose branch targets are 4-byte aligned, any two distinct blocks of
the resulting map whose ends `address + size` do not wrap past `2^32` cover
disjoint half-open ranges. -/
theorem analyze_blocks_disjoint (D : Decoder) (M : Memory) (A : AnalyzerTable)
    (parent : Segment) (fuel entry : Nat) (f : Function) (hentry : entry % 4 = 0)
    (htarget : AlignedTargets D)
    (h : Function.analyze D M A parent fuel entry = Run.done f)
    (p q : Nat × Block) (hp : p ∈ f.blocks) (hq : q ∈ f.blocks) (hne : p.2 ≠ q.2)
    (hwp : p.2.address + p.2.size < 4294967296) (hwq : q.2.address + q.2.size < 4294967296) :
    p.2.address + p.2.size ≤ q.2.address ∨ q.2.address + q.2.size ≤ p.2.address := by
  obtain ⟨blocks, hcfg, hget⟩ := analyze_done _ _ _ _ _ _ _ h
  have ht := tidy_cfg D M parent fuel entry blocks hentry htarget hcfg
  obtain ⟨_, _, hsup, hsorted⟩ := get_type_frame _ _ _ _ _ _ hget
  simp only at hsup hsorted
  have hkeys : p.1 ≠ q.1 := by
    intro hk
    apply hne
    obtain ⟨pk, pv⟩ := p
    obtain ⟨qk, qv⟩ := q
    simp only at hk
    subst hk
    exact sorted_unique _ (hsorted ht.sorted) pk pv qv hp hq
  rcases hsup p hp with hp1 | hp1
  · rcases hsup q hq with hq1 | hq1
    · exact ht.disjoint p hp1 q hq1 hkeys hwp hwq
    · right
      rw [hq1]
      simp [Block.zero]
  · left
    rw [hp1]
    simp [Block.zero]

theorem analyze_blocks_disjoint_witness :
    Function.analyze refDecoder image3 nullTable { address := 0x10000, size := 24 } 10 0x10000
      = Run.done scenario3
    ∧ (0x10004 + 12 ≤ 0x10010 ∨ 0x10010 + 8 ≤ 0x10004) :=
  ⟨by decide,
   analyze_blocks_disjoint refDecoder image3 nullTable { address := 0x10000, size := 24 } 10
     0x10000 scenario3 (by decide) refDecoder_target_aligned (by decide)
     (0x10004, { address := 0x10004, size := 12, branch_a := 0, branch_b := 0 })
     (0x10010, { address := 0x10010, size := 8, branch_a := 0, branch_b := 0 })
     (by decide) (by decide) (by decide) (by decide) (by decide)⟩

/-! ## Segment containment of labels, keys and successors -/

theorem inSeg_step (D : Decoder) (M : Memory) (parent : Segment) (fuel front : Nat)
    (rest : List Nat) (blocks : List (Nat × Block)) (st1 : CfgState)
    (h0 : InSeg parent { labels := front :: rest, blocks := blocks })
    (h : Function.step D M parent fuel front rest blocks = Run.done st1) :
    InSeg parent st1 := by
  obtain ⟨labels1, blocks1⟩ := st1
  obtain ⟨hl0, hk0, ha0, hb0⟩ := h0
  simp only at hl0 hk0 ha0 hb0
  have hfront := hl0 front (List.mem_cons_self _ _)
  rcases step_cases _ _ _ _ _ _ _ _ h with
    ⟨key, A, hA, _, hl, hb⟩ | ⟨maxSize, pc, size, code, pushed, cur1, _, _, hl, hpushed, _, _,
      hba, hbb, _, hb⟩
  · simp only at hl hb
    subst hl; subst hb
    have origin : ∀ p ∈ mapAssign (mapAssign blocks key
        { A with size := sub32 front A.address, branch_a := front, branch_b := 0 }) front
        { address := front, size := sub32 A.size (sub32 front A.address),
          branch_a := A.branch_a, branch_b := A.branch_b },
        p = (front, { address := front, size := sub32 A.size (sub32 front A.address),
                      branch_a := A.branch_a, branch_b := A.branch_b })
        ∨ p = (key, { A with size := sub32 front A.address, branch_a := front, branch_b := 0 })
        ∨ p ∈ blocks := by
      intro p hp
      rcases mem_mapAssign_weak _ _ _ _ hp with hp | hp
      · exact Or.inl hp
      · exact Or.inr (mem_mapAssign_weak _ _ _ _ hp)
    refine ⟨fun l hl => hl0 l (List.mem_cons_of_mem _ hl), ?_, ?_, ?_⟩
    · intro p hp
      rcases origin p hp with hp | hp | hp
      · rw [hp]; exact hfront
      · rw [hp]; exact hk0 (key, A) hA
      · exact hk0 p hp
    · intro p hp hne
      rcases origin p hp with hp | hp | hp
      · rw [hp] at hne ⊢; exact ha0 (key, A) hA hne
      · rw [hp]; exact hfront
      · exact ha0 p hp hne
    · intro p hp hne
      rcases origin p hp with hp | hp | hp
      · rw [hp] at hne ⊢; exact hb0 (key, A) hA hne
      · rw [hp] at hne; exact absurd rfl hne
      · exact hb0 p hp hne
  · simp only at hl hb
    subst hl; subst hb
    refine ⟨?_, ?_, ?_, ?_⟩
    · intro l hl
      rcases List.mem_append.1 hl with hl | hl
      · exact hl0 l (List.mem_cons_of_mem _ hl)
      · exact (hpushed l hl).1
    · intro p hp
      rcases mem_mapAssign_weak _ _ _ _ hp with hp | hp
      · rw [hp]; exact hfront
      · exact hk0 p hp
    · intro p hp hne
      rcases mem_mapAssign_weak _ _ _ _ hp with hp | hp
      · rw [hp] at hne ⊢
        rcases hba with hba | hba
        · exact absurd hba hne
        · exact (hpushed _ hba).1
      · exact ha0 p hp hne
    · intro p hp hne
      rcases mem_mapAssign_weak _ _ _ _ hp with hp | hp
      · rw [hp] at hne ⊢
        rcases hbb with hbb | hbb
        · exact absurd hbb hne
        · exact (hpushed _ hbb).1
      · exact hb0 p hp hne

/-- The entry stays queued until a block is stored under it. -/
theorem entry_step (D : Decoder) (M : Memory) (parent : Segment) (fuel entry front : Nat)
    (rest : List Nat) (blocks : List (Nat × Block)) (st1 : CfgState)
    (h0 : entry ∈ front :: rest ∨ HasKey blocks entry)
    (h : Function.step D M parent fuel front rest blocks = Run.done st1) :
    entry ∈ st1.labels ∨ HasKey st1.blocks entry := by
  rcases step_cases _ _ _ _ _ _ _ _ h with
    ⟨key, A, _, _, hl, hb⟩ | ⟨maxSize, pc, size, code, pushed, cur1, _, _, hl, _, _, _, _, _,
      _, hb⟩
  · rw [hl, hb, hasKey_mapAssign, hasKey_mapAssign]
    rcases h0 with h0 | h0
    · rcases List.mem_cons.1 h0 with h0 | h0
      · exact Or.inr (Or.inl h0)
      · exact Or.inl h0
    · exact Or.inr (Or.inr (Or.inr h0))
  · rw [hl, hb, hasKey_mapAssign]
    rcases h0 with h0 | h0
    · rcases List.mem_cons.1 h0 with h0 | h0
      · exact Or.inr (Or.inl h0)
      · exact Or.inl (List.mem_append_left _ h0)
    · exact Or.inr (Or.inr h0)

/-! ## Memory covered by the blocks -/

theorem grow_scanned (D : Decoder) (M : Memory) (maxSize fuel front pc size code : Nat)
    (hf : front % 4 = 0) (hlt : front < 4294967296)
    (h : Function.grow D M maxSize fuel front 4 (M.read32 front) = some (pc, size, code)) :
    code = M.read32 pc ∧ pc < 4294967296 ∧ add32 pc 4 = add32 front size
      ∧ ∀ o, o % 4 = 0 → o + 4 < size → ¬ nonCallBranch D (M.read32 (add32 front o)) := by
  have := grow_inv D M maxSize
    (fun addr size code => code = M.read32 addr ∧ addr < 4294967296 ∧ size % 4 = 0
      ∧ size < 4294967296 ∧ add32 addr 4 = add32 front size
      ∧ ∀ o, o % 4 = 0 → o + 4 < size → ¬ nonCallBranch D (M.read32 (add32 front o)))
    (by
      intro addr size code hP hnb _
      obtain ⟨h1, h2, h3, h4, h5, h6⟩ := hP
      refine ⟨rfl, by unfold add32; omega, by unfold add32; omega, by unfold add32; omega,
        by unfold add32 at h5 ⊢; omega, ?_⟩
      intro o ho1 ho2
      by_cases hlast : o + 4 < size
      · exact h6 o ho1 hlast
      · have e : add32 front o = addr := by unfold add32 at h5 ho2 ⊢; omega
        rw [e, ← h1]
        exact hnb)
    fuel front 4 (M.read32 front) (pc, size, code)
    ⟨rfl, hlt, by norm_num, by norm_num, rfl, fun o _ ho => by omega⟩ h
  exact ⟨this.1.1, this.1.2.1, this.1.2.2.2.2.1, this.1.2.2.2.2.2⟩

theorem content_step (D : Decoder) (M : Memory) (parent : Segment) (fuel front : Nat)
    (rest : List Nat) (blocks : List (Nat × Block)) (st1 : CfgState)
    (ht : Tidy { labels := front :: rest, blocks := blocks })
    (h0 : Content D M { labels := front :: rest, blocks := blocks })
    (h : Function.step D M parent fuel front rest blocks = Run.done st1) :
    Content D M st1 := by
  obtain ⟨labels1, blocks1⟩ := st1
  obtain ⟨hlt0, hin0, hlast0⟩ := h0
  obtain ⟨hsorted, hkey, hsize, hl4, hk4, hs4, _⟩ := ht
  simp only at hlt0 hin0 hlast0 hsorted hkey hsize hl4 hk4 hs4
  have hfront4 : front % 4 = 0 := hl4 front (List.mem_cons_self _ _)
  have hfrontlt : front < 4294967296 := hlt0 front (List.mem_cons_self _ _)
  have keep : ∀ x : Nat, (∀ y, HasKey blocks y → HasKey blocks1 y) → HasKey blocks1 front →
      (∀ y ∈ rest, y ∈ labels1) →
      (HasKey blocks x ∨ x ∈ front :: rest) → (HasKey blocks1 x ∨ x ∈ labels1) := by
    intro x hk hf hr hx
    rcases hx with hx | hx
    · exact Or.inl (hk x hx)
    · rcases List.mem_cons.1 hx with hx | hx
      · exact Or.inl (hx ▸ hf)
      · exact Or.inr (hr x hx)
  rcases step_cases _ _ _ _ _ _ _ _ h with
    ⟨key, A, hA, hcont, hl, hb⟩ | ⟨maxSize, pc, size, code, pushed, cur1, _, hgrow, hl,
      hpushed, hca, hcs, _, _, hun, hb⟩
  · simp only at hl hb
    subst hl
    have hAs := hsize _ hA
    have hA4 := hk4 _ hA
    have hAk : A.address = key := hkey _ hA
    simp only at hAs hA4
    rw [contains_iff A front hAs] at hcont
    obtain ⟨hc1, hc2, hc3⟩ := hcont
    have e1 : sub32 front A.address = front - A.address := by unfold sub32; omega
    have e2 : sub32 A.size (front - A.address) = A.size - (front - A.address) := by
      unfold sub32; omega
    rw [e1, e2] at hb
    have origin : ∀ p ∈ blocks1,
        p = (front, { address := front, size := A.size - (front - A.address),
                      branch_a := A.branch_a, branch_b := A.branch_b })
        ∨ p = (key, { A with size := front - A.address, branch_a := front, branch_b := 0 })
        ∨ p ∈ blocks := by
      intro p hp
      rw [hb] at hp
      rcases mem_mapAssign_weak _ _ _ _ hp with hp | hp
      · exact Or.inl hp
      · exact Or.inr (mem_mapAssign_weak _ _ _ _ hp)
    have hk : ∀ y, HasKey blocks y → HasKey blocks1 y := by
      intro y hy
      rw [hb, hasKey_mapAssign, hasKey_mapAssign]
      exact Or.inr (Or.inr hy)
    have hf : HasKey blocks1 front := by
      rw [hb, hasKey_mapAssign]
      exact Or.inl rfl
    have shift : ∀ o, add32 front o = add32 A.address (o + (front - A.address)) := by
      intro o; unfold add32; congr 1; omega
    refine ⟨fun l hl => hlt0 l (List.mem_cons_of_mem _ hl), ?_, ?_⟩
    · intro p hp o ho1 ho2
      rcases origin p hp with hp | hp | hp
      · rw [hp] at ho2 ⊢
        simp only at ho2 ⊢
        rw [shift]
        exact hin0 (key, A) hA _ (by omega) (by simp only; omega)
      · rw [hp] at ho2 ⊢
        simp only at ho2 ⊢
        exact hin0 (key, A) hA o ho1 (by simp only; omega)
      · exact hin0 p hp o ho1 ho2
    · intro p hp o ho1 ho2 hu
      rcases origin p hp with hp | hp | hp
      · rw [hp] at ho2 hu ⊢
        simp only at ho2 hu ⊢
        rw [shift] at hu
        exact keep _ hk hf (fun y hy => hy)
          (hlast0 (key, A) hA _ (by omega) (by simp only; omega) hu)
      · rw [hp]
        exact Or.inl hf
      · exact keep _ hk hf (fun y hy => hy) (hlast0 p hp o ho1 ho2 hu)
  · simp only at hl hb
    subst hl
    obtain ⟨hcode, hpclt, hpc, hscanned⟩ := grow_scanned _ _ _ _ _ _ _ _ hfront4 hfrontlt hgrow
    have origin : ∀ p ∈ blocks1, p = (front, cur1) ∨ p ∈ blocks := by
      intro p hp
      rw [hb] at hp
      exact mem_mapAssign_weak _ _ _ _ hp
    have hk : ∀ y, HasKey blocks y → HasKey blocks1 y := by
      intro y hy
      rw [hb, hasKey_mapAssign]
      exact Or.inr hy
    have hf : HasKey blocks1 front := by
      rw [hb, hasKey_mapAssign]
      exact Or.inl rfl
    have hr : ∀ y ∈ rest, y ∈ rest ++ pushed := fun y hy => List.mem_append_left _ hy
    refine ⟨?_, ?_, ?_⟩
    · intro l hl
      rcases List.mem_append.1 hl with hl | hl
      · exact hlt0 l (List.mem_cons_of_mem _ hl)
      · rcases (hpushed l hl).2 with ⟨hx, _⟩ | hx
        · rw [hx]; unfold u32; omega
        · rw [hx]; unfold add32; omega
    · intro p hp o ho1 ho2
      rcases origin p hp with hp | hp
      · rw [hp] at ho2 ⊢
        simp only at ho2 ⊢
        rw [hca]
        exact hscanned o ho1 (by omega)
      · exact hin0 p hp o ho1 ho2
    · intro p hp o ho1 ho2 hu
      rcases origin p hp with hp | hp
      · rw [hp] at ho2 hu ⊢
        simp only at ho2 hu ⊢
        rw [hca] at hu
        have e : add32 front o = pc := by unfold add32 at hpc ⊢; omega
        rw [e, ← hcode] at hu
        exact Or.inr (List.mem_append_right _ (hun hu))
      · exact keep _ hk hf hr (hlast0 p hp o ho1 ho2 hu)

/-- Facts established by the worklist loop for an aligned entry. -/
theorem cfg_facts (D : Decoder) (M : Memory) (parent : Segment) (fuel entry : Nat)
    (blocks : List (Nat × Block)) (hentry : entry % 4 = 0) (hlt : entry < 4294967296)
    (htarget : AlignedTargets D)
    (h : Function.cfg D M parent fuel fuel { labels := [entry], blocks := [] }
      = Run.done blocks) :
    Tidy { labels := [], blocks := blocks } ∧ Content D M { labels := [], blocks := blocks }
      ∧ HasKey blocks entry := by
  have := cfg_inv D M parent fuel
    (fun st => Tidy st ∧ Content D M st ∧ (entry ∈ st.labels ∨ HasKey st.blocks entry))
    (fun front rest bl st1 hP hstep =>
      ⟨tidy_step D M parent fuel front htarget rest bl st1 hP.1 hstep,
       content_step D M parent fuel front rest bl st1 hP.1 hP.2.1 hstep,
       entry_step D M parent fuel entry front rest bl st1 hP.2.2 hstep⟩)
    fuel _ _ ?_ h
  · refine ⟨this.1, this.2.1, ?_⟩
    rcases this.2.2 with h | h
    · simp at h
    · exact h
  · refine ⟨?_, ?_, Or.inl (List.mem_singleton_self _)⟩
    · refine ⟨by simp [MapSorted], ?_, ?_, ?_, ?_, ?_, ?_⟩ <;> simp [hentry]
    · refine ⟨?_, ?_, ?_⟩ <;> simp [hlt]

theorem inSeg_cfg (D : Decoder) (M : Memory) (parent : Segment) (fuel entry : Nat)
    (blocks : List (Nat × Block)) (hentry : parent.contains entry = true)
    (h : Function.cfg D M parent fuel fuel { labels := [entry], blocks := [] }
      = Run.done blocks) :
    InSeg parent { labels := [], blocks := blocks } := by
  refine cfg_inv D M parent fuel (InSeg parent)
    (fun front rest bl st1 => inSeg_step D M parent fuel front rest bl st1) fuel _ _ ?_ h
  refine ⟨?_, ?_, ?_, ?_⟩ <;> simp [hentry]

/-- On a finished control-flow graph the entry-path scan of `get_type` only
reads blocks that exist: the map is left as it is. -/
theorem scan_no_insert (D : Decoder) (M : Memory) (A : AnalyzerTable)
    (blocks : List (Nat × Block))
    (hbranch : ∀ code, D.is_branch_unconditional code = true → D.is_branch code = true)
    (ht : Tidy { labels := [], blocks := blocks })
    (hc : Content D M { labels := [], blocks := blocks })
    (fuel : Nat) (status : Analyzer) (block : Block) (offset : Nat)
    (r : Analyzer × List (Nat × Block))
    (hb : ∃ k, (k, block) ∈ blocks) (ho : offset % 4 = 0)
    (h : Function.get_type.scan D M A fuel status block offset blocks = some r) :
    r.2 = blocks := by
  induction fuel generalizing status block offset with
  | zero => simp [Function.get_type.scan] at h
  | succ n ih =>
    obtain ⟨k, hk⟩ := hb
    unfold Function.get_type.scan at h
    simp only at h
    split_ifs at h with h1 h2 h3
    · injection h with h
      subst h
      rfl
    · have hs4 := ht.sizes4 _ hk
      simp only at hs4
      have hu : uncondNonCall D (M.read32 (add32 block.address offset)) := by
        unfold uncondNonCall
        simpa using h3
      have hkey : HasKey blocks block.branch_a := by
        by_cases hlast : offset + 4 < block.size
        · exfalso
          exact hc.inner _ hk offset ho hlast ⟨hbranch _ hu.1, hu.2⟩
        · rcases hc.last _ hk offset ho (by simp only; omega) hu with h | h
          · exact h
          · simp at h
      rcases mapIndex_cases Block.zero blocks block.branch_a with ⟨e1, e2⟩ | ⟨e1, _⟩
      · rw [e1] at h
        exact ih _ _ _ ⟨_, e2⟩ (by unfold add32; norm_num) h
      · exact absurd hkey e1
    · exact ih _ _ _ ⟨k, hk⟩ (by unfold add32; omega) h
    · injection h with h
      subst h
      rfl

/-- With 4-byte-aligned labels and a decoder for which unconditional branches
are branches, the block map of an accepted function is the map built by the
worklist loop. -/
theorem analyze_blocks (D : Decoder) (M : Memory) (A : AnalyzerTable) (parent : Segment)
    (fuel entry : Nat) (f : Function) (hentry : entry % 4 = 0) (hlt : entry < 4294967296)
    (htarget : AlignedTargets D)
    (hbranch : ∀ code, D.is_branch_unconditional code = true → D.is_branch code = true)
    (h : Function.analyze D M A parent fuel entry = Run.done f) :
    Function.cfg D M parent fuel fuel { labels := [entry], blocks := [] } = Run.done f.blocks
      ∧ Tidy { labels := [], blocks := f.blocks }
      ∧ Content D M { labels := [], blocks := f.blocks } := by
  obtain ⟨blocks, hcfg, hget⟩ := analyze_done _ _ _ _ _ _ _ h
  obtain ⟨ht, hc, hk⟩ := cfg_facts D M parent fuel entry blocks hentry hlt htarget hcfg
  have hfb : f.blocks = blocks := by
    unfold Function.get_type at hget
    simp only at hget
    split at hget
    · exact absurd hget (by simp)
    · rename_i status bl hscan
      injection hget with hget
      subst hget
      simp only
      rcases mapIndex_cases Block.zero blocks entry with ⟨e1, e2⟩ | ⟨e1, _⟩
      · rw [e1] at hscan
        exact scan_no_insert D M A blocks hbranch ht hc fuel _ _ 0 _ ⟨_, e2⟩ rfl hscan
      · exact absurd hk e1
  rw [hfb]
  exact ⟨hcfg, ht, hc⟩

/-! ## Segment analysis: labels and retained functions -/

theorem mem_setInsert (s : List Nat) (a x : Nat) : x ∈ setInsert s a ↔ x = a ∨ x ∈ s := by
  induction s with
  | nil => simp [setInsert]
  | cons y rest ih =>
    unfold setInsert
    split_ifs with h1 h2
    · simp
    · subst h2
      simp
    · simp only [List.mem_cons, ih]
      tauto

theorem slice_currentBlock (D : Decoder) (i code : Nat) (s : Slicing) :
    (Segment.slice D i code s).currentBlock
      = if Segment.current D i code s.currentBlock ≠ 0 ∧ nonCallBranch D code then 0
        else Segment.current D i code s.currentBlock := by
  unfold Segment.slice Segment.current nonCallBranch
  by_cases hc : s.currentBlock = 0 <;> by_cases hi : i = 0 <;>
  by_cases hv : D.is_valid code = true <;> by_cases hb : D.is_branch code = true <;>
  by_cases hk : D.is_call code = true <;>
  simp [hc, hi, hv, hb, hk]

theorem slice_labelBlocks (D : Decoder) (i code : Nat) (s : Slicing) (x : Nat) :
    x ∈ (Segment.slice D i code s).labelBlocks
      ↔ x ∈ s.labelBlocks
        ∨ (Segment.current D i code s.currentBlock ≠ 0 ∧ nonCallBranch D code
            ∧ x = Segment.current D i code s.currentBlock) := by
  unfold Segment.slice Segment.current nonCallBranch
  by_cases hc : s.currentBlock = 0 <;> by_cases hi : i = 0 <;>
  by_cases hv : D.is_valid code = true <;> by_cases hb : D.is_branch code = true <;>
  by_cases hk : D.is_call code = true <;>
  simp [hc, hi, hv, hb, hk, mem_setInsert] <;> tauto

theorem slice_labelCalls (D : Decoder) (i code : Nat) (s : Slicing) (x : Nat) :
    x ∈ (Segment.slice D i code s).labelCalls
      ↔ x ∈ s.labelCalls
        ∨ (Segment.current D i code s.currentBlock ≠ 0 ∧ D.is_call code = true
            ∧ x = u32 (D.get_target code i)) := by
  unfold Segment.slice Segment.current
  by_cases hc : s.currentBlock = 0 <;> by_cases hi : i = 0 <;>
  by_cases hv : D.is_valid code = true <;> by_cases hb : D.is_branch code = true <;>
  by_cases hk : D.is_call code = true <;>
  simp [hc, hi, hv, hb, hk, mem_setInsert] <;> tauto

theorem slice_labelJumps (D : Decoder) (i code : Nat) (s : Slicing) (x : Nat) :
    x ∈ (Segment.slice D i code s).labelJumps
      ↔ x ∈ s.labelJumps
        ∨ (Segment.current D i code s.currentBlock ≠ 0 ∧ nonCallBranch D code
            ∧ ((D.is_branch_conditional code = true
                  ∧ (x = u32 (D.get_target code i) ∨ x = add32 i 4))
                ∨ (D.is_branch_unconditional code = true
                  ∧ x = u32 (D.get_target code i)))) := by
  unfold Segment.slice Segment.current nonCallBranch
  by_cases hc : s.currentBlock = 0 <;> by_cases hi : i = 0 <;>
  by_cases hv : D.is_valid code = true <;> by_cases hb : D.is_branch code = true <;>
  by_cases hk : D.is_call code = true <;>
  by_cases h1 : D.is_branch_conditional code = true <;>
  by_cases h2 : D.is_branch_unconditional code = true <;>
  simp [hc, hi, hv, hb, hk, h1, h2, mem_setInsert] <;> tauto

theorem mem_foldl_setInsert (l acc : List Nat) (x : Nat) :
    x ∈ l.foldl setInsert acc ↔ x ∈ l ∨ x ∈ acc := by
  induction l generalizing acc with
  | nil => simp
  | cons y rest ih =>
    rw [List.foldl_cons, ih, mem_setInsert]
    simp only [List.mem_cons]
    tauto

theorem mem_labelFunctions (s : Slicing) (x : Nat) :
    x ∈ Segment.labelFunctions s ↔
      (x ∈ s.labelBlocks ∧ x ∉ s.labelJumps) ∨ x ∈ s.labelCalls := by
  unfold Segment.labelFunctions
  simp only [mem_foldl_setInsert, List.mem_filter, List.not_mem_nil, or_false]
  have e : (!s.labelJumps.contains x) = true ↔ x ∉ s.labelJumps := by simp
  rw [e]
  tauto

theorem slicing_inv (D : Decoder) (M : Memory) (seg : Segment) (P : Nat → Slicing → Prop)
    (hstep : ∀ i s, P i s → i < add32 seg.address seg.size →
      P (add32 i 4) (Segment.slice D i (M.read32 i) s))
    (fuel i : Nat) (s r : Slicing) (h0 : P i s)
    (h : Segment.slicing D M seg fuel i s = some r) :
    ∃ j, P j r ∧ ¬ j < add32 seg.address seg.size := by
  induction fuel generalizing i s with
  | zero => simp [Segment.slicing] at h
  | succ n ih =>
    unfold Segment.slicing at h
    split_ifs at h with h1
    · exact ih _ _ (hstep i s h0 h1) h
    · injection h with h
      subst h
      exact ⟨i, h0, h1⟩

theorem current_aligned (D : Decoder) (i code cur : Nat) (hi : i % 4 = 0)
    (hc : cur % 4 = 0) : Segment.current D i code cur % 4 = 0 := by
  unfold Segment.current
  split_ifs <;> simp [*]

/-- With a 4-byte-aligned segment, every function label is 4-byte aligned. -/
theorem slicing_aligned (D : Decoder) (M : Memory) (seg : Segment) (fuel : Nat) (r : Slicing)
    (hseg : seg.address % 4 = 0)
    (htarget : AlignedTargets D)
    (h : Segment.slicing D M seg fuel seg.address
      { currentBlock := 0, labelBlocks := [], labelCalls := [], labelJumps := [] } = some r) :
    ∀ x ∈ Segment.labelFunctions r, x % 4 = 0 := by
  obtain ⟨j, hP, _⟩ := slicing_inv D M seg
    (fun i s => i % 4 = 0 ∧ s.currentBlock % 4 = 0 ∧ (∀ x ∈ s.labelBlocks, x % 4 = 0)
      ∧ ∀ x ∈ s.labelCalls, x % 4 = 0)
    (by
      intro i s hP _
      obtain ⟨h1, h2, h3, h4⟩ := hP
      have ht := fun hcall => htarget (M.read32 i) i h1 (Or.inr (Or.inr hcall))
      have hcur := current_aligned D i (M.read32 i) s.currentBlock h1 h2
      refine ⟨by unfold add32; omega, ?_, ?_, ?_⟩
      · rw [slice_currentBlock]
        split_ifs
        · rfl
        · exact hcur
      · intro x hx
        rw [slice_labelBlocks] at hx
        rcases hx with hx | ⟨_, _, hx⟩
        · exact h3 x hx
        · rw [hx]; exact hcur
      · intro x hx
        rw [slice_labelCalls] at hx
        rcases hx with hx | ⟨_, hcall, hx⟩
        · exact h4 x hx
        · have := ht hcall
          rw [hx]; unfold u32; omega)
    fuel seg.address _ r ⟨hseg, by simp, by simp, by simp⟩ h
  intro x hx
  rw [mem_labelFunctions] at hx
  rcases hx with ⟨hx, _⟩ | hx
  · exact hP.2.2.1 x hx
  · exact hP.2.2.2 x hx

theorem analyzeLabels_mem (D : Decoder) (M : Memory) (A : AnalyzerTable) (seg : Segment)
    (fuel : Nat) (labels : List Nat) (functions fns : List (Nat × Function))
    (h : Segment.analyzeLabels D M A seg fuel labels functions = some fns)
    (p : Nat × Function) (hp : p ∈ fns) :
    p ∈ functions ∨ (p.1 ∈ labels ∧ seg.contains p.1 = true
      ∧ Function.analyze D M A seg fuel p.1 = Run.done p.2) := by
  induction labels generalizing functions with
  | nil =>
    simp only [Segment.analyzeLabels, Option.some.injEq] at h
    subst h
    exact Or.inl hp
  | cons label rest ih =>
    have lift : (p.1 ∈ rest ∧ seg.contains p.1 = true
        ∧ Function.analyze D M A seg fuel p.1 = Run.done p.2) →
        (p.1 ∈ label :: rest ∧ seg.contains p.1 = true
        ∧ Function.analyze D M A seg fuel p.1 = Run.done p.2) :=
      fun hx => ⟨List.mem_cons_of_mem _ hx.1, hx.2⟩
    unfold Segment.analyzeLabels at h
    split_ifs at h with hc
    · split at h
      · exact absurd h (by simp)
      · rcases ih _ h with h | h
        · exact Or.inl h
        · exact Or.inr (lift h)
      · rename_i function hf
        rcases ih _ h with h | h
        · rcases mem_mapAssign_weak _ _ _ _ h with h | h
          · right
            rw [h]
            exact ⟨List.mem_cons_self _ _, hc, hf⟩
          · exact Or.inl h
        · exact Or.inr (lift h)
    · rcases ih _ h with h | h
      · exact Or.inl h
      · exact Or.inr (lift h)

/-- A function retained by `Segment.analyze` is the result of
`Function.analyze` on one of the function labels inside the segment. -/
theorem segment_analyze_mem (D : Decoder) (M : Memory) (A : AnalyzerTable) (seg : Segment)
    (fuel : Nat) (fns : List (Nat × Function))
    (h : Segment.analyze D M A seg fuel = some fns) (p : Nat × Function) (hp : p ∈ fns) :
    ∃ r, Segment.slicing D M seg fuel seg.address
        { currentBlock := 0, labelBlocks := [], labelCalls := [], labelJumps := [] } = some r
      ∧ p.1 ∈ Segment.labelFunctions r ∧ seg.contains p.1 = true
      ∧ Function.analyze D M A seg fuel p.1 = Run.done p.2 := by
  unfold Segment.analyze at h
  split at h
  · exact absurd h (by simp)
  · rename_i r hr
    rcases analyzeLabels_mem _ _ _ _ _ _ _ _ h p hp with h | h
    · simp at h
    · exact ⟨r, hr, h⟩

/-! ## The block map after `get_type`, without assumptions on the decoder -/

theorem keyEq_step (D : Decoder) (M : Memory) (parent : Segment) (fuel front : Nat)
    (rest : List Nat) (blocks : List (Nat × Block)) (st1 : CfgState)
    (h0 : ∀ p ∈ blocks, p.2.address = p.1)
    (h : Function.step D M parent fuel front rest blocks = Run.done st1) :
    ∀ p ∈ st1.blocks, p.2.address = p.1 := by
  rcases step_cases _ _ _ _ _ _ _ _ h with
    ⟨key, A, hA, _, _, hb⟩ | ⟨maxSize, pc, size, code, pushed, cur1, _, _, _, _, hca, _, _, _,
      _, hb⟩
  · intro p hp
    rw [hb] at hp
    rcases mem_mapAssign_weak _ _ _ _ hp with hp | hp
    · rw [hp]
    · rcases mem_mapAssign_weak _ _ _ _ hp with hp | hp
      · rw [hp]
        exact h0 (key, A) hA
      · exact h0 p hp
  · intro p hp
    rw [hb] at hp
    rcases mem_mapAssign_weak _ _ _ _ hp with hp | hp
    · rw [hp]
      exact hca
    · exact h0 p hp

/-- On a closed control-flow graph the only block `get_type` can add is a
value-initialised block under key 0. -/
theorem scan_frame_closed (D : Decoder) (M : Memory) (A : AnalyzerTable)
    (blocks0 : List (Nat × Block))
    (hclosed : ∀ p ∈ blocks0, p.2.branch_a ≠ 0 → HasKey blocks0 p.2.branch_a)
    (fuel : Nat) (status : Analyzer) (block : Block) (offset : Nat)
    (blocks : List (Nat × Block)) (r : Analyzer × List (Nat × Block))
    (hb : blocks = blocks0 ∨ blocks = mapAssign blocks0 0 Block.zero)
    (hblock : block.branch_a = 0 ∨ HasKey blocks0 block.branch_a)
    (h : Function.get_type.scan D M A fuel status block offset blocks = some r) :
    r.2 = blocks0 ∨ r.2 = mapAssign blocks0 0 Block.zero := by
  induction fuel generalizing status block offset blocks with
  | zero => simp [Function.get_type.scan] at h
  | succ n ih =>
    unfold Function.get_type.scan at h
    simp only at h
    split_ifs at h with h1 h2 h3
    · injection h with h
      subst h
      exact hb
    · have hsub : ∀ y, HasKey blocks0 y → HasKey blocks y := by
        intro y hy
        rcases hb with hb | hb
        · rw [hb]; exact hy
        · rw [hb, hasKey_mapAssign]; exact Or.inr hy
      rcases mapIndex_cases Block.zero blocks block.branch_a with ⟨e1, e2⟩ | ⟨e1, e2, e3⟩
      · rw [e1] at h
        refine ih _ _ _ _ hb ?_ h
        have hmem : (block.branch_a, (mapIndex Block.zero blocks block.branch_a).1) ∈ blocks0
            ∨ (mapIndex Block.zero blocks block.branch_a).1 = Block.zero := by
          rcases hb with hb | hb
          · rw [hb] at e2 ⊢; exact Or.inl e2
          · rw [hb] at e2 ⊢
            rcases mem_mapAssign_weak _ _ _ _ e2 with e | e
            · exact Or.inr (Prod.mk.inj e).2
            · exact Or.inl e
        rcases hmem with hm | hm
        · by_cases hz : (mapIndex Block.zero blocks block.branch_a).1.branch_a = 0
          · exact Or.inl hz
          · exact Or.inr (hclosed _ hm hz)
        · rw [hm]; exact Or.inl rfl
      · have hz : block.branch_a = 0 := by
          rcases hblock with hz | hk
          · exact hz
          · exact absurd (hsub _ hk) e1
        rw [e3, e2, hz] at h
        refine ih _ _ _ _ ?_ (Or.inl rfl) h
        rcases hb with hb | hb
        · rw [hb]; exact Or.inr rfl
        · exfalso
          apply e1
          rw [hz, hb, hasKey_mapAssign]
          exact Or.inl rfl
    · exact ih _ _ _ _ hb hblock h
    · injection h with h
      subst h
      exact hb

/-- Without any assumption on the decoder: the block map of an accepted
function is the map built by the worklist loop, possibly with one
value-initialised block added under key 0; the blocks built by the loop are
stored under their address and lie in the segment with their successors. -/
theorem analyze_blocks_general (D : Decoder) (M : Memory) (A : AnalyzerTable)
    (parent : Segment) (fuel entry : Nat) (f : Function)
    (hentry : parent.contains entry = true)
    (h : Function.analyze D M A parent fuel entry = Run.done f) :
    ∃ blocks, (f.blocks = blocks ∨ f.blocks = mapAssign blocks 0 Block.zero)
      ∧ InSeg parent { labels := [], blocks := blocks }
      ∧ ∀ p ∈ blocks, p.2.address = p.1 := by
  obtain ⟨blocks, hcfg, hget⟩ := analyze_done _ _ _ _ _ _ _ h
  have hinv := cfg_inv D M parent fuel
    (fun st => Closed st ∧ (∀ p ∈ st.blocks, p.2.address = p.1)
      ∧ (entry ∈ st.labels ∨ HasKey st.blocks entry))
    (fun front rest bl st1 hP hstep =>
      ⟨closed_step D M parent fuel front rest bl st1 hP.1 hstep,
       keyEq_step D M parent fuel front rest bl st1 hP.2.1 hstep,
       entry_step D M parent fuel entry front rest bl st1 hP.2.2 hstep⟩)
    fuel _ _ ⟨by intro p hp; simp at hp, by intro p hp; simp at hp,
      Or.inl (List.mem_singleton_self _)⟩ hcfg
  obtain ⟨hclosed, hkey, hent⟩ := hinv
  simp only at hkey hent
  have hk : HasKey blocks entry := by
    rcases hent with h | h
    · simp at h
    · exact h
  have hcl : ∀ p ∈ blocks, p.2.branch_a ≠ 0 → HasKey blocks p.2.branch_a := by
    intro p hp hne
    rcases (hclosed p hp).1 hne with h | h
    · exact h
    · simp at h
  refine ⟨blocks, ?_, inSeg_cfg D M parent fuel entry blocks hentry hcfg, hkey⟩
  unfold Function.get_type at hget
  simp only at hget
  split at hget
  · exact absurd hget (by simp)
  · rename_i status bl hscan
    injection hget with hget
    subst hget
    simp only
    rcases mapIndex_cases Block.zero blocks entry with ⟨e1, e2⟩ | ⟨e1, _⟩
    · rw [e1] at hscan
      refine scan_frame_closed D M A blocks hcl fuel _ _ 0 blocks _ (Or.inl rfl) ?_ hscan
      by_cases hz : (mapIndex Block.zero blocks entry).1.branch_a = 0
      · exact Or.inl hz
      · exact Or.inr (hcl _ e2 hz)
    · exact absurd hk e1

/-! ## Segment containment -/

theorem segment_contains_bounds (seg : Segment) (x : Nat) (h : seg.contains x = true) :
    seg.address ≤ x ∧ x < seg.address + seg.size ∧ x < 4294967296 := by
  unfold Segment.contains add32 at h
  simp only [Bool.and_eq_true, decide_eq_true_eq] at h
  omega

theorem refDecoder_branch (code : Nat)
    (h : refDecoder.is_branch_unconditional code = true) : refDecoder.is_branch code = true := by
  simp only [refDecoder] at h ⊢
  simp [h]

/-- What is known of a function retained by `Segment.analyze` when the segment
is 4-byte aligned and the decoder is regular. -/
theorem retained_facts (D : Decoder) (M : Memory) (A : AnalyzerTable) (seg : Segment)
    (fuel : Nat) (fns : List (Nat × Function)) (hseg : seg.address % 4 = 0)
    (htarget : AlignedTargets D)
    (hbranch : ∀ code, D.is_branch_unconditional code = true → D.is_branch code = true)
    (h : Segment.analyze D M A seg fuel = some fns) (p : Nat × Function) (hp : p ∈ fns) :
    Tidy { labels := [], blocks := p.2.blocks }
      ∧ Content D M { labels := [], blocks := p.2.blocks }
      ∧ InSeg seg { labels := [], blocks := p.2.blocks } := by
  obtain ⟨r, hr, hlab, hcont, han⟩ := segment_analyze_mem _ _ _ _ _ _ h p hp
  have h4 := slicing_aligned D M seg fuel r hseg htarget hr p.1 hlab
  have hlt := (segment_contains_bounds seg p.1 hcont).2.2
  obtain ⟨hcfg, ht, hc⟩ := analyze_blocks D M A seg fuel p.1 p.2 h4 hlt htarget hbranch han
  exact ⟨ht, hc, inSeg_cfg D M seg fuel p.1 p.2.blocks hcont hcfg⟩

theorem block_in_segment (seg : Segment) (blocks : List (Nat × Block)) (b : Nat × Block)
    (hi : InSeg seg { labels := [], blocks := blocks })
    (hkey : ∀ q ∈ blocks, q.2.address = q.1) (hmem : b ∈ blocks) :
    BlockInSegment seg b.2 := by
  have hk := segment_contains_bounds seg _ (hi.keys b hmem)
  refine ⟨by rw [hkey b hmem]; exact ⟨hk.1, hk.2.1⟩, fun hne => ?_, fun hne => ?_⟩
  · have := segment_contains_bounds seg _ (hi.branch_a b hmem hne)
    exact ⟨this.1, this.2.1⟩
  · have := segment_contains_bounds seg _ (hi.branch_b b hmem hne)
    exact ⟨this.1, this.2.1⟩

/-- With no assumption on the decoder, a block of a retained function lies in
the segment unless it is the value-initialised block under key 0. -/
theorem retained_block_general (D : Decoder) (M : Memory) (A : AnalyzerTable) (seg : Segment)
    (fuel : Nat) (fns : List (Nat × Function))
    (h : Segment.analyze D M A seg fuel = some fns) (p : Nat × Function) (hp : p ∈ fns)
    (b : Nat × Block) (hb : b ∈ p.2.blocks) :
    b = (0, Block.zero) ∨ BlockInSegment seg b.2 := by
  obtain ⟨_, _, _, hcont, han⟩ := segment_analyze_mem _ _ _ _ _ _ h p hp
  obtain ⟨blocks, hfb, hi, hkey⟩ := analyze_blocks_general D M A seg fuel p.1 p.2 hcont han
  rcases hfb with hfb | hfb
  · rw [hfb] at hb
    exact Or.inr (block_in_segment seg blocks b hi hkey hb)
  · rw [hfb] at hb
    rcases mem_mapAssign_weak _ _ _ _ hb with hb | hb
    · exact Or.inl hb
    · exact Or.inr (block_in_segment seg blocks b hi hkey hb)

/-- C3: for every function retained by `Segment.analyze`, every block address
and every non-zero `branch_a` and `branch_b` lies in
`[segment.address, segment.address + segment.size)`. This holds for every
block when the segment is 4-byte aligned and the decoder is regular (direct
targets 4-byte aligned, unconditional branches classified as branches); with
no assumption at all it holds for every block other than a value-initialised
block under key 0, the one block that the read access `blocks[branch_a]` of
`get_type` can add. -/
theorem segment_containment (D : Decoder) (M : Memory) (A : AnalyzerTable) (seg : Segment)
    (fuel : Nat) (fns : List (Nat × Function))
    (h : Segment.analyze D M A seg fuel = some fns) (p : Nat × Function) (hp : p ∈ fns)
    (b : Nat × Block) (hb : b ∈ p.2.blocks) :
    (b = (0, Block.zero) ∨ BlockInSegment seg b.2)
    ∧ (seg.address % 4 = 0 → AlignedTargets D →
        (∀ code, D.is_branch_unconditional code = true → D.is_branch code = true) →
        BlockInSegment seg b.2) := by
  refine ⟨retained_block_general D M A seg fuel fns h p hp b hb, ?_⟩
  intro hseg htarget hbranch
  obtain ⟨ht, _, hi⟩ := retained_facts D M A seg fuel fns hseg htarget hbranch h p hp
  exact block_in_segment seg p.2.blocks b hi ht.key_eq hb

theorem segment_containment_witness :
    Segment.analyze refDecoder image3 nullTable { address := 0x10000, size := 24 } 10
      = some [(0x10000, scenario3)]
    ∧ BlockInSegment { address := 0x10000, size := 24 }
        { address := 0x10000, size := 4, branch_a := 0x10010, branch_b := 0x10004 } :=
  ⟨by decide,
   (segment_containment refDecoder image3 nullTable { address := 0x10000, size := 24 }
      10 [(0x10000, scenario3)] (by decide) (0x10000, scenario3) (by decide)
      (0x10000, { address := 0x10000, size := 4, branch_a := 0x10010, branch_b := 0x10004 })
      (by decide)).2 (by decide) refDecoder_target_aligned refDecoder_branch⟩

/-- C10 (as stated, refuted): in the segment `[0x10000, 0x1000C)` the word at
`0x10008` is a call target followed by no branch inside the segment; the
retained function at `0x10008` has the block `[0x10008, 0x10014)`, which ends
behind the segment end `0x1000C`. -/
theorem block_past_segment_end :
    ∃ fns f b, Segment.analyze refDecoder imagePastEnd nullTable
        { address := 0x10000, size := 12 } 10 = some fns
      ∧ (0x10008, f) ∈ fns ∧ (0x10008, b) ∈ f.blocks
      ∧ ¬ (b.address + b.size ≤ 0x10000 + 12) :=
  ⟨[(0x10000, pastEndCaller), (0x10008, pastEndCallee)], pastEndCallee,
   { address := 0x10008, size := 12, branch_a := 0, branch_b := 0 },
   by decide, by decide, by decide, by decide⟩

/-- C10 (amended): for every function retained by `Segment.analyze`, every
block starts inside the segment (for every block when the segment is 4-byte
aligned and the decoder is regular; with no assumption, for every block other
than a value-initialised block under key 0); its end is within the segment
when the last instruction word of the segment is a non-call branch (segment
size a multiple of 4 below `2^32`), since that is where the forward
disassembly stops. -/
theorem blocks_start_in_segment (D : Decoder) (M : Memory) (A : AnalyzerTable)
    (seg : Segment) (fuel : Nat) (fns : List (Nat × Function))
    (h : Segment.analyze D M A seg fuel = some fns) (p : Nat × Function) (hp : p ∈ fns)
    (b : Nat × Block) (hb : b ∈ p.2.blocks) :
    (b = (0, Block.zero)
      ∨ (seg.address ≤ b.2.address ∧ b.2.address < seg.address + seg.size))
    ∧ (seg.address % 4 = 0 → AlignedTargets D →
        (∀ code, D.is_branch_unconditional code = true → D.is_branch code = true) →
        (seg.address ≤ b.2.address ∧ b.2.address < seg.address + seg.size)
        ∧ (seg.size % 4 = 0 → seg.size < 4294967296 →
            nonCallBranch D (M.read32 (seg.address + seg.size - 4)) →
            b.2.address + b.2.size ≤ seg.address + seg.size)) := by
  refine ⟨(retained_block_general D M A seg fuel fns h p hp b hb).imp id (fun hin => hin.1), ?_⟩
  intro hseg htarget hbranch
  obtain ⟨ht, hc, hi⟩ := retained_facts D M A seg fuel fns hseg htarget hbranch h p hp
  have hcont := hi.keys b hb
  have hk := segment_contains_bounds seg _ hcont
  have he : b.2.address = b.1 := ht.key_eq b hb
  have h4 : b.1 % 4 = 0 := ht.keys4 b hb
  refine ⟨by rw [he]; exact ⟨hk.1, hk.2.1⟩, ?_⟩
  intro hs4 hslt hlast
  by_contra hgt
  unfold Segment.contains add32 at hcont
  simp only [Bool.and_eq_true, decide_eq_true_eq] at hcont
  have hin := hc.inner b hb (seg.address + seg.size - 4 - b.1) (by omega) (by omega)
  have e : add32 b.2.address (seg.address + seg.size - 4 - b.1)
      = seg.address + seg.size - 4 := by
    unfold add32; omega
  rw [e] at hin
  exact hin hlast

theorem blocks_start_in_segment_witness :
    Segment.analyze refDecoder image3 nullTable { address := 0x10000, size := 24 } 10
      = some [(0x10000, scenario3)]
    ∧ (0x10000 ≤ 0x10010 ∧ 0x10010 < 0x10000 + 24)
    ∧ 0x10010 + 8 ≤ 0x10000 + 24 :=
  have w := (blocks_start_in_segment refDecoder image3 nullTable
    { address := 0x10000, size := 24 } 10 [(0x10000, scenario3)] (by decide)
    (0x10000, scenario3) (by decide)
    (0x10010, { address := 0x10010, size := 8, branch_a := 0, branch_b := 0 })
    (by decide)).2 (by decide) refDecoder_target_aligned refDecoder_branch
  ⟨by decide, w.1, w.2 (by decide) (by decide) (by decide)⟩

/-! ## Functions are analysed independently -/

theorem analyzeLabels_keep (D : Decoder) (M : Memory) (A : AnalyzerTable) (seg : Segment)
    (fuel a : Nat) (f : Function) (hf : Function.analyze D M A seg fuel a = Run.done f)
    (labels : List Nat) (functions fns : List (Nat × Function)) (hmem : (a, f) ∈ functions)
    (h : Segment.analyzeLabels D M A seg fuel labels functions = some fns) : (a, f) ∈ fns := by
  induction labels generalizing functions with
  | nil =>
    simp only [Segment.analyzeLabels, Option.some.injEq] at h
    subst h
    exact hmem
  | cons label rest ih =>
    unfold Segment.analyzeLabels at h
    split_ifs at h with hc
    · split at h
      · exact absurd h (by simp)
      · exact ih _ hmem h
      · rename_i function hfun
        refine ih _ ?_ h
        by_cases hl : a = label
        · subst hl
          rw [hf] at hfun
          injection hfun with hfun
          subst hfun
          exact mem_mapAssign_self _ _ _
        · exact mem_mapAssign_of_ne _ _ _ _ hmem hl
    · exact ih _ hmem h

theorem analyzeLabels_complete (D : Decoder) (M : Memory) (A : AnalyzerTable) (seg : Segment)
    (fuel a : Nat) (f : Function) (hf : Function.analyze D M A seg fuel a = Run.done f)
    (hc : seg.contains a = true)
    (labels : List Nat) (functions fns : List (Nat × Function)) (hmem : a ∈ labels)
    (h : Segment.analyzeLabels D M A seg fuel labels functions = some fns) : (a, f) ∈ fns := by
  induction labels generalizing functions with
  | nil => simp at hmem
  | cons label rest ih =>
    by_cases hl : a = label
    · subst hl
      unfold Segment.analyzeLabels at h
      rw [if_pos hc, hf] at h
      exact analyzeLabels_keep D M A seg fuel a f hf rest _ fns (mem_mapAssign_self _ _ _) h
    · have hrest : a ∈ rest := by
        rcases List.mem_cons.1 hmem with hm | hm
        · exact absurd hm hl
        · exact hm
      unfold Segment.analyzeLabels at h
      split_ifs at h with hc2
      · split at h
        · exact absurd h (by simp)
        · exact ih _ hrest h
        · exact ih _ hrest h
      · exact ih _ hrest h

theorem pushLabels_none_iff (D : Decoder) (parent : Segment) (code pc : Nat)
    (labels : List Nat) (cur : Block) :
    Function.pushLabels D parent code pc labels cur = none ↔ SuccessorOutside D parent pc code := by
  unfold Function.pushLabels SuccessorOutside condNonCall uncondNonCall
  by_cases hc : D.is_branch_conditional code = true <;>
  by_cases hu : D.is_branch_unconditional code = true <;>
  by_cases hk : D.is_call code = true <;>
  by_cases ha : parent.contains (u32 (D.get_target code pc)) = true <;>
  by_cases hb : parent.contains (add32 pc 4) = true <;>
  simp [hc, hu, hk, ha, hb]

theorem grow_mono (D : Decoder) (M : Memory) (maxSize fuel fuel1 addr size code : Nat)
    (r : Nat × Nat × Nat) (hle : fuel ≤ fuel1)
    (h : Function.grow D M maxSize fuel addr size code = some r) :
    Function.grow D M maxSize fuel1 addr size code = some r := by
  induction fuel generalizing fuel1 addr size code with
  | zero => simp [Function.grow] at h
  | succ n ih =>
    obtain ⟨m, rfl⟩ : ∃ m, fuel1 = m + 1 := ⟨fuel1 - 1, by omega⟩
    unfold Function.grow at h ⊢
    split_ifs at h ⊢ with hc
    · exact ih _ _ _ _ (by omega) h
    · exact h

theorem step_mono (D : Decoder) (M : Memory) (parent : Segment) (fuel fuel1 front : Nat)
    (rest : List Nat) (blocks : List (Nat × Block)) (hle : fuel ≤ fuel1)
    (hne : Function.step D M parent fuel front rest blocks ≠ Run.timeout) :
    Function.step D M parent fuel1 front rest blocks
      = Function.step D M parent fuel front rest blocks := by
  unfold Function.step at hne ⊢
  simp only at hne ⊢
  split
  · rfl
  · rename_i maxSize hscan
    rw [hscan] at hne
    simp only at hne
    cases hg : Function.grow D M maxSize fuel front 4 (M.read32 front) with
    | none => rw [hg] at hne; exact absurd rfl hne
    | some r => rw [grow_mono D M maxSize fuel fuel1 _ _ _ r hle hg]

theorem cfg_mono (D : Decoder) (M : Memory) (parent : Segment) (fuel fuel1 n n1 : Nat)
    (st : CfgState) (hf : fuel ≤ fuel1) (hn : n ≤ n1)
    (hne : Function.cfg D M parent fuel n st ≠ Run.timeout) :
    Function.cfg D M parent fuel1 n1 st = Function.cfg D M parent fuel n st := by
  induction n generalizing n1 st with
  | zero => simp [Function.cfg] at hne
  | succ n ih =>
    obtain ⟨m, rfl⟩ : ∃ m, n1 = m + 1 := ⟨n1 - 1, by omega⟩
    cases hl : st.labels with
    | nil => simp only [Function.cfg, hl]
    | cons front rest =>
      simp only [Function.cfg, hl] at hne ⊢
      cases hst : Function.step D M parent fuel front rest st.blocks with
      | timeout => rw [hst] at hne; exact absurd rfl hne
      | reject =>
        rw [step_mono D M parent fuel fuel1 front rest st.blocks hf (by rw [hst]; simp), hst]
      | done st1 =>
        rw [step_mono D M parent fuel fuel1 front rest st.blocks hf (by rw [hst]; simp), hst]
        rw [hst] at hne
        exact ih m st1 (by omega) hne

theorem iterate_mono (D : Decoder) (M : Memory) (parent : Segment) (fuel fuel1 n : Nat)
    (st st1 : CfgState) (hf : fuel ≤ fuel1)
    (h : Function.iterate D M parent fuel n st = some st1) :
    Function.iterate D M parent fuel1 n st = some st1 := by
  induction n generalizing st with
  | zero => exact h
  | succ n ih =>
    cases hl : st.labels with
    | nil => simp [Function.iterate, hl] at h
    | cons front rest =>
      simp only [Function.iterate, hl] at h ⊢
      cases hst : Function.step D M parent fuel front rest st.blocks with
      | timeout => rw [hst] at h; exact absurd h (by simp)
      | reject => rw [hst] at h; exact absurd h (by simp)
      | done st2 =>
        rw [hst] at h
        rw [step_mono D M parent fuel fuel1 front rest st.blocks hf (by rw [hst]; simp), hst]
        exact ih _ h

theorem iterate_cfg (D : Decoder) (M : Memory) (parent : Segment) (fuel n k : Nat)
    (st st1 : CfgState) (h : Function.iterate D M parent fuel n st = some st1) :
    Function.cfg D M parent fuel (n + k) st = Function.cfg D M parent fuel k st1 := by
  induction n generalizing st with
  | zero =>
    simp only [Function.iterate, Option.some.injEq] at h
    subst h
    simp
  | succ n ih =>
    rw [show n + 1 + k = (n + k) + 1 by omega]
    cases hl : st.labels with
    | nil => simp [Function.iterate, hl] at h
    | cons front rest =>
      simp only [Function.iterate, hl] at h
      cases hst : Function.step D M parent fuel front rest st.blocks with
      | timeout => rw [hst] at h; exact absurd h (by simp)
      | reject => rw [hst] at h; exact absurd h (by simp)
      | done st2 =>
        rw [hst] at h
        have := ih _ h
        rw [← this]
        conv_lhs => unfold Function.cfg
        simp only [hl, hst]

theorem cfg_reject (D : Decoder) (M : Memory) (parent : Segment) (fuel n : Nat)
    (st : CfgState) (h : Function.cfg D M parent fuel n st = Run.reject) :
    ∃ k st1 front rest, Function.iterate D M parent fuel k st = some st1
      ∧ st1.labels = front :: rest
      ∧ Function.step D M parent fuel front rest st1.blocks = Run.reject := by
  induction n generalizing st with
  | zero => simp [Function.cfg] at h
  | succ n ih =>
    unfold Function.cfg at h
    split at h
    · exact absurd h (by simp)
    · rename_i front rest hl
      cases hst : Function.step D M parent fuel front rest st.blocks with
      | timeout => rw [hst] at h; exact absurd h (by simp)
      | reject => exact ⟨0, st, front, rest, rfl, hl, hst⟩
      | done st2 =>
        rw [hst] at h
        obtain ⟨k, st1, f1, r1, hk, hl1, hs1⟩ := ih _ h
        refine ⟨k + 1, st1, f1, r1, ?_, hl1, hs1⟩
        unfold Function.iterate
        rw [hl]
        simp only
        rw [hst]
        exact hk

theorem step_reject_iff (D : Decoder) (M : Memory) (parent : Segment) (fuel front : Nat)
    (rest : List Nat) (blocks : List (Nat × Block)) :
    Function.step D M parent fuel front rest blocks = Run.reject ↔
      ∃ maxSize pc size code,
        Function.scanBlocks front blocks 4294967295 = BlockScan.bound maxSize
        ∧ Function.grow D M maxSize fuel front 4 (M.read32 front) = some (pc, size, code)
        ∧ SuccessorOutside D parent pc code := by
  unfold Function.step
  simp only
  constructor
  · intro h
    split at h
    · exact absurd h (by simp)
    · rename_i maxSize hscan
      split at h
      · exact absurd h (by simp)
      · rename_i pc size code hgrow
        split at h
        · rename_i hpush
          exact ⟨maxSize, pc, size, code, hscan, hgrow, (pushLabels_none_iff _ _ _ _ _ _).1 hpush⟩
        · exact absurd h (by simp)
  · rintro ⟨maxSize, pc, size, code, hscan, hgrow, hout⟩
    rw [hscan]
    simp only
    rw [hgrow]
    simp only
    rw [(pushLabels_none_iff _ _ _ _ _ _).2 hout]

theorem analyze_reject_iff (D : Decoder) (M : Memory) (A : AnalyzerTable) (parent : Segment)
    (fuel entry : Nat) :
    Function.analyze D M A parent fuel entry = Run.reject ↔
      Function.cfg D M parent fuel fuel { labels := [entry], blocks := [] } = Run.reject := by
  unfold Function.analyze
  split
  · rename_i h; simp [h]
  · rename_i h; simp [h]
  · rename_i blocks h
    rw [h]
    split <;> simp

/-- C4: `Function.analyze` returns false exactly when it creates a block whose
terminating instruction at `pc` is a non-call conditional branch with
`target(pc)` or `pc + 4` outside the parent segment, or a non-call
unconditional branch with `target(pc)` outside it; a function for which it
returns false is not retained by `Segment.analyze`; and in the segment
`[0x10000, 0x10010)` whose entry word is an unconditional branch to `0x20000`
the function is rejected and the segment yields no function. -/
theorem analyze_rejects_iff_successor_outside :
    (∀ (D : Decoder) (M : Memory) (A : AnalyzerTable) (parent : Segment) (entry : Nat),
      (∃ fuel, Function.analyze D M A parent fuel entry = Run.reject) ↔
        ∃ pc code, CreatesBlockEndingAt D M parent entry pc code
          ∧ SuccessorOutside D parent pc code)
    ∧ (∀ (D : Decoder) (M : Memory) (A : AnalyzerTable) (seg : Segment) (fuel fuel1 : Nat)
        (fns : List (Nat × Function)) (a : Nat) (f : Function),
        Segment.analyze D M A seg fuel = some fns →
        Function.analyze D M A seg fuel1 a = Run.reject → (a, f) ∉ fns)
    ∧ (Function.analyze refDecoder image5 nullTable { address := 0x10000, size := 16 } 10
          0x10000 = Run.reject
        ∧ Segment.analyze refDecoder image5 nullTable { address := 0x10000, size := 16 } 10
          = some []) := by
  refine ⟨?_, ?_, by decide, by decide⟩
  · intro D M A parent entry
    constructor
    · rintro ⟨fuel, h⟩
      rw [analyze_reject_iff] at h
      obtain ⟨k, st1, front, rest, hit, hl, hstep⟩ := cfg_reject _ _ _ _ _ _ h
      obtain ⟨maxSize, pc, size, code, hscan, hgrow, hout⟩ :=
        (step_reject_iff _ _ _ _ _ _ _).1 hstep
      exact ⟨pc, code, ⟨fuel, k, st1, front, rest, maxSize, size, hit, hl, hscan, hgrow⟩, hout⟩
    · rintro ⟨pc, code, ⟨fuel, n, st, front, rest, maxSize, size, hit, hl, hscan, hgrow⟩, hout⟩
      have hstep : Function.step D M parent fuel front rest st.blocks = Run.reject :=
        (step_reject_iff _ _ _ _ _ _ _).2 ⟨maxSize, pc, size, code, hscan, hgrow, hout⟩
      have h1 : Function.cfg D M parent fuel (n + 1) { labels := [entry], blocks := [] }
          = Run.reject := by
        rw [iterate_cfg D M parent fuel n 1 _ st hit]
        simp only [Function.cfg, hl, hstep]
      refine ⟨max fuel (n + 1), ?_⟩
      rw [analyze_reject_iff,
        cfg_mono D M parent fuel (max fuel (n + 1)) (n + 1) (max fuel (n + 1)) _
          (Nat.le_max_left _ _) (Nat.le_max_right _ _) (by rw [h1]; simp), h1]
  · intro D M A seg fuel fuel1 fns a f hseg hrej hmem
    obtain ⟨_, _, _, _, han⟩ := segment_analyze_mem _ _ _ _ _ _ hseg (a, f) hmem
    obtain ⟨blocks, hcfg, _⟩ := analyze_done _ _ _ _ _ _ _ han
    rw [analyze_reject_iff] at hrej
    have e1 := cfg_mono D M seg fuel (max fuel fuel1) fuel (max fuel fuel1)
      { labels := [a], blocks := [] } (Nat.le_max_left _ _) (Nat.le_max_left _ _)
      (by rw [hcfg]; simp)
    have e2 := cfg_mono D M seg fuel1 (max fuel fuel1) fuel1 (max fuel fuel1)
      { labels := [a], blocks := [] } (Nat.le_max_right _ _) (Nat.le_max_right _ _)
      (by rw [hrej]; simp)
    rw [hcfg] at e1
    rw [hrej, e1] at e2
    exact absurd e2 (by simp)

theorem analyze_rejects_iff_successor_outside_witness :
    (∃ pc code, CreatesBlockEndingAt refDecoder image5 { address := 0x10000, size := 16 }
        0x10000 pc code
      ∧ SuccessorOutside refDecoder { address := 0x10000, size := 16 } pc code)
    ∧ (0x10000, scenario3) ∉ ([] : List (Nat × Function)) :=
  ⟨(analyze_rejects_iff_successor_outside.1 refDecoder image5 nullTable
      { address := 0x10000, size := 16 } 0x10000).1 ⟨10, by decide⟩,
   analyze_rejects_iff_successor_outside.2.1 refDecoder image5 nullTable
      { address := 0x10000, size := 16 } 10 10 [] 0x10000 scenario3 (by decide) (by decide)⟩

/-! ## The slicing loop computes the label sets of the specification -/

theorem runStart_iff (D : Decoder) (M : Memory) (seg : Segment) (k : Nat) :
    RunStart D M seg k ↔ validAt D M seg k ∧ Fresh D M seg k := by
  unfold RunStart Fresh
  constructor
  · rintro ⟨hv, h⟩
    refine ⟨hv, ?_⟩
    rcases Nat.eq_zero_or_pos k with hk | hk
    · exact Or.inl hk
    · right
      refine ⟨k - 1, by omega, ?_⟩
      rcases h with h | ⟨j, hj, hnv, hbetween⟩ | ⟨j, hj, hb, hbetween⟩
      · exact Or.inl (h (k - 1) (by omega))
      · by_cases e : j = k - 1
        · exact Or.inl (e ▸ hnv)
        · exact Or.inl (hbetween (k - 1) (by omega) (by omega))
      · by_cases e : j = k - 1
        · exact Or.inr (e ▸ hb)
        · exact Or.inl (hbetween (k - 1) (by omega) (by omega))
  · rintro ⟨hv, h⟩
    refine ⟨hv, ?_⟩
    rcases h with h | ⟨p, hp, h | h⟩
    · left
      intro j hj
      omega
    · right; left
      exact ⟨p, by omega, h, fun m h1 h2 => by omega⟩
    · right; right
      exact ⟨p, by omega, h, fun m h1 h2 => by omega⟩

theorem inRun_unique (D : Decoder) (M : Memory) (seg : Segment) (k k1 n : Nat)
    (h : InRun D M seg k n) (h1 : InRun D M seg k1 n) : k = k1 := by
  obtain ⟨hs, hle, hv, hb⟩ := h
  obtain ⟨hs1, hle1, hv1, hb1⟩ := h1
  rw [runStart_iff] at hs hs1
  by_contra hne
  rcases Nat.lt_or_gt_of_ne hne with hlt | hlt
  · rcases hs1.2 with h0 | ⟨p, hp, h | h⟩
    · omega
    · exact h (hv p (by omega) (by omega))
    · exact hb p (by omega) (by omega) h
  · rcases hs.2 with h0 | ⟨p, hp, h | h⟩
    · omega
    · exact h (hv1 p (by omega) (by omega))
    · exact hb1 p (by omega) (by omega) h

theorem slot_ne_zero (seg : Segment) (h0 : seg.address ≠ 0) (k : Nat) : seg.slot k ≠ 0 := by
  unfold Segment.slot
  omega

/-- The value of `currentBlock` while instruction `n` is examined: the start of
the run in which `n` is met, or zero when `n` is invalid. -/
theorem current_run (D : Decoder) (M : Memory) (seg : Segment) (n : Nat) (s : Slicing)
    (h0 : seg.address ≠ 0) (hinv : SliceInv D M seg n s) :
    (validAt D M seg n → ∃ k, InRun D M seg k n
        ∧ Segment.current D (seg.slot n) (M.read32 (seg.slot n)) s.currentBlock = seg.slot k)
    ∧ (¬ validAt D M seg n →
        Segment.current D (seg.slot n) (M.read32 (seg.slot n)) s.currentBlock = 0) := by
  constructor
  · intro hv
    have hv1 : D.is_valid (M.read32 (seg.slot n)) = true := hv
    rcases hinv.cur with ⟨hc, hf⟩ | ⟨k, hc, hk, hs, hrun⟩
    · refine ⟨n, ⟨(runStart_iff D M seg n).2 ⟨hv, hf⟩, Nat.le_refl _, ?_, ?_⟩, ?_⟩
      · intro m h1 h2
        have : m = n := by omega
        rw [this]; exact hv
      · intro m h1 h2
        omega
      · unfold Segment.current
        rw [if_pos hv1, if_pos hc]
    · refine ⟨k, ⟨hs, by omega, ?_, ?_⟩, ?_⟩
      · intro m h1 h2
        by_cases e : m = n
        · rw [e]; exact hv
        · exact (hrun m h1 (by omega)).1
      · intro m h1 h2
        exact (hrun m h1 h2).2
      · unfold Segment.current
        rw [if_pos hv1, if_neg (by rw [hc]; exact slot_ne_zero seg h0 k), hc]
  · intro hv
    have hv1 : ¬ D.is_valid (M.read32 (seg.slot n)) = true := hv
    unfold Segment.current
    rw [if_neg hv1]

theorem current_ne_zero_iff (D : Decoder) (M : Memory) (seg : Segment) (n : Nat) (s : Slicing)
    (h0 : seg.address ≠ 0) (hinv : SliceInv D M seg n s) (Q : Nat → Prop) :
    (Segment.current D (seg.slot n) (M.read32 (seg.slot n)) s.currentBlock ≠ 0
        ∧ Q (Segment.current D (seg.slot n) (M.read32 (seg.slot n)) s.currentBlock))
      ↔ ∃ k, InRun D M seg k n ∧ Q (seg.slot k) := by
  obtain ⟨h1, h2⟩ := current_run D M seg n s h0 hinv
  constructor
  · rintro ⟨hne, hq⟩
    by_cases hv : validAt D M seg n
    · obtain ⟨k, hk, e⟩ := h1 hv
      exact ⟨k, hk, e ▸ hq⟩
    · exact absurd (h2 hv) hne
  · rintro ⟨k, hk, hq⟩
    have hv : validAt D M seg n := hk.2.2.1 n hk.2.1 (Nat.le_refl _)
    obtain ⟨k1, hk1, e⟩ := h1 hv
    have : k = k1 := inRun_unique D M seg k k1 n hk hk1
    subst this
    rw [e]
    exact ⟨slot_ne_zero seg h0 k, hq⟩

theorem sliceInv_step (D : Decoder) (M : Memory) (seg : Segment) (n : Nat) (s : Slicing)
    (h0 : seg.address ≠ 0) (hinv : SliceInv D M seg n s) :
    SliceInv D M seg (n + 1) (Segment.slice D (seg.slot n) (M.read32 (seg.slot n)) s) := by
  obtain ⟨h1, h2⟩ := current_run D M seg n s h0 hinv
  -- membership below `n + 1` splits into membership below `n` and the case `e = n`
  have split : ∀ (R : Nat → Nat → Prop),
      (∃ k e, e < n + 1 ∧ InRun D M seg k e ∧ R k e)
        ↔ (∃ k e, e < n ∧ InRun D M seg k e ∧ R k e) ∨ (∃ k, InRun D M seg k n ∧ R k n) := by
    intro R
    constructor
    · rintro ⟨k, e, he, hr, hR⟩
      by_cases hen : e = n
      · subst hen
        exact Or.inr ⟨k, hr, hR⟩
      · exact Or.inl ⟨k, e, by omega, hr, hR⟩
    · rintro (⟨k, e, he, hr, hR⟩ | ⟨k, hr, hR⟩)
      · exact ⟨k, e, by omega, hr, hR⟩
      · exact ⟨k, n, by omega, hr, hR⟩
  refine ⟨?_, ?_, ?_, ?_⟩
  · rw [slice_currentBlock]
    by_cases hv : validAt D M seg n
    · obtain ⟨k, hk, e⟩ := h1 hv
      by_cases hb : branchAt D M seg n
      · left
        rw [if_pos ⟨by rw [e]; exact slot_ne_zero seg h0 k, hb⟩]
        exact ⟨rfl, Or.inr ⟨n, rfl, Or.inr hb⟩⟩
      · right
        rw [if_neg (fun h => hb h.2), e]
        refine ⟨k, rfl, by have := hk.2.1; omega, hk.1, ?_⟩
        intro m hm1 hm2
        by_cases emn : m = n
        · rw [emn]; exact ⟨hv, hb⟩
        · exact ⟨hk.2.2.1 m hm1 (by omega), hk.2.2.2 m hm1 (by omega)⟩
    · left
      rw [h2 hv]
      simp only [ne_eq, not_true_eq_false, false_and, if_false]
      exact ⟨trivial, Or.inr ⟨n, rfl, Or.inl hv⟩⟩
  · intro x
    rw [slice_labelBlocks, hinv.blocks x,
      split (fun k e => branchAt D M seg e ∧ x = seg.slot k)]
    have := current_ne_zero_iff D M seg n s h0 hinv
      (fun c => nonCallBranch D (M.read32 (seg.slot n)) ∧ x = c)
    simp only at this
    rw [this]
    rfl
  · intro x
    rw [slice_labelJumps, hinv.jumps x,
      split (fun k e => branchAt D M seg e
        ∧ ((D.is_branch_conditional (M.read32 (seg.slot e)) = true
              ∧ (x = u32 (D.get_target (M.read32 (seg.slot e)) (seg.slot e))
                  ∨ x = add32 (seg.slot e) 4))
            ∨ (D.is_branch_unconditional (M.read32 (seg.slot e)) = true
              ∧ x = u32 (D.get_target (M.read32 (seg.slot e)) (seg.slot e)))))]
    have := current_ne_zero_iff D M seg n s h0 hinv
      (fun _ => nonCallBranch D (M.read32 (seg.slot n))
        ∧ ((D.is_branch_conditional (M.read32 (seg.slot n)) = true
              ∧ (x = u32 (D.get_target (M.read32 (seg.slot n)) (seg.slot n))
                  ∨ x = add32 (seg.slot n) 4))
            ∨ (D.is_branch_unconditional (M.read32 (seg.slot n)) = true
              ∧ x = u32 (D.get_target (M.read32 (seg.slot n)) (seg.slot n)))))
    simp only at this
    rw [this]
    rfl
  · intro x
    rw [slice_labelCalls, hinv.calls x,
      split (fun k e => D.is_call (M.read32 (seg.slot e)) = true
        ∧ x = u32 (D.get_target (M.read32 (seg.slot e)) (seg.slot e)))]
    have := current_ne_zero_iff D M seg n s h0 hinv
      (fun _ => D.is_call (M.read32 (seg.slot n)) = true
        ∧ x = u32 (D.get_target (M.read32 (seg.slot n)) (seg.slot n)))
    simp only at this
    rw [this]

/-- When the slicing loop finishes on a segment that does not start at address
zero and does not wrap, its label sets are those of the specification. -/
theorem slicing_spec (D : Decoder) (M : Memory) (seg : Segment) (fuel : Nat) (r : Slicing)
    (h0 : seg.address ≠ 0) (hw : seg.address + seg.size < 4294967296)
    (h : Segment.slicing D M seg fuel seg.address
      { currentBlock := 0, labelBlocks := [], labelCalls := [], labelJumps := [] } = some r) :
    ∃ n, SliceInv D M seg n r ∧ ∀ e, e < n ↔ seg.inScan e := by
  have hE : add32 seg.address seg.size = seg.address + seg.size := by
    unfold add32; exact Nat.mod_eq_of_lt hw
  obtain ⟨j, hP, hj⟩ := slicing_inv D M seg
    (fun i s => (∃ n, i = seg.slot n ∧ (∀ m, m < n → seg.slot m < seg.address + seg.size)
        ∧ SliceInv D M seg n s)
      ∨ (∃ i0, i ≤ i0 ∧ i % 4 = i0 % 4 ∧ i0 < seg.address + seg.size ∧ 4294967296 ≤ i0 + 4))
    (by
      intro i s hP hlt
      rw [hE] at hlt
      rcases hP with ⟨n, hi, hm, hinv⟩ | ⟨i0, h1, h2, h3, h4⟩
      · by_cases hwrap : i + 4 < 4294967296
        · left
          refine ⟨n + 1, ?_, ?_, ?_⟩
          · unfold add32 Segment.slot
            unfold Segment.slot at hi
            omega
          · intro m hlt1
            by_cases e : m = n
            · rw [e, ← hi]; exact hlt
            · exact hm m (by omega)
          · rw [hi]
            exact sliceInv_step D M seg n s h0 hinv
        · right
          exact ⟨i, by unfold add32; omega, by unfold add32; omega, hlt, by omega⟩
      · right
        exact ⟨i0, by unfold add32; omega, by unfold add32; omega, h3, h4⟩)
    fuel seg.address _ r
    (Or.inl ⟨0, by simp [Segment.slot], by intro m hm; omega,
      ⟨Or.inl ⟨rfl, Or.inl rfl⟩, by simp, by simp, by simp⟩⟩) h
  rw [hE] at hj
  rcases hP with ⟨n, hi, hm, hinv⟩ | ⟨i0, h1, h2, h3, h4⟩
  · refine ⟨n, hinv, fun e => ⟨fun he => hm e he, fun he => ?_⟩⟩
    unfold Segment.inScan Segment.slot at he
    unfold Segment.slot at hi
    by_contra hne
    omega
  · omega

theorem labelFunctions_spec (D : Decoder) (M : Memory) (seg : Segment) (fuel : Nat)
    (r : Slicing) (h0 : seg.address ≠ 0) (hw : seg.address + seg.size < 4294967296)
    (h : Segment.slicing D M seg fuel seg.address
      { currentBlock := 0, labelBlocks := [], labelCalls := [], labelJumps := [] } = some r)
    (x : Nat) : x ∈ Segment.labelFunctions r ↔ SpecEntry D M seg x := by
  obtain ⟨n, hinv, hn⟩ := slicing_spec D M seg fuel r h0 hw h
  have hb : x ∈ r.labelBlocks ↔ SpecBlocks D M seg x := by
    rw [hinv.blocks x]
    unfold SpecBlocks
    simp only [hn]
  have hj : x ∈ r.labelJumps ↔ SpecJumps D M seg x := by
    rw [hinv.jumps x]
    unfold SpecJumps
    simp only [hn]
  have hc : x ∈ r.labelCalls ↔ SpecCalls D M seg x := by
    rw [hinv.calls x]
    unfold SpecCalls
    simp only [hn]
  rw [mem_labelFunctions, hb, hj, hc]
  rfl

theorem segment_analyze_complete (D : Decoder) (M : Memory) (A : AnalyzerTable)
    (seg : Segment) (fuel : Nat) (fns : List (Nat × Function))
    (h : Segment.analyze D M A seg fuel = some fns) :
    ∃ r, Segment.slicing D M seg fuel seg.address
        { currentBlock := 0, labelBlocks := [], labelCalls := [], labelJumps := [] } = some r
      ∧ ∀ a f, a ∈ Segment.labelFunctions r → seg.contains a = true →
          Function.analyze D M A seg fuel a = Run.done f → (a, f) ∈ fns := by
  unfold Segment.analyze at h
  split at h
  · exact absurd h (by simp)
  · rename_i r hr
    exact ⟨r, hr, fun a f ha hc hf =>
      analyzeLabels_complete D M A seg fuel a f hf hc _ _ fns ha h⟩

theorem segment_no_wrap (seg : Segment) (x : Nat) (hsize : seg.size < 4294967296)
    (h : seg.contains x = true) : seg.address + seg.size < 4294967296 := by
  unfold Segment.contains add32 at h
  simp only [Bool.and_eq_true, decide_eq_true_eq] at h
  omega

/-- C5 (as stated, refuted): in the segment `[0, 16)` the call `bl +12` at
address zero is met inside the run that starts there, so `12` is in the stated
entry set, lies in the segment and is analysed successfully; yet
`Segment.analyze` retains only the function at `4`. -/
theorem call_at_address_zero_not_recorded :
    Segment.analyze refDecoder imageZero nullTable { address := 0, size := 16 } 10
      = some [(4, zeroRetained)]
    ∧ ¬ ((∃ f, (12, f) ∈ [(4, zeroRetained)]) ↔
          (SpecEntry refDecoder imageZero { address := 0, size := 16 } 12
            ∧ ({ address := 0, size := 16 } : Segment).contains 12 = true
            ∧ ∃ f, Function.analyze refDecoder imageZero nullTable
                { address := 0, size := 16 } 10 12 = Run.done f)) := by
  refine ⟨by decide, ?_⟩
  intro hiff
  have hspec : SpecEntry refDecoder imageZero { address := 0, size := 16 } 12 := by
    right
    refine ⟨0, 0, by unfold Segment.inScan Segment.slot; decide,
      ⟨⟨by unfold validAt; decide, Or.inl (fun j hj => by omega)⟩, Nat.le_refl _, ?_, ?_⟩,
      by decide, by decide⟩
    · intro m h1 h2
      have : m = 0 := by omega
      subst this
      unfold validAt
      decide
    · intro m h1 h2
      omega
  obtain ⟨f, hf⟩ := hiff.2 ⟨hspec, by decide, zeroCallee, by decide⟩
  simp at hf

/-- C5 (amended): for a segment that does not start at address zero (its size a
32-bit value), `Segment.analyze` retains a function at `a` exactly when `a` is
in `(labelBlocks \ labelJumps) ∪ labelCalls` as worded in the specification,
`a` lies within the segment and `Function.analyze` at `a` returns true; hence
a recorded jump target or fall-through that is not a call target is never a
function entry. -/
theorem segment_functions_iff (D : Decoder) (M : Memory) (A : AnalyzerTable) (seg : Segment)
    (fuel : Nat) (fns : List (Nat × Function)) (h0 : seg.address ≠ 0)
    (hsize : seg.size < 4294967296) (h : Segment.analyze D M A seg fuel = some fns) :
    (∀ a, (∃ f, (a, f) ∈ fns) ↔
      (SpecEntry D M seg a ∧ seg.contains a = true
        ∧ ∃ f, Function.analyze D M A seg fuel a = Run.done f))
    ∧ (∀ a, SpecJumps D M seg a → ¬ SpecCalls D M seg a → ¬ ∃ f, (a, f) ∈ fns) := by
  have main : ∀ a, (∃ f, (a, f) ∈ fns) ↔
      (SpecEntry D M seg a ∧ seg.contains a = true
        ∧ ∃ f, Function.analyze D M A seg fuel a = Run.done f) := by
    intro a
    constructor
    · rintro ⟨f, hf⟩
      obtain ⟨r, hr, hlab, hcont, han⟩ := segment_analyze_mem _ _ _ _ _ _ h (a, f) hf
      have hw := segment_no_wrap seg a hsize hcont
      exact ⟨(labelFunctions_spec D M seg fuel r h0 hw hr a).1 hlab, hcont, f, han⟩
    · rintro ⟨hspec, hcont, f, han⟩
      have hw := segment_no_wrap seg a hsize hcont
      obtain ⟨r, hr, hall⟩ := segment_analyze_complete D M A seg fuel fns h
      exact ⟨f, hall a f ((labelFunctions_spec D M seg fuel r h0 hw hr a).2 hspec) hcont han⟩
  refine ⟨main, ?_⟩
  intro a hj hc hret
  rcases ((main a).1 hret).1 with ⟨_, hnj⟩ | hcall
  · exact hnj hj
  · exact hc hcall

theorem segment_functions_iff_witness :
    SpecEntry refDecoder image3 { address := 0x10000, size := 24 } 0x10000
    ∧ ({ address := 0x10000, size := 24 } : Segment).contains 0x10000 = true
    ∧ ∃ f, Function.analyze refDecoder image3 nullTable { address := 0x10000, size := 24 } 10
        0x10000 = Run.done f :=
  ((segment_functions_iff refDecoder image3 nullTable { address := 0x10000, size := 24 } 10
      [(0x10000, scenario3)] (by decide) (by decide) (by decide)).1 0x10000).1
    ⟨scenario3, by decide⟩

/-! ## The declared signature -/

theorem declare_result (E : EnumValues) (f : Function) :
    (Function.declare E f).result = specResult f.type_out := by
  unfold Function.declare
  cases f.type_out <;> rfl

theorem declare_params_foldl (E : EnumValues) (l : List FunctionTypeIn) (acc : List IRType) :
    l.foldl (Function.declare.param E) acc
      = acc ++ l.foldl (Function.declare.param E) [] := by
  induction l generalizing acc with
  | nil => simp
  | cons t rest ih =>
    simp only [List.foldl_cons]
    rw [ih (Function.declare.param E acc t), ih (Function.declare.param E [] t)]
    unfold Function.declare.param
    split_ifs <;> simp

theorem declare_params_of_agree (E : EnumValues) (hd : CaseLabelsDistinct E)
    (ha : EnumsAgree E) (f : Function) :
    (Function.declare E f).params = f.type_in.map specParam := by
  obtain ⟨d1, d2, d3⟩ := hd
  obtain ⟨a1, a2, a3⟩ := ha
  unfold Function.declare
  simp only
  induction f.type_in with
  | nil => rfl
  | cons t rest ih =>
    rw [List.foldl_cons, declare_params_foldl, ih]
    cases t
    · simp [Function.declare.param, specParam, a1]
    · simp [Function.declare.param, specParam, a2, Ne.symm d1]
    · simp [Function.declare.param, specParam, a3, Ne.symm d2, Ne.symm d3]

/-- The argument switch of `Function::declare` gives every element of `type_in`
its parameter exactly when each `FUNCTION_IN_` enumerator has the value of the
`FUNCTION_OUT_` enumerator of the same name. -/
theorem declare_params_faithful_iff (E : EnumValues) (hd : CaseLabelsDistinct E) :
    (∀ f : Function, (Function.declare E f).params = f.type_in.map specParam)
      ↔ EnumsAgree E := by
  constructor
  · intro h
    have h1 := h { address := 0, blocks := [], type_in := [FUNCTION_IN_INTEGER],
                   type_out := FUNCTION_OUT_VOID }
    have h2 := h { address := 0, blocks := [], type_in := [FUNCTION_IN_FLOAT],
                   type_out := FUNCTION_OUT_VOID }
    have h3 := h { address := 0, blocks := [], type_in := [FUNCTION_IN_VECTOR],
                   type_out := FUNCTION_OUT_VOID }
    obtain ⟨d1, d2, d3⟩ := hd
    simp only [Function.declare, List.foldl_cons, List.foldl_nil, Function.declare.param,
      List.map_cons, List.map_nil, specParam, List.nil_append] at h1 h2 h3
    refine ⟨?_, ?_, ?_⟩
    · by_contra hne
      rw [if_neg hne] at h1
      split_ifs at h1 <;> simp at h1
    · by_contra hne
      split_ifs at h2 <;> simp_all
    · by_contra hne
      split_ifs at h3 <;> simp_all
  · intro ha f
    exact declare_params_of_agree E hd ha f

/-- C11: with the enumerators numbered in source order, `Function::declare`
gives the function of type `(INTEGER, VECTOR) -> VOID` a signature with the
64-bit integer parameter only: the vector element of `type_in` matches none of
the case labels `FUNCTION_OUT_INTEGER`, `FUNCTION_OUT_FLOAT`,
`FUNCTION_OUT_VECTOR` and is dropped. -/
theorem declare_drops_vector_argument :
    Function.declare sourceOrderEnums vectorArgument
      = { result := IRType.VoidTy, params := [IRType.Int64Ty], isVarArg := false }
    ∧ vectorArgument.type_in.map specParam = [IRType.Int64Ty, IRType.IntNTy 128] := by
  decide

/-! ## Coverage of the entry -/

theorem sorted_step (D : Decoder) (M : Memory) (parent : Segment) (fuel front : Nat)
    (rest : List Nat) (blocks : List (Nat × Block)) (st1 : CfgState)
    (h0 : MapSorted blocks)
    (h : Function.step D M parent fuel front rest blocks = Run.done st1) :
    MapSorted st1.blocks := by
  rcases step_cases D M parent fuel front rest blocks st1 h with
    ⟨key, A, _, _, _, hb⟩ | ⟨_, _, _, _, _, cur1, _, _, _, _, _, _, _, _, _, hb⟩
  · rw [hb]
    exact sorted_mapAssign _ _ _ (sorted_mapAssign _ _ _ h0)
  · rw [hb]
    exact sorted_mapAssign _ _ _ h0

/-- C12: whenever `Function.analyze` returns true, the block map holds a block
keyed by the address of the function, it is the only block under that key, and
its `address` field is the address of the function. -/
theorem analyze_entry_block (D : Decoder) (M : Memory) (A : AnalyzerTable) (parent : Segment)
    (fuel entry : Nat) (f : Function)
    (h : Function.analyze D M A parent fuel entry = Run.done f) :
    f.address = entry
    ∧ ∃ b, (f.address, b) ∈ f.blocks ∧ b.address = f.address
        ∧ ∀ c, (f.address, c) ∈ f.blocks → c = b := by
  obtain ⟨blocks, hcfg, hget⟩ := analyze_done _ _ _ _ _ _ _ h
  have hinv := cfg_inv D M parent fuel
    (fun st => MapSorted st.blocks ∧ (∀ p ∈ st.blocks, p.2.address = p.1)
      ∧ (entry ∈ st.labels ∨ HasKey st.blocks entry))
    (fun front rest bl st1 hP hstep =>
      ⟨sorted_step D M parent fuel front rest bl st1 hP.1 hstep,
       keyEq_step D M parent fuel front rest bl st1 hP.2.1 hstep,
       entry_step D M parent fuel entry front rest bl st1 hP.2.2 hstep⟩)
    fuel _ _ ⟨by simp [MapSorted], by intro p hp; simp at hp,
      Or.inl (List.mem_singleton_self _)⟩ hcfg
  obtain ⟨hsorted, hkey, hent⟩ := hinv
  simp only at hsorted hkey hent
  obtain ⟨b, hb⟩ : HasKey blocks entry := by
    rcases hent with h | h
    · simp at h
    · exact h
  obtain ⟨haddr, hkeep, _, hs⟩ := get_type_frame D M A fuel _ f hget
  simp only at haddr hkeep hs
  rw [haddr]
  refine ⟨rfl, b, hkeep _ hb, hkey _ hb, ?_⟩
  intro c hc
  exact sorted_unique f.blocks (hs hsorted) entry c b hc (hkeep _ hb)

theorem analyze_entry_block_witness :
    Function.analyze refDecoder image3 nullTable { address := 0x10000, size := 24 } 10 0x10000
      = Run.done scenario3
    ∧ scenario3.address = 0x10000
    ∧ ∃ b, (scenario3.address, b) ∈ scenario3.blocks ∧ b.address = scenario3.address
        ∧ ∀ c, (scenario3.address, c) ∈ scenario3.blocks → c = b :=
  ⟨by decide,
   analyze_entry_block refDecoder image3 nullTable { address := 0x10000, size := 24 } 10
     0x10000 scenario3 (by decide)⟩

/-! ## Lowering of a block that ends in `bcctr` -/

theorem instructions_some (M : Memory) (block : Block) (hsize : block.size ≤ 4294967292)
    (fuel offset : Nat) (emitted : List IRAction) (h4 : offset % 4 = 0)
    (hfuel : block.size ≤ offset + 4 * fuel) :
    ∃ body, Function.recompile.instructions M block (fuel + 1) offset emitted
        = some (emitted ++ body)
      ∧ ∀ a ∈ body, ∃ pc code, a = IRAction.instruction pc code := by
  induction fuel generalizing offset emitted with
  | zero =>
    unfold Function.recompile.instructions
    split_ifs with h
    · omega
    · exact ⟨[], by simp, by simp⟩
  | succ fuel ih =>
    unfold Function.recompile.instructions
    split_ifs with h
    · have e : add32 offset 4 = offset + 4 := by unfold add32; omega
      rw [e]
      obtain ⟨body, hb, hall⟩ := ih (offset + 4) _ (by omega) (by omega)
      refine ⟨_, by rw [hb, List.append_assoc], ?_⟩
      intro a ha
      rcases List.mem_append.1 ha with ha | ha
      · exact ⟨_, _, List.mem_singleton.1 ha⟩
      · exact hall a ha
    · exact ⟨[], by simp, by simp⟩

theorem mapFind_isSome_iff {α : Type} (m : List (Nat × α)) (k : Nat) :
    (mapFind m k).isSome = true ↔ HasKey m k := by
  cases h : mapFind m k with
  | none => simpa using mapFind_none_not_mem m k h
  | some v => simpa using (⟨v, mapFind_some_mem m k v h⟩ : HasKey m k)

theorem is_split_of_bcctr (D : Decoder) (F : Fields) (M : Memory) (b : Block)
    (h : EndsInBcctr F M b) : b.is_split D F M = true := by
  unfold Block.is_split
  simp [h.1, h.2]

/-- A block that ends in `bcctr` lowered with a block keyed by `address + size`
in the map: the driver closes it with an IR branch to that block. -/
theorem bcctr_block_followed_by_branch :
    Function.analyze refDecoder imageBcctr nullTable { address := 0x10000, size := 12 } 10
        0x10000 = Run.done bcctrFunction
    ∧ EndsInBcctr refFields imageBcctr
        { address := 0x10004, size := 4, branch_a := 0, branch_b := 0 }
    ∧ Function.recompile.lower refDecoder refFields imageBcctr 10 bcctrFunction.blocks 0x10004
        { address := 0x10004, size := 4, branch_a := 0, branch_b := 0 }
      = some [IRAction.setInsertPoint 0x10004, IRAction.instruction 0x10004 0x4e800420,
              IRAction.createBranch 0x10008]
    ∧ Function.recompile refDecoder refFields imageBcctr 10 bcctrFunction
      = some [IRAction.createBasicBlock 0x10000 BlockName.entry,
              IRAction.createBasicBlock 0x10004 (BlockName.block 0x10004),
              IRAction.createBasicBlock 0x10008 (BlockName.block 0x10008),
              IRAction.setInsertPoint 0x10000, IRAction.instruction 0x10000 0x41820008,
              IRAction.setInsertPoint 0x10008, IRAction.instruction 0x10008 0x4e800020,
              IRAction.setInsertPoint 0x10004, IRAction.instruction 0x10004 0x4e800420,
              IRAction.createBranch 0x10008] := by
  refine ⟨by decide, ?_, by decide, by decide⟩
  unfold EndsInBcctr
  decide

/-- C15 (amended): the lowering of a block whose last instruction is `bcctr`
finishes (block size a multiple of 4 up to `0xFFFFFFFC`), and the driver closes
the block with an IR return when no block is keyed by `address + size`, and
with an IR branch to that block when there is one. -/
theorem bcctr_block_closed (D : Decoder) (F : Fields) (M : Memory)
    (blocks : List (Nat × Block)) (key : Nat) (block : Block) (fuel : Nat)
    (hbcctr : EndsInBcctr F M block) (hsize : block.size ≤ 4294967292)
    (hfuel : block.size ≤ 4 * fuel) :
    ∃ body,
      (∀ a ∈ body, ∃ pc code, a = IRAction.instruction pc code)
      ∧ (¬ HasKey blocks (add32 block.address block.size) →
          Function.recompile.lower D F M (fuel + 1) blocks key block
            = some (IRAction.setInsertPoint key :: body ++ [IRAction.createReturn]))
      ∧ (HasKey blocks (add32 block.address block.size) →
          Function.recompile.lower D F M (fuel + 1) blocks key block
            = some (IRAction.setInsertPoint key :: body
                ++ [IRAction.createBranch (add32 block.address block.size)])) := by
  obtain ⟨body, hb, hall⟩ := instructions_some M block hsize fuel 0
    [IRAction.setInsertPoint key] (by norm_num) (by omega)
  refine ⟨body, hall, ?_, ?_⟩
  · intro hk
    have e : (mapFind blocks (add32 block.address block.size)).isSome = false := by
      rw [← Bool.not_eq_true, mapFind_isSome_iff]; exact hk
    simp [Function.recompile.lower, hb, Function.recompile.stitch,
      is_split_of_bcctr D F M block hbcctr, e]
  · intro hk
    have e := (mapFind_isSome_iff blocks (add32 block.address block.size)).2 hk
    simp [Function.recompile.lower, hb, Function.recompile.stitch,
      is_split_of_bcctr D F M block hbcctr, e]

theorem bcctr_block_closed_witness :
    Function.recompile refDecoder refFields imageStub 10 stubFunction
      = some [IRAction.createBasicBlock 0x10000 BlockName.entry,
              IRAction.setInsertPoint 0x10000, IRAction.instruction 0x10000 0x4e800420,
              IRAction.createReturn]
    ∧ EndsInBcctr refFields imageStub
        { address := 0x10000, size := 4, branch_a := 0, branch_b := 0 }
    ∧ ∃ body,
      (∀ a ∈ body, ∃ pc code, a = IRAction.instruction pc code)
      ∧ (¬ HasKey [(0x10000, ({ address := 0x10000, size := 4, branch_a := 0, branch_b := 0 }
                                : Block))] (add32 0x10000 4) →
          Function.recompile.lower refDecoder refFields imageStub (1 + 1)
              [(0x10000, { address := 0x10000, size := 4, branch_a := 0, branch_b := 0 })]
              0x10000 { address := 0x10000, size := 4, branch_a := 0, branch_b := 0 }
            = some (IRAction.setInsertPoint 0x10000 :: body ++ [IRAction.createReturn]))
      ∧ (HasKey [(0x10000, ({ address := 0x10000, size := 4, branch_a := 0, branch_b := 0 }
                                : Block))] (add32 0x10000 4) →
          Function.recompile.lower refDecoder refFields imageStub (1 + 1)
              [(0x10000, { address := 0x10000, size := 4, branch_a := 0, branch_b := 0 })]
              0x10000 { address := 0x10000, size := 4, branch_a := 0, branch_b := 0 }
            = some (IRAction.setInsertPoint 0x10000 :: body
                ++ [IRAction.createBranch (add32 0x10000 4)])) :=
  have hb : EndsInBcctr refFields imageStub
      { address := 0x10000, size := 4, branch_a := 0, branch_b := 0 } := by
    unfold EndsInBcctr; decide
  ⟨by decide, hb, bcctr_block_closed refDecoder refFields imageStub
    [(0x10000, { address := 0x10000, size := 4, branch_a := 0, branch_b := 0 })] 0x10000
    { address := 0x10000, size := 4, branch_a := 0, branch_b := 0 } 1 hb (by decide) (by decide)⟩

/-! ## The split step and the guard for a label that is a block start -/

theorem mapAssign_twice {α : Type} (m : List (Nat × α)) (k : Nat) (v w : α) :
    mapAssign (mapAssign m k v) k w = mapAssign m k w := by
  induction m with
  | nil => simp [mapAssign]
  | cons p rest ih =>
    obtain ⟨k1, v1⟩ := p
    by_cases h1 : k < k1
    · simp [mapAssign, h1]
    · by_cases h2 : k = k1
      · subst h2
        simp [mapAssign]
      · simp [mapAssign, h1, h2, ih]

theorem mapAssign_same {α : Type} (m : List (Nat × α)) (k : Nat) (v : α) (hs : MapSorted m)
    (h : (k, v) ∈ m) : mapAssign m k v = m := by
  induction m with
  | nil => simp at h
  | cons p rest ih =>
    obtain ⟨k1, v1⟩ := p
    have hs1 := List.pairwise_cons.1 hs
    rcases List.mem_cons.1 h with h | h
    · injection h with e1 e2
      subst e1 e2
      simp [mapAssign]
    · have hlt : k1 < k := hs1.1 _ h
      have h1 : ¬ k < k1 := by omega
      have h2 : ¬ k = k1 := by omega
      simp [mapAssign, h1, h2, ih hs1.2 h]

theorem length_mapAssign_new {α : Type} (m : List (Nat × α)) (k : Nat) (v : α)
    (h : ¬ HasKey m k) : (mapAssign m k v).length = m.length + 1 := by
  induction m with
  | nil => simp [mapAssign]
  | cons p rest ih =>
    obtain ⟨k1, v1⟩ := p
    have hne : ¬ k = k1 := by
      intro e
      exact h ⟨v1, by rw [e]; exact List.mem_cons_self _ _⟩
    have hr : ¬ HasKey rest k := by
      rintro ⟨w, hw⟩
      exact h ⟨w, List.mem_cons_of_mem _ hw⟩
    by_cases h1 : k < k1
    · simp [mapAssign, h1]
    · simp [mapAssign, h1, hne, ih hr]

theorem length_mapAssign_old {α : Type} (m : List (Nat × α)) (k : Nat) (v : α)
    (hs : MapSorted m) (h : HasKey m k) : (mapAssign m k v).length = m.length := by
  induction m with
  | nil => obtain ⟨w, hw⟩ := h; simp at hw
  | cons p rest ih =>
    obtain ⟨k1, v1⟩ := p
    have hs1 := List.pairwise_cons.1 hs
    obtain ⟨w, hw⟩ := h
    rcases List.mem_cons.1 hw with hw | hw
    · injection hw with e1 e2
      subst e1
      simp [mapAssign]
    · have hlt : k1 < k := hs1.1 _ hw
      have h1 : ¬ k < k1 := by omega
      have h2 : ¬ k = k1 := by omega
      simp [mapAssign, h1, h2, ih hs1.2 ⟨w, hw⟩]

theorem mem_mapAssign_iff {α : Type} (m : List (Nat × α)) (k : Nat) (v : α) (hs : MapSorted m)
    (p : Nat × α) : p ∈ mapAssign m k v ↔ p = (k, v) ∨ (p ∈ m ∧ p.1 ≠ k) := by
  constructor
  · intro h
    rcases mem_mapAssign_strong m k v p hs h with h | h
    · exact Or.inl h
    · exact Or.inr ⟨h.2, h.1⟩
  · rintro (h | h)
    · rw [h]; exact mem_mapAssign_self m k v
    · exact mem_mapAssign_of_ne m k v p h.1 h.2

theorem scanBlocks_finds (addr : Nat) (blocks : List (Nat × Block)) (m : Nat)
    (p : Nat × Block) (hp : p ∈ blocks) (hc : p.2.contains addr = true) :
    ∃ key A, Function.scanBlocks addr blocks m = BlockScan.split key A := by
  cases h : Function.scanBlocks addr blocks m with
  | split key A => exact ⟨key, A, rfl⟩
  | bound maxSize =>
    have := (scanBlocks_bound addr blocks m maxSize h).2 p hp
    rw [hc] at this
    exact absurd this.1 (by simp)

theorem step_split_eq (D : Decoder) (M : Memory) (parent : Segment) (fuel front : Nat)
    (rest : List Nat) (blocks : List (Nat × Block)) (key : Nat) (A : Block)
    (h : Function.scanBlocks front blocks 4294967295 = BlockScan.split key A) :
    Function.step D M parent fuel front rest blocks
      = Run.done { labels := rest,
                   blocks := mapAssign
                     (mapAssign blocks key
                       { A with size := sub32 front A.address, branch_a := front, branch_b := 0 })
                     front
                     { address := front, size := sub32 A.size (sub32 front A.address),
                       branch_a := A.branch_a, branch_b := A.branch_b } } := by
  unfold Function.step
  simp only [h]

/-- C16: when the popped label `L` lies strictly inside the block `A` (whose end
does not wrap past `2^32`), is inside no other block and is not yet a block
start, the iteration pushes no label and changes the map in this way only: `A`
keeps its key and address and gets size `L - A.address`, `branch_a = L`,
`branch_b = 0`; one block is added, at `L`, with size
`A.size - (L - A.address)` and the former successors of `A`; every other block
is unchanged; the two parts are adjacent and end where `A` ended. -/
theorem split_step (D : Decoder) (M : Memory) (parent : Segment) (fuel L : Nat)
    (rest : List Nat) (blocks : List (Nat × Block)) (key : Nat) (A : Block)
    (hsorted : MapSorted blocks) (hA : (key, A) ∈ blocks)
    (hlo : A.address < L) (hhi : L < A.address + A.size)
    (hend : A.address + A.size < 4294967296)
    (honly : ∀ q ∈ blocks, q.2.contains L = true → q = (key, A))
    (hfresh : ¬ HasKey blocks L) :
    ∃ blocks1,
      Function.step D M parent fuel L rest blocks
        = Run.done { labels := rest, blocks := blocks1 }
      ∧ (∀ q, q ∈ blocks1 ↔
          q = (L, { address := L, size := A.size - (L - A.address),
                    branch_a := A.branch_a, branch_b := A.branch_b })
          ∨ q = (key, { address := A.address, size := L - A.address,
                        branch_a := L, branch_b := 0 })
          ∨ (q ∈ blocks ∧ q.1 ≠ key))
      ∧ blocks1.length = blocks.length + 1
      ∧ A.address + (L - A.address) = L
      ∧ L + (A.size - (L - A.address)) = A.address + A.size := by
  have hc : A.contains L = true := by
    rw [contains_iff A L (by omega)]
    omega
  obtain ⟨key1, A1, hscan⟩ := scanBlocks_finds L blocks 4294967295 (key, A) hA hc
  have hs := scanBlocks_split _ _ _ _ _ hscan
  have e := honly (key1, A1) hs.1 hs.2
  injection e with e1 e2
  subst e1 e2
  have hkL : key1 ≠ L := by
    intro e
    exact hfresh ⟨A1, by rw [← e]; exact hA⟩
  have z1 : sub32 L A1.address = L - A1.address := by unfold sub32; omega
  have z2 : sub32 A1.size (L - A1.address) = A1.size - (L - A1.address) := by
    unfold sub32; omega
  have hs1 : MapSorted (mapAssign blocks key1
      { A1 with size := L - A1.address, branch_a := L, branch_b := 0 }) :=
    sorted_mapAssign _ _ _ hsorted
  refine ⟨_, by rw [step_split_eq D M parent fuel L rest blocks key1 A1 hscan, z1, z2],
    ?_, ?_, by omega, by omega⟩
  · intro q
    rw [mem_mapAssign_iff _ _ _ hs1, mem_mapAssign_iff _ _ _ hsorted]
    constructor
    · rintro (h | ⟨h | h, hne⟩)
      · exact Or.inl h
      · exact Or.inr (Or.inl h)
      · exact Or.inr (Or.inr h)
    · rintro (h | h | h)
      · exact Or.inl h
      · refine Or.inr ⟨Or.inl h, ?_⟩
        rw [h]
        exact hkL
      · refine Or.inr ⟨Or.inr h, ?_⟩
        intro e
        exact hfresh ⟨q.2, by rw [← e]; exact h.1⟩
  · rw [length_mapAssign_new, length_mapAssign_old _ _ _ hsorted ⟨A1, hA⟩]
    rw [hasKey_mapAssign]
    rintro (h | h)
    · exact hkL h.symm
    · exact hfresh h

theorem split_step_witness :
    ∃ blocks1,
      Function.step refDecoder image6 { address := 0x10000, size := 28 } 10 0x10010 []
          [(0x10000, { address := 0x10000, size := 20, branch_a := 0, branch_b := 0 })]
        = Run.done { labels := [], blocks := blocks1 }
      ∧ (∀ q, q ∈ blocks1 ↔
          q = (0x10010, { address := 0x10010, size := 20 - (0x10010 - 0x10000),
                          branch_a := 0, branch_b := 0 })
          ∨ q = (0x10000, { address := 0x10000, size := 0x10010 - 0x10000,
                            branch_a := 0x10010, branch_b := 0 })
          ∨ (q ∈ [(0x10000, ({ address := 0x10000, size := 20, branch_a := 0,
                                branch_b := 0 } : Block))] ∧ q.1 ≠ 0x10000))
      ∧ blocks1.length
          = [(0x10000, ({ address := 0x10000, size := 20, branch_a := 0,
                           branch_b := 0 } : Block))].length + 1
      ∧ 0x10000 + (0x10010 - 0x10000) = 0x10010
      ∧ 0x10010 + (20 - (0x10010 - 0x10000)) = 0x10000 + 20 :=
  split_step refDecoder image6 { address := 0x10000, size := 28 } 10 0x10010 []
    [(0x10000, { address := 0x10000, size := 20, branch_a := 0, branch_b := 0 })]
    0x10000 { address := 0x10000, size := 20, branch_a := 0, branch_b := 0 }
    (by simp [MapSorted]) (by simp) (by decide) (by decide) (by decide) (by decide)
    (by rintro ⟨v, hv⟩; simp at hv)

/-- An iteration for a label that is the start of a block containing it leaves
the map as it is and only takes the label off the queue. -/
theorem step_at_block_start (D : Decoder) (M : Memory) (parent : Segment) (fuel L : Nat)
    (rest : List Nat) (blocks : List (Nat × Block)) (A : Block)
    (hsorted : MapSorted blocks) (hA : (L, A) ∈ blocks) (haddr : A.address = L)
    (hpos : 0 < A.size) (hend : A.address + A.size < 4294967296)
    (honly : ∀ q ∈ blocks, q.2.contains L = true → q.1 = L) :
    Function.step D M parent fuel L rest blocks
      = Run.done { labels := rest, blocks := blocks } := by
  have hc : A.contains L = true := by
    rw [contains_iff A L (by omega)]
    omega
  obtain ⟨key1, A1, hscan⟩ := scanBlocks_finds L blocks 4294967295 (L, A) hA hc
  have hs := scanBlocks_split _ _ _ _ _ hscan
  have e1 : key1 = L := honly (key1, A1) hs.1 hs.2
  subst e1
  have e2 : A1 = A := sorted_unique blocks hsorted key1 A1 A hs.1 hA
  subst e2
  rw [step_split_eq D M parent fuel key1 rest blocks key1 A1 hscan, mapAssign_twice]
  have z : ({ address := key1, size := sub32 A1.size (sub32 key1 A1.address),
              branch_a := A1.branch_a, branch_b := A1.branch_b } : Block) = A1 := by
    have z1 : sub32 A1.size (sub32 key1 A1.address) = A1.size := by
      unfold sub32; omega
    rw [z1, ← haddr]
  rw [z, mapAssign_same blocks key1 A1 hsorted hA]

/-- C19 (amended): when the popped label is the key and the start address of
an existing block that is not empty, whose end does not wrap past `2^32`, and
which is the only block containing the label, the iteration leaves the map as
it is, so no block is added and no field of a block changes, and the queue
only loses the label; and the control-flow graph built for scenario 4 (two
fillers, then `b entry`) is the single block `[entry, entry + 0xC)` with
`branch_a = entry` and `branch_b = 0`. The loop has no test of its own for a
label that is already a key: the label is skipped because `Block.contains`
finds it in its block, which an empty or wrapped block does not grant. -/
theorem guard_step (D : Decoder) (M : Memory) (parent : Segment) (fuel L : Nat)
    (rest : List Nat) (blocks : List (Nat × Block)) (A : Block)
    (hsorted : MapSorted blocks) (hA : (L, A) ∈ blocks) (haddr : A.address = L)
    (hpos : 0 < A.size) (hend : A.address + A.size < 4294967296)
    (honly : ∀ q ∈ blocks, q.2.contains L = true → q.1 = L) :
    Function.step D M parent fuel L rest blocks = Run.done { labels := rest, blocks := blocks }
    ∧ Function.cfg refDecoder image4 { address := 0x10000, size := 12 } 10 10
        { labels := [0x10000], blocks := [] } = Run.done [(0x10000, block4)] :=
  ⟨step_at_block_start D M parent fuel L rest blocks A hsorted hA haddr hpos hend honly,
   by decide⟩

theorem guard_step_witness :
    Function.step refDecoder image4 { address := 0x10000, size := 12 } 10 0x10000 []
        [(0x10000, block4)] = Run.done { labels := [], blocks := [(0x10000, block4)] }
    ∧ Function.cfg refDecoder image4 { address := 0x10000, size := 12 } 10 10
        { labels := [0x10000], blocks := [] } = Run.done [(0x10000, block4)] :=
  guard_step refDecoder image4 { address := 0x10000, size := 12 } 10 0x10000 []
    [(0x10000, block4)] block4 (by simp [MapSorted]) (by simp) (by decide) (by decide)
    (by decide) (by decide)

/-! ## Truncation of a new block by `maxSize` -/

theorem grow_exact (D : Decoder) (M : Memory) (maxSize L t : Nat)
    (hwrap : L + 4 * t + 4 < 4294967296)
    (hlast : nonCallBranch D (M.read32 (L + 4 * t)) ∨ ¬ 4 * (t + 1) < maxSize)
    (fuel i : Nat) (hi : i ≤ t) (hfuel : t - i < fuel)
    (hrun : ∀ j, i ≤ j → j < t → ¬ nonCallBranch D (M.read32 (L + 4 * j))
      ∧ 4 * (j + 1) < maxSize) :
    Function.grow D M maxSize fuel (L + 4 * i) (4 * (i + 1)) (M.read32 (L + 4 * i))
      = some (L + 4 * t, 4 * (t + 1), M.read32 (L + 4 * t)) := by
  induction fuel generalizing i with
  | zero => omega
  | succ fuel ih =>
    unfold Function.grow
    by_cases hit : i = t
    · subst hit
      have : ¬ (((!D.is_branch (M.read32 (L + 4 * i)) || D.is_call (M.read32 (L + 4 * i)))
          && decide (4 * (i + 1) < maxSize)) = true) := by
        rw [loopCond_iff]
        rcases hlast with h | h
        · exact fun hh => hh.1 h
        · exact fun hh => h hh.2
      rw [if_neg this]
    · have hlt : i < t := by omega
      have := hrun i (le_refl _) hlt
      rw [if_pos ((loopCond_iff D _ _ _).2 this)]
      have e1 : add32 (L + 4 * i) 4 = L + 4 * (i + 1) := by unfold add32; omega
      have e2 : add32 (4 * (i + 1)) 4 = 4 * (i + 1 + 1) := by unfold add32; omega
      rw [e1, e2]
      exact ih (i + 1) (by omega) (by omega) (fun j hj1 hj2 => hrun j (by omega) hj2)

theorem pushLabels_plain (D : Decoder) (parent : Segment) (code pc : Nat)
    (labels : List Nat) (cur : Block) (hk : BranchKinds D) (hn : ¬ nonCallBranch D code) :
    Function.pushLabels D parent code pc labels cur = some (labels, cur) := by
  have h1 : (D.is_branch_conditional code && !D.is_call code) = false := by
    by_contra hc
    simp only [Bool.not_eq_false, Bool.and_eq_true, Bool.not_eq_true'] at hc
    exact hn ⟨hk.1 code hc.1, hc.2⟩
  have h2 : (D.is_branch_unconditional code && !D.is_call code) = false := by
    by_contra hc
    simp only [Bool.not_eq_false, Bool.and_eq_true, Bool.not_eq_true'] at hc
    exact hn ⟨hk.2 code hc.1, hc.2⟩
  unfold Function.pushLabels
  simp [h1, h2]

theorem refDecoder_branchKinds : BranchKinds refDecoder := by
  constructor
  · intro code h
    simp only [refDecoder] at h ⊢
    simp [h]
  · intro code h
    simp only [refDecoder] at h ⊢
    simp [h]

theorem step_bound_cases (D : Decoder) (M : Memory) (parent : Segment) (fuel front : Nat)
    (rest : List Nat) (blocks : List (Nat × Block)) (st1 : CfgState)
    (h : Function.step D M parent fuel front rest blocks = Run.done st1) :
    (∃ key A, Function.scanBlocks front blocks 4294967295 = BlockScan.split key A)
    ∨ ∃ maxSize pc size code labels1 cur1,
        Function.scanBlocks front blocks 4294967295 = BlockScan.bound maxSize
        ∧ Function.grow D M maxSize fuel front 4 (M.read32 front) = some (pc, size, code)
        ∧ Function.pushLabels D parent code pc (front :: rest)
            { address := front, size := size, branch_a := 0, branch_b := 0 }
          = some (labels1, cur1)
        ∧ st1 = { labels := labels1.tail, blocks := mapAssign blocks front cur1 } := by
  unfold Function.step at h
  simp only at h
  split at h
  · rename_i key A hscan
    exact Or.inl ⟨key, A, hscan⟩
  · rename_i maxSize hscan
    right
    split at h
    · exact absurd h (by simp)
    · rename_i pc size code hgrow
      split at h
      · exact absurd h (by simp)
      · rename_i labels1 cur1 hpush
        injection h with h
        exact ⟨maxSize, pc, size, code, labels1, cur1, hscan, hgrow, hpush, h.symm⟩

theorem pushLabels_edges (D : Decoder) (parent : Segment) (code pc : Nat) (labels : List Nat)
    (cur : Block) (labels1 : List Nat) (cur1 : Block)
    (h : Function.pushLabels D parent code pc labels cur = some (labels1, cur1)) :
    (condNonCall D code →
      cur1.branch_a = u32 (D.get_target code pc) ∧ cur1.branch_b = add32 pc 4)
    ∧ (uncondNonCall D code → D.is_branch_conditional code = false →
      cur1.branch_a = u32 (D.get_target code pc) ∧ cur1.branch_b = cur.branch_b) := by
  unfold Function.pushLabels at h
  unfold condNonCall uncondNonCall
  by_cases hc : D.is_branch_conditional code = true <;>
  by_cases hu : D.is_branch_unconditional code = true <;>
  by_cases hl : D.is_call code = true <;>
  by_cases h1 : parent.contains (u32 (D.get_target code pc)) = true <;>
  by_cases h2 : parent.contains (add32 pc 4) = true <;>
  simp [hc, hu, hl, h1, h2] at h ⊢ <;>
  (try obtain ⟨_, h⟩ := h) <;> (try subst h) <;> simp

theorem edges_step (D : Decoder) (M : Memory) (parent : Segment) (fuel front : Nat)
    (hkinds : BranchKinds D) (hexcl : KindsExclusive D)
    (rest : List Nat) (blocks : List (Nat × Block)) (st1 : CfgState)
    (ht : Tidy { labels := front :: rest, blocks := blocks })
    (hc : Content D M { labels := front :: rest, blocks := blocks })
    (h0 : ∀ p ∈ blocks, SuccessorsMatch D M p.2)
    (h : Function.step D M parent fuel front rest blocks = Run.done st1) :
    ∀ p ∈ st1.blocks, SuccessorsMatch D M p.2 := by
  obtain ⟨hlt0, hin0, _⟩ := hc
  obtain ⟨hsorted, hkey, hsize, hl4, hk4, hs4, _⟩ := ht
  simp only at hlt0 hin0 hsorted hkey hsize hl4 hk4 hs4
  have hfront4 : front % 4 = 0 := hl4 front (List.mem_cons_self _ _)
  have hfrontlt : front < 4294967296 := hlt0 front (List.mem_cons_self _ _)
  have plain : ∀ code, ¬ nonCallBranch D code → ¬ condNonCall D code ∧ ¬ uncondNonCall D code :=
    fun code hn => ⟨fun hcn => hn ⟨hkinds.1 code hcn.1, hcn.2⟩,
      fun hun => hn ⟨hkinds.2 code hun.1, hun.2⟩⟩
  rcases step_bound_cases _ _ _ _ _ _ _ _ h with
    ⟨key, A, hscan⟩ | ⟨maxSize, pc, size, code, labels1, cur1, hscan, hgrow, hpush, hst⟩
  · rw [step_split_eq D M parent fuel front rest blocks key A hscan] at h
    injection h with h
    subst h
    simp only
    obtain ⟨hA, hcont⟩ := scanBlocks_split _ _ _ _ _ hscan
    have hAs := hsize _ hA
    have hA4 := hk4 _ hA
    have hAk : A.address = key := hkey _ hA
    simp only at hAs hA4
    rw [contains_iff A front hAs] at hcont
    obtain ⟨hc1, hc2, hc3⟩ := hcont
    have e1 : sub32 front A.address = front - A.address := by unfold sub32; omega
    have e2 : sub32 A.size (front - A.address) = A.size - (front - A.address) := by
      unfold sub32; omega
    rw [e1, e2]
    have hmid := sorted_mapAssign blocks key
      { A with size := front - A.address, branch_a := front, branch_b := 0 } hsorted
    intro p hp
    rcases mem_mapAssign_strong _ _ _ _ hmid hp with hp | ⟨hne, hp⟩
    · -- the second part keeps the terminator and the successors of `A`
      rw [hp]
      have hl : Block.last ⟨front, A.size - (front - A.address), A.branch_a, A.branch_b⟩
          = A.last := by
        unfold Block.last add32 sub32; simp only; congr 2; omega
      have := h0 _ hA
      unfold SuccessorsMatch at this ⊢
      rw [hl]
      exact this
    · rcases mem_mapAssign_weak _ _ _ _ hp with hp | hp
      · -- the first part ends in an instruction that is no non-call branch
        rw [hp] at hne ⊢
        simp only at hne
        have hfk : front ≠ A.address := by rw [hAk]; exact fun e => hne e.symm
        have hl : Block.last ⟨A.address, front - A.address, front, 0⟩
            = add32 A.address (front - A.address - 4) := by
          unfold Block.last add32 sub32; simp only; omega
        have hn := hin0 _ hA (front - A.address - 4) (by omega) (by simp only; omega)
        have := plain _ hn
        unfold SuccessorsMatch
        rw [hl]
        exact ⟨fun hcn => absurd hcn this.1, fun hun => absurd hun this.2⟩
      · exact h0 p hp
  · subst hst
    simp only
    obtain ⟨hcode, hpclt, hpc, _⟩ := grow_scanned _ _ _ _ _ _ _ _ hfront4 hfrontlt hgrow
    obtain ⟨_, _, _, ha, hs, _, _, _⟩ := pushLabels_some _ _ _ _ _ _ _ _ hpush
    simp only at ha hs
    obtain ⟨hcond, huncond⟩ := pushLabels_edges _ _ _ _ _ _ _ _ hpush
    intro p hp
    rcases mem_mapAssign_weak _ _ _ _ hp with hp | hp
    · rw [hp]
      have hl : cur1.last = pc := by
        unfold Block.last
        rw [ha, hs, ← hpc]
        unfold add32 sub32; omega
      unfold SuccessorsMatch
      rw [hl, ← hcode]
      refine ⟨hcond, fun hun => ?_⟩
      have hnc : D.is_branch_conditional code = false := by
        by_contra hcc
        have := hexcl code (by simpa using hcc)
        rw [hun.1] at this
        exact absurd this (by simp)
      exact huncond hun hnc
    · exact h0 p hp

theorem iterate_inv (D : Decoder) (M : Memory) (parent : Segment) (fuel : Nat)
    (P : CfgState → Prop)
    (hstep : ∀ front rest blocks st1, P { labels := front :: rest, blocks := blocks } →
      Function.step D M parent fuel front rest blocks = Run.done st1 → P st1)
    (n : Nat) (st st1 : CfgState) (h0 : P st)
    (h : Function.iterate D M parent fuel n st = some st1) : P st1 := by
  induction n generalizing st with
  | zero =>
    simp only [Function.iterate] at h
    injection h with h
    exact h ▸ h0
  | succ n ih =>
    obtain ⟨labels, bl⟩ := st
    unfold Function.iterate at h
    simp only at h
    split at h
    · exact absurd h (by simp)
    · rename_i front rest
      split at h
      · rename_i st2 hst
        exact ih st2 (hstep _ _ _ _ h0 hst) h
      · exact absurd h (by simp)

theorem refDecoder_exclusive : KindsExclusive refDecoder := by
  intro code h
  simp only [refDecoder] at h ⊢
  simp only [beq_iff_eq] at h
  simp [h]

/-- C17: in the block map of every successfully analysed function (aligned
entry, aligned direct targets, decoder whose conditional and unconditional
branches are branches and exclude each other), each block whose last
instruction, at `pc = address + size - 4`, is a conditional non-call branch
has `branch_a = target(pc)` and `branch_b = pc + 4`, and each block whose last
instruction is an unconditional non-call branch has `branch_a = target(pc)`
and `branch_b = 0`; the same holds in the map after any number of iterations
of the worklist loop, splits included. -/
theorem analyze_successors_match (D : Decoder) (M : Memory) (A : AnalyzerTable)
    (parent : Segment) (fuel entry : Nat) (f : Function)
    (hentry : entry % 4 = 0) (hlt : entry < 4294967296) (htarget : AlignedTargets D)
    (hkinds : BranchKinds D) (hexcl : KindsExclusive D)
    (h : Function.analyze D M A parent fuel entry = Run.done f) :
    (∀ p ∈ f.blocks, SuccessorsMatch D M p.2)
    ∧ ∀ n st, Function.iterate D M parent fuel n { labels := [entry], blocks := [] } = some st →
        ∀ p ∈ st.blocks, SuccessorsMatch D M p.2 := by
  have hstep : ∀ front rest bl st1,
      (Tidy { labels := front :: rest, blocks := bl }
        ∧ Content D M { labels := front :: rest, blocks := bl }
        ∧ ∀ p ∈ bl, SuccessorsMatch D M p.2) →
      Function.step D M parent fuel front rest bl = Run.done st1 →
      (Tidy st1 ∧ Content D M st1 ∧ ∀ p ∈ st1.blocks, SuccessorsMatch D M p.2) :=
    fun front rest bl st1 hP hs =>
      ⟨tidy_step D M parent fuel front htarget rest bl st1 hP.1 hs,
       content_step D M parent fuel front rest bl st1 hP.1 hP.2.1 hs,
       edges_step D M parent fuel front hkinds hexcl rest bl st1 hP.1 hP.2.1 hP.2.2 hs⟩
  have hinit : Tidy { labels := [entry], blocks := [] }
      ∧ Content D M { labels := [entry], blocks := [] }
      ∧ ∀ p ∈ ({ labels := [entry], blocks := [] } : CfgState).blocks,
          SuccessorsMatch D M p.2 := by
    refine ⟨?_, ?_, by intro p hp; simp at hp⟩
    · refine ⟨by simp [MapSorted], ?_, ?_, ?_, ?_, ?_, ?_⟩ <;> simp [hentry]
    · refine ⟨?_, ?_, ?_⟩ <;> simp [hlt]
  constructor
  · obtain ⟨hcfg, _, _⟩ := analyze_blocks D M A parent fuel entry f hentry hlt htarget
      hkinds.2 h
    exact (cfg_inv D M parent fuel
      (fun st => Tidy st ∧ Content D M st ∧ ∀ p ∈ st.blocks, SuccessorsMatch D M p.2)
      hstep fuel _ _ hinit hcfg).2.2
  · intro n st hst
    exact (iterate_inv D M parent fuel
      (fun st => Tidy st ∧ Content D M st ∧ ∀ p ∈ st.blocks, SuccessorsMatch D M p.2)
      hstep n _ st hinit hst).2.2

theorem analyze_successors_match_witness :
    Function.analyze refDecoder image3 nullTable { address := 0x10000, size := 24 } 10 0x10000
      = Run.done scenario3
    ∧ condNonCall refDecoder (image3.read32
        (Block.last { address := 0x10000, size := 4, branch_a := 0x10010,
                      branch_b := 0x10004 }))
    ∧ SuccessorsMatch refDecoder image3
        { address := 0x10000, size := 4, branch_a := 0x10010, branch_b := 0x10004 } :=
  ⟨by decide, by unfold condNonCall; decide,
   (analyze_successors_match refDecoder image3 nullTable { address := 0x10000, size := 24 } 10
     0x10000 scenario3 (by decide) (by decide) refDecoder_target_aligned
     refDecoder_branchKinds refDecoder_exclusive (by decide)).1
     (0x10000, { address := 0x10000, size := 4, branch_a := 0x10010, branch_b := 0x10004 })
     (by decide)⟩

/-! ## The entry-path scan of `get_type` -/

/-- After an unconditional non-call branch the scan goes on in the block
`blocks[block.branch_a]` at offset 4: `offset = 0` is followed by the
`offset += 4` of the loop. -/
theorem scan_after_jump (D : Decoder) (M : Memory) (A : AnalyzerTable) (fuel : Nat)
    (status : Analyzer) (block : Block) (offset : Nat) (blocks : List (Nat × Block))
    (hoff : offset < block.size)
    (hstop : (D.is_branch_conditional (M.read32 (add32 block.address offset))
      || D.is_return (M.read32 (add32 block.address offset))) = false)
    (hjump : uncondNonCall D (M.read32 (add32 block.address offset))) :
    Function.get_type.scan D M A (fuel + 1) status block offset blocks
      = Function.get_type.scan D M A fuel
          (A.run (M.read32 (add32 block.address offset)) status)
          (mapIndex Block.zero blocks block.branch_a).1 4
          (mapIndex Block.zero blocks block.branch_a).2 := by
  unfold uncondNonCall at hjump
  have e : add32 0 4 = 4 := rfl
  have hs := Bool.or_eq_false_iff.1 hstop
  rw [Function.get_type.scan]
  simp only [hoff, hs.1, hs.2, hjump.1, hjump.2, e, if_true, Bool.or_self, Bool.false_eq_true,
    if_false, Bool.not_false, Bool.and_self]

/-- C20: on the function `b +8; ...; mr r3,r4; blr` the analyzer is passed the
branch and then the `blr` at `0x1000C`: the instruction at the branch target
`0x10008`, the first one of the target block, is never analysed. -/
theorem get_type_skips_branch_target :
    Function.cfg refDecoder imageJump { address := 0x10000, size := 16 } 10 10
        { labels := [0x10000], blocks := [] } = Run.done jumpBlocks
    ∧ (Function.get_type.scan refDecoder imageJump logTable 10 logTable.init
          { address := 0x10000, size := 4, branch_a := 0x10008, branch_b := 0 } 0
          jumpBlocks).map (fun r => analyzed r.1)
        = some [0x48000008, 0x4e800020]
    ∧ imageJump.read32 0x10008 = 0x7c832378 := by
  refine ⟨by decide, by decide, by decide⟩

/-! ## Termination of the worklist loop -/

theorem grow_some (D : Decoder) (M : Memory) (maxSize L k : Nat)
    (hk : nonCallBranch D (M.read32 (L + 4 * k))) (hwrap : L + 4 * k + 4 < 4294967296)
    (fuel i : Nat) (hi : i ≤ k) (hfuel : k - i < fuel) :
    ∃ t, i ≤ t ∧ t ≤ k
      ∧ Function.grow D M maxSize fuel (L + 4 * i) (4 * (i + 1)) (M.read32 (L + 4 * i))
        = some (L + 4 * t, 4 * (t + 1), M.read32 (L + 4 * t)) := by
  induction fuel generalizing i with
  | zero => omega
  | succ fuel ih =>
    unfold Function.grow
    split_ifs with hc
    · rw [loopCond_iff] at hc
      have hik : i ≠ k := by
        intro e
        rw [e] at hc
        exact hc.1 hk
      have e1 : add32 (L + 4 * i) 4 = L + 4 * (i + 1) := by unfold add32; omega
      have e2 : add32 (4 * (i + 1)) 4 = 4 * (i + 1 + 1) := by unfold add32; omega
      rw [e1, e2]
      obtain ⟨t, h1, h2, h3⟩ := ih (i + 1) (by omega) (by omega)
      exact ⟨t, by omega, h2, h3⟩
    · exact ⟨i, le_refl _, hi, rfl⟩

theorem length_mapAssign_le {α : Type} (m : List (Nat × α)) (k : Nat) (v : α) :
    m.length ≤ (mapAssign m k v).length := by
  induction m with
  | nil => simp [mapAssign]
  | cons p rest ih =>
    obtain ⟨k1, v1⟩ := p
    by_cases h1 : k < k1
    · simp [mapAssign, h1]
    · by_cases h2 : k = k1
      · simp [mapAssign, h1, h2]
      · simp [mapAssign, h1, h2, ih]

theorem pushLabels_length (D : Decoder) (parent : Segment) (code pc : Nat) (labels : List Nat)
    (cur : Block) (labels1 : List Nat) (cur1 : Block)
    (h : Function.pushLabels D parent code pc labels cur = some (labels1, cur1)) :
    labels1.length ≤ labels.length + 3 := by
  unfold Function.pushLabels at h
  by_cases hc : D.is_branch_conditional code = true <;>
  by_cases hu : D.is_branch_unconditional code = true <;>
  by_cases hl : D.is_call code = true <;>
  by_cases h1 : parent.contains (u32 (D.get_target code pc)) = true <;>
  by_cases h2 : parent.contains (add32 pc 4) = true <;>
  simp [hc, hu, hl, h1, h2] at h <;>
  (obtain ⟨h, _⟩ := h; subst h; simp)

theorem sorted_length_le {α : Type} (m : List (Nat × α)) (hs : MapSorted m) (a s : Nat)
    (h : ∀ p ∈ m, a ≤ p.1 ∧ p.1 < a + s) : m.length ≤ s := by
  induction m generalizing a s with
  | nil => simp
  | cons p rest ih =>
    have hs1 := List.pairwise_cons.1 hs
    have hp := h p (List.mem_cons_self _ _)
    have := ih hs1.2 (p.1 + 1) (s - 1) (fun q hq => by
      have h1 := hs1.1 q hq
      have h2 := h q (List.mem_cons_of_mem _ hq)
      omega)
    simp only [List.length_cons]
    omega

theorem not_key_of_bound (front : Nat) (blocks : List (Nat × Block)) (maxSize : Nat)
    (hkey : ∀ p ∈ blocks, p.2.address = p.1) (hsize : ∀ p ∈ blocks, p.2.size < 4294967296)
    (hsolid : Solid blocks)
    (hscan : Function.scanBlocks front blocks 4294967295 = BlockScan.bound maxSize) :
    ¬ HasKey blocks front := by
  rintro ⟨b, hb⟩
  have h1 := ((scanBlocks_bound _ _ _ _ hscan).2 _ hb).1
  have h2 := hsolid _ hb
  have h3 := hkey _ hb
  have h4 := hsize _ hb
  unfold NoWrap at h2
  simp only at h1 h2 h3 h4
  have : b.contains front = true := by
    rw [contains_iff b front h4]
    omega
  rw [this] at h1
  exact absurd h1 (by simp)

theorem solid_step (D : Decoder) (M : Memory) (parent : Segment) (fuel front K : Nat)
    (hahead : BranchAhead D M parent K) (hK : K < fuel)
    (rest : List Nat) (blocks : List (Nat × Block)) (st1 : CfgState)
    (ht : Tidy { labels := front :: rest, blocks := blocks })
    (hi : InSeg parent { labels := front :: rest, blocks := blocks })
    (h0 : Solid blocks)
    (h : Function.step D M parent fuel front rest blocks = Run.done st1) :
    Solid st1.blocks := by
  obtain ⟨hsorted, hkey, hsize, hl4, hk4, hs4, _⟩ := ht
  simp only at hsorted hkey hsize hl4 hk4 hs4
  have hfront4 : front % 4 = 0 := hl4 front (List.mem_cons_self _ _)
  have hfrontin := hi.labels front (List.mem_cons_self _ _)
  rcases step_cases _ _ _ _ _ _ _ _ h with
    ⟨key, A, hA, hcont, _, hb⟩ | ⟨maxSize, pc, size, code, pushed, cur1, _, hgrow, _,
      _, hca, hcs, _, _, _, hb⟩
  · have hAs := hsize _ hA
    have hAk : A.address = key := hkey _ hA
    have hA4 := hk4 _ hA
    simp only at hAs hA4
    rw [contains_iff A front hAs] at hcont
    obtain ⟨hc1, hc2, hc3⟩ := hcont
    have e1 : sub32 front A.address = front - A.address := by unfold sub32; omega
    have e2 : sub32 A.size (front - A.address) = A.size - (front - A.address) := by
      unfold sub32; omega
    rw [e1, e2] at hb
    have hmid := sorted_mapAssign blocks key
      { A with size := front - A.address, branch_a := front, branch_b := 0 } hsorted
    intro p hp
    rw [hb] at hp
    rcases mem_mapAssign_strong _ _ _ _ hmid hp with hp | ⟨hne, hp⟩
    · rw [hp]
      unfold NoWrap
      simp only
      omega
    · rcases mem_mapAssign_weak _ _ _ _ hp with hp | hp
      · rw [hp] at hne ⊢
        unfold NoWrap
        simp only at hne ⊢
        omega
      · exact h0 p hp
  · obtain ⟨k, hk1, hk2, hk3⟩ := hahead front hfrontin hfront4
    obtain ⟨t, _, ht2, ht3⟩ := grow_some D M maxSize front k hk3 hk2 fuel 0 (Nat.zero_le _)
      (by omega)
    simp only [Nat.mul_zero, Nat.add_zero, Nat.zero_add, Nat.mul_one] at ht3
    rw [hgrow] at ht3
    injection ht3 with ht3
    injection ht3 with _ ht3
    injection ht3 with ht3 _
    intro p hp
    rw [hb] at hp
    rcases mem_mapAssign_weak _ _ _ _ hp with hp | hp
    · rw [hp]
      unfold NoWrap
      simp only
      rw [hca, hcs, ht3]
      omega
    · exact h0 p hp

theorem step_no_timeout (D : Decoder) (M : Memory) (parent : Segment) (fuel front K : Nat)
    (hahead : BranchAhead D M parent K) (hK : K < fuel)
    (rest : List Nat) (blocks : List (Nat × Block))
    (hfront4 : front % 4 = 0) (hfrontin : parent.contains front = true) :
    Function.step D M parent fuel front rest blocks ≠ Run.timeout := by
  unfold Function.step
  simp only
  split
  · simp
  · rename_i maxSize hscan
    obtain ⟨k, hk1, hk2, hk3⟩ := hahead front hfrontin hfront4
    obtain ⟨t, _, _, ht3⟩ := grow_some D M maxSize front k hk3 hk2 fuel 0 (Nat.zero_le _)
      (by omega)
    simp only [Nat.mul_zero, Nat.add_zero, Nat.zero_add, Nat.mul_one] at ht3
    rw [ht3]
    simp only
    split <;> simp

theorem cfg_no_timeout (D : Decoder) (M : Memory) (parent : Segment) (fuel K : Nat)
    (htarget : AlignedTargets D) (hahead : BranchAhead D M parent K) (hK : K < fuel)
    (n : Nat) (st : CfgState)
    (ht : Tidy st) (hi : InSeg parent st) (hs : Solid st.blocks)
    (hn : 3 * (parent.size - st.blocks.length) + st.labels.length < n) :
    Function.cfg D M parent fuel n st ≠ Run.timeout := by
  induction n generalizing st with
  | zero => omega
  | succ n ih =>
    obtain ⟨labels, blocks⟩ := st
    simp only at hn hs
    unfold Function.cfg
    simp only
    cases labels with
    | nil => simp
    | cons front rest =>
      simp only
      have hfront4 : front % 4 = 0 := ht.labels4 front (List.mem_cons_self _ _)
      have hfrontin := hi.labels front (List.mem_cons_self _ _)
      cases hstep : Function.step D M parent fuel front rest blocks with
      | timeout =>
        exact absurd hstep
          (step_no_timeout D M parent fuel front K hahead hK rest blocks hfront4 hfrontin)
      | reject => simp
      | done st1 =>
        simp only
        have ht1 := tidy_step D M parent fuel front htarget rest blocks st1 ht hstep
        have hi1 := inSeg_step D M parent fuel front rest blocks st1 hi hstep
        have hs1 := solid_step D M parent fuel front K hahead hK rest blocks st1 ht hi hs hstep
        refine ih st1 ht1 hi1 hs1 ?_
        simp only [List.length_cons] at hn
        have hbound : st1.blocks.length ≤ parent.size :=
          sorted_length_le st1.blocks ht1.sorted parent.address parent.size (fun p hp => by
            have := segment_contains_bounds parent p.1 (hi1.keys p hp)
            omega)
        rcases step_bound_cases _ _ _ _ _ _ _ _ hstep with
          ⟨key, A, hscan⟩ | ⟨maxSize, pc, size, code, labels1, cur1, hscan, _, hpush, hst⟩
        · rw [step_split_eq D M parent fuel front rest blocks key A hscan] at hstep
          injection hstep with hstep
          subst hstep
          simp only at hbound ⊢
          have l1 := length_mapAssign_le blocks key
            { A with size := sub32 front A.address, branch_a := front, branch_b := 0 }
          have l2 := length_mapAssign_le (mapAssign blocks key
            { A with size := sub32 front A.address, branch_a := front, branch_b := 0 }) front
            { address := front, size := sub32 A.size (sub32 front A.address),
              branch_a := A.branch_a, branch_b := A.branch_b }
          omega
        · subst hst
          simp only at hbound ⊢
          have hnew := not_key_of_bound front blocks maxSize ht.key_eq ht.size_lt hs hscan
          have l1 := length_mapAssign_new blocks front cur1 hnew
          have l2 := pushLabels_length _ _ _ _ _ _ _ _ hpush
          simp only [List.length_tail, List.length_cons] at l2 ⊢
          omega

theorem imageBlank_read (a : Nat) : imageBlank.read32 a = 0 := by
  unfold imageBlank imageAt
  simp

theorem grow_blank (fuel addr size : Nat) (h4 : size % 4 = 0) :
    Function.grow refDecoder imageBlank 4294967295 fuel addr (size % 4294967296) 0 = none := by
  induction fuel generalizing addr size with
  | zero => rfl
  | succ fuel ih =>
    unfold Function.grow
    have hb : refDecoder.is_branch 0 = false := by decide
    have hlt : size % 4294967296 < 4294967295 := by omega
    simp only [hb, hlt, Bool.not_false, Bool.true_or, decide_True, Bool.and_self, if_true,
      imageBlank_read]
    have e : add32 (size % 4294967296) 4 = (size + 4) % 4294967296 := by
      unfold add32; omega
    rw [e]
    exact ih _ (size + 4) (by omega)

/-- On a memory image without a branch the forward disassembly of the entry
block never stops: the worklist loop does not finish for any step budget. -/
theorem forward_disassembly_diverges :
    Segment.contains { address := 0x10000, size := 16 } 0x10000 = true
    ∧ ¬ ∃ fuel n, Function.cfg refDecoder imageBlank { address := 0x10000, size := 16 } fuel n
          { labels := [0x10000], blocks := [] } ≠ Run.timeout := by
  refine ⟨by decide, ?_⟩
  rintro ⟨fuel, n, h⟩
  apply h
  cases n with
  | zero => rfl
  | succ n =>
    unfold Function.cfg
    simp only
    have hg := grow_blank fuel 0x10000 4 (by decide)
    have e : Function.step refDecoder imageBlank { address := 0x10000, size := 16 } fuel
        0x10000 [] [] = Run.timeout := by
      unfold Function.step
      simp only [Function.scanBlocks, imageBlank_read]
      rw [show (4 : Nat) = 4 % 4294967296 from rfl, hg]
    rw [e]

/-- C14 (amended): for every memory image, segment and 4-byte-aligned entry
within the segment such that from every 4-byte-aligned address of the segment
a non-call branch is met within `K` instructions, before the address wraps
past `2^32` (direct targets 4-byte aligned), the worklist loop of
`Function.analyze`, forward disassembly included, terminates: a budget above
`K` for the disassembly and above `3 * segment.size + 1` for the iterations is
enough, and every larger budget gives the same result. -/
theorem cfg_terminates (D : Decoder) (M : Memory) (parent : Segment) (entry K fuel : Nat)
    (hentry : parent.contains entry = true) (h4 : entry % 4 = 0)
    (htarget : AlignedTargets D) (hahead : BranchAhead D M parent K)
    (hK : K < fuel) (hn : 3 * parent.size + 1 < fuel) :
    Function.cfg D M parent fuel fuel { labels := [entry], blocks := [] } ≠ Run.timeout
    ∧ ∀ fuel1, fuel ≤ fuel1 →
        Function.cfg D M parent fuel1 fuel1 { labels := [entry], blocks := [] }
          = Function.cfg D M parent fuel fuel { labels := [entry], blocks := [] } := by
  have hne : Function.cfg D M parent fuel fuel { labels := [entry], blocks := [] }
      ≠ Run.timeout := by
    refine cfg_no_timeout D M parent fuel K htarget hahead hK fuel _ ?_ ?_ ?_ ?_
    · refine ⟨by simp [MapSorted], ?_, ?_, ?_, ?_, ?_, ?_⟩ <;> simp [h4]
    · refine ⟨?_, ?_, ?_, ?_⟩ <;> simp [hentry]
    · intro p hp
      simp at hp
    · simp only [List.length_nil, List.length_singleton]
      omega
  exact ⟨hne, fun fuel1 hle => cfg_mono D M parent fuel fuel1 fuel fuel1 _ hle hle hne⟩

theorem image3_branchAhead :
    BranchAhead refDecoder image3 { address := 0x10000, size := 24 } 5 := by
  intro a ha h4
  have hb := segment_contains_bounds _ _ ha
  simp only at hb
  have : a = 0x10000 ∨ a = 0x10004 ∨ a = 0x10008 ∨ a = 0x1000C ∨ a = 0x10010
      ∨ a = 0x10014 := by omega
  rcases this with e | e | e | e | e | e <;> subst e
  · exact ⟨5, by decide, by decide, by decide⟩
  · exact ⟨4, by decide, by decide, by decide⟩
  · exact ⟨3, by decide, by decide, by decide⟩
  · exact ⟨2, by decide, by decide, by decide⟩
  · exact ⟨1, by decide, by decide, by decide⟩
  · exact ⟨0, by decide, by decide, by decide⟩

theorem cfg_terminates_witness :
    Function.cfg refDecoder image3 { address := 0x10000, size := 24 } 80 80
        { labels := [0x10000], blocks := [] } = Run.done scenario3.blocks
    ∧ Function.cfg refDecoder image3 { address := 0x10000, size := 24 } 80 80
        { labels := [0x10000], blocks := [] } ≠ Run.timeout
    ∧ ∀ fuel1, 80 ≤ fuel1 →
        Function.cfg refDecoder image3 { address := 0x10000, size := 24 } fuel1 fuel1
            { labels := [0x10000], blocks := [] }
          = Function.cfg refDecoder image3 { address := 0x10000, size := 24 } 80 80
            { labels := [0x10000], blocks := [] } :=
  ⟨by decide,
   cfg_terminates refDecoder image3 { address := 0x10000, size := 24 } 0x10000 5 80
     (by decide) (by decide) refDecoder_target_aligned image3_branchAhead (by decide)
     (by decide)⟩

/-! ## Seeding a label inside the entry block -/

theorem cfg_of_step (D : Decoder) (M : Memory) (parent : Segment) (fuel n front : Nat)
    (rest : List Nat) (blocks : List (Nat × Block)) (st1 : CfgState)
    (h : Function.step D M parent fuel front rest blocks = Run.done st1) :
    Function.cfg D M parent fuel (n + 1) { labels := front :: rest, blocks := blocks }
      = Function.cfg D M parent fuel n st1 := by
  conv_lhs => unfold Function.cfg
  simp only [h]

theorem cfg_guard_run (D : Decoder) (M : Memory) (parent : Segment) (fuel : Nat)
    (blocks : List (Nat × Block)) (hsorted : MapSorted blocks) (labels : List Nat)
    (hl : ∀ l ∈ labels, ∃ b, (l, b) ∈ blocks ∧ b.address = l ∧ 0 < b.size
      ∧ b.address + b.size < 4294967296 ∧ ∀ q ∈ blocks, q.2.contains l = true → q.1 = l)
    (n : Nat) (hn : labels.length < n) :
    Function.cfg D M parent fuel n { labels := labels, blocks := blocks }
      = Run.done blocks := by
  induction labels generalizing n with
  | nil =>
    cases n with
    | zero => simp at hn
    | succ n => simp [Function.cfg]
  | cons l rest ih =>
    cases n with
    | zero => simp at hn
    | succ n =>
      obtain ⟨b, hb, ha, hp, he, ho⟩ := hl l (List.mem_cons_self _ _)
      rw [cfg_of_step D M parent fuel n l rest blocks _
        (step_at_block_start D M parent fuel l rest blocks b hsorted hb ha hp he ho)]
      exact ih (fun x hx => hl x (List.mem_cons_of_mem _ hx)) n
        (by simp only [List.length_cons] at hn; omega)

theorem pushLabels_transport (D : Decoder) (parent : Segment) (code pc : Nat)
    (labels labels2 : List Nat) (a s a2 s2 : Nat) (labels1 : List Nat) (cur1 : Block)
    (h : Function.pushLabels D parent code pc labels
      { address := a, size := s, branch_a := 0, branch_b := 0 } = some (labels1, cur1)) :
    ∃ pushed, labels1 = labels ++ pushed ∧ pushed.length ≤ 3
      ∧ cur1 = { address := a, size := s, branch_a := cur1.branch_a,
                 branch_b := cur1.branch_b }
      ∧ Function.pushLabels D parent code pc labels2
          { address := a2, size := s2, branch_a := 0, branch_b := 0 }
        = some (labels2 ++ pushed,
            { address := a2, size := s2, branch_a := cur1.branch_a,
              branch_b := cur1.branch_b }) := by
  refine ⟨labels1.drop labels.length, ?_⟩
  unfold Function.pushLabels at h ⊢
  by_cases hc : D.is_branch_conditional code = true <;>
  by_cases hu : D.is_branch_unconditional code = true <;>
  by_cases hl : D.is_call code = true <;>
  by_cases h1 : parent.contains (u32 (D.get_target code pc)) = true <;>
  by_cases h2 : parent.contains (add32 pc 4) = true <;>
  simp [hc, hu, hl, h1, h2] at h ⊢ <;>
  (obtain ⟨h, h'⟩ := h; subst h h'; simp) <;> omega

theorem keys_persist (D : Decoder) (M : Memory) (parent : Segment) (fuel n x : Nat)
    (st : CfgState) (final : List (Nat × Block))
    (h0 : x ∈ st.labels ∨ HasKey st.blocks x)
    (h : Function.cfg D M parent fuel n st = Run.done final) : HasKey final x := by
  have := cfg_inv D M parent fuel (fun s => x ∈ s.labels ∨ HasKey s.blocks x)
    (fun front rest bl st1 hP hs => entry_step D M parent fuel x front rest bl st1 hP hs)
    n st final h0 h
  rcases this with h | h
  · simp at h
  · exact h

theorem cfg_done_mono (D : Decoder) (M : Memory) (parent : Segment) (fuel n m : Nat)
    (st : CfgState) (r1 r2 : List (Nat × Block))
    (h1 : Function.cfg D M parent fuel n st = Run.done r1)
    (h2 : Function.cfg D M parent fuel m st = Run.done r2) : r1 = r2 := by
  have e1 := cfg_mono D M parent fuel fuel n (max n m) st (le_refl _) (le_max_left _ _)
    (by rw [h1]; simp)
  have e2 := cfg_mono D M parent fuel fuel m (max n m) st (le_refl _) (le_max_right _ _)
    (by rw [h2]; simp)
  rw [h1] at e1
  rw [h2, e1] at e2
  injection e2

/-- The only map with the single key `A` all of whose queued labels are `A`,
and whose block contains `A`, is left as it is by the rest of the run. -/
theorem single_guard_run (D : Decoder) (M : Memory) (parent : Segment) (fuel A : Nat)
    (b : Block) (labels : List Nat) (hl : ∀ x ∈ labels, x = A)
    (ha : b.address = A) (hp : 0 < b.size) (he : b.address + b.size < 4294967296)
    (n : Nat) (hn : labels.length < n) :
    Function.cfg D M parent fuel n { labels := labels, blocks := [(A, b)] }
      = Run.done [(A, b)] := by
  refine cfg_guard_run D M parent fuel [(A, b)] (by simp [MapSorted]) labels ?_ n hn
  intro l hlm
  rw [hl l hlm]
  refine ⟨b, by simp, ha, hp, he, ?_⟩
  intro q hq _
  simp only [List.mem_singleton] at hq
  rw [hq]

theorem grow_stops (D : Decoder) (M : Memory) (maxSize fuel addr size code : Nat)
    (h : nonCallBranch D code ∨ ¬ size < maxSize) :
    Function.grow D M maxSize (fuel + 1) addr size code = some (addr, size, code) := by
  unfold Function.grow
  have : ¬ (((!D.is_branch code || D.is_call code) && decide (size < maxSize)) = true) := by
    rw [loopCond_iff]
    rcases h with h | h
    · exact fun hh => hh.1 h
    · exact fun hh => h hh.2
  rw [if_neg this]

/-- What a worklist run that ends with the single block `bA` at the aligned
entry `A`, with an aligned label strictly inside, says about the memory: the
first iteration disassembles up to a non-call branch at `pc`, stores `bA`, and
pushes labels equal to `A` only. -/
theorem single_block_run (D : Decoder) (M : Memory) (parent : Segment) (fuel n A L : Nat)
    (bA : Block) (hA4 : A % 4 = 0) (hL4 : L % 4 = 0) (hkinds : BranchKinds D)
    (hrun : Function.cfg D M parent fuel n { labels := [A], blocks := [] }
      = Run.done [(A, bA)])
    (hlo : bA.address < L) (hhi : L < bA.address + bA.size)
    (hend : bA.address + bA.size < 4294967296) :
    bA.address = A ∧ ∃ pc code pushed,
      Function.grow D M 4294967295 fuel A 4 (M.read32 A) = some (pc, bA.size, code)
      ∧ Function.pushLabels D parent code pc [A]
          { address := A, size := bA.size, branch_a := 0, branch_b := 0 }
        = some ([A] ++ pushed, bA)
      ∧ pushed.length ≤ 3 ∧ (∀ x ∈ pushed, x = A)
      ∧ nonCallBranch D code ∧ code = M.read32 pc ∧ pc + 4 = A + bA.size
      ∧ bA.size % 4 = 0
      ∧ ∀ o, o % 4 = 0 → o + 4 < bA.size → ¬ nonCallBranch D (M.read32 (A + o)) := by
  have hkeyA : bA.address = A := by
    have := cfg_inv D M parent fuel (fun s => ∀ p ∈ s.blocks, p.2.address = p.1)
      (fun front rest bl st1 hP hs => keyEq_step D M parent fuel front rest bl st1 hP hs)
      n _ _ (by intro p hp; simp at hp) hrun
    exact this (A, bA) (by simp)
  rw [hkeyA] at hlo hhi hend
  refine ⟨hkeyA, ?_⟩
  have hAlt : A < 4294967296 := by omega
  have hsz8 : 4 < bA.size := by omega
  cases n with
  | zero => simp [Function.cfg] at hrun
  | succ n0 =>
    cases hstep : Function.step D M parent fuel A [] [] with
    | timeout =>
      unfold Function.cfg at hrun
      simp [hstep] at hrun
    | reject =>
      unfold Function.cfg at hrun
      simp [hstep] at hrun
    | done st1 =>
      rw [cfg_of_step D M parent fuel n0 A [] [] st1 hstep] at hrun
      rcases step_bound_cases _ _ _ _ _ _ _ _ hstep with
        ⟨key, X, hscan⟩ | ⟨maxSize, pc, size, code, labels1, c, hscan, hgrow, hpush, hst⟩
      · simp [Function.scanBlocks] at hscan
      · simp only [Function.scanBlocks] at hscan
        injection hscan with hscan
        subst hscan
        obtain ⟨pushed, hl1, hplen, hcshape, _⟩ :=
          pushLabels_transport D parent code pc [A] [A] A size A size labels1 c hpush
        subst hst
        rw [hl1] at hrun hpush
        simp only [mapAssign, List.singleton_append, List.tail_cons] at hrun
        obtain ⟨hpc4, hs4, hslt, _⟩ := grow_size D M _ fuel A pc size code hA4 hgrow
        obtain ⟨hcode, hpclt, hpc, hinner⟩ :=
          grow_scanned D M _ fuel A pc size code hA4 hAlt hgrow
        have hbr : nonCallBranch D code := by
          have := (grow_inv D M 4294967295 (fun _ _ _ => True) (fun _ _ _ _ _ _ => trivial)
            fuel A 4 (M.read32 A) _ trivial hgrow).2
          rcases this with h | h
          · exact h
          · simp only at h; omega
        have hpushedA : ∀ x ∈ pushed, x = A := by
          intro x hx
          obtain ⟨v, hv⟩ := keys_persist D M parent fuel n0 x _ _ (Or.inl hx) hrun
          simp only [List.mem_singleton, Prod.mk.injEq] at hv
          exact hv.1
        have hca : c.address = A := by rw [hcshape]
        have hcs : c.size = size := by rw [hcshape]
        have hcb : c = bA := by
          by_cases hsolid : 0 < size ∧ A + size < 4294967296
          · have h1 := single_guard_run D M parent fuel A c pushed hpushedA hca
              (by rw [hcs]; exact hsolid.1) (by rw [hca, hcs]; exact hsolid.2)
              (pushed.length + 1) (by omega)
            have := cfg_done_mono D M parent fuel _ _ _ _ _ h1 hrun
            simpa using this
          · exfalso
            have hcont : c.contains A = false := by
              rw [← Bool.not_eq_true, contains_iff c A (by rw [hcs]; exact hslt), hca, hcs]
              omega
            cases pushed with
            | nil =>
              cases n0 with
              | zero => simp [Function.cfg] at hrun
              | succ n00 =>
                simp only [Function.cfg] at hrun
                injection hrun with hrun
                have e : c = bA := by simpa using hrun
                rw [e] at hcs
                omega
            | cons x rest1 =>
              have hx : x = A := hpushedA x (List.mem_cons_self _ _)
              subst hx
              cases n0 with
              | zero => simp [Function.cfg] at hrun
              | succ n00 =>
                cases fuel with
                | zero => simp [Function.grow] at hgrow
                | succ fuel0 =>
                  have hnb : ¬ nonCallBranch D (M.read32 x) := by
                    intro hb
                    rw [grow_stops D M 4294967295 fuel0 x 4 (M.read32 x) (Or.inl hb)] at hgrow
                    injection hgrow with hgrow
                    injection hgrow with _ hgrow
                    injection hgrow with hgrow _
                    omega
                  have hscan2 : Function.scanBlocks x [(x, c)] 4294967295
                      = BlockScan.bound 0 := by
                    have z : sub32 x x = 0 := by unfold sub32; omega
                    simp [Function.scanBlocks, hcont, hca, z]
                  have hgrow2 := grow_stops D M 0 fuel0 x 4 (M.read32 x) (Or.inr (by omega))
                  have hpush2 := pushLabels_plain D parent (M.read32 x) x (x :: rest1)
                    { address := x, size := 4, branch_a := 0, branch_b := 0 } hkinds hnb
                  have hstep2 : Function.step D M parent (fuel0 + 1) x rest1 [(x, c)]
                      = Run.done { labels := rest1,
                                   blocks := [(x, { address := x, size := 4, branch_a := 0,
                                                    branch_b := 0 })] } := by
                    unfold Function.step
                    simp only [hscan2, hgrow2, hpush2]
                    simp [mapAssign]
                  rw [cfg_of_step D M parent (fuel0 + 1) n00 x rest1 [(x, c)] _ hstep2] at hrun
                  have h1 := single_guard_run D M parent (fuel0 + 1) x
                    { address := x, size := 4, branch_a := 0, branch_b := 0 } rest1
                    (fun y hy => hpushedA y (List.mem_cons_of_mem _ hy)) rfl (by simp)
                    (by simp only; omega) (rest1.length + 1) (by omega)
                  have := cfg_done_mono D M parent (fuel0 + 1) _ _ _ _ _ h1 hrun
                  have e : ({ address := x, size := 4, branch_a := 0, branch_b := 0 } : Block)
                      = bA := by simpa using this
                  rw [← e] at hsz8
                  simp at hsz8
        subst hcb
        refine ⟨pc, code, pushed, by rw [hcs]; exact hgrow, by rw [hcs]; exact hpush, hplen,
          hpushedA, hbr, hcode, ?_, by rw [hcs]; exact hs4, ?_⟩
        · unfold add32 at hpc
          omega
        · intro o ho1 ho2
          have := hinner o ho1 (by omega)
          have e : add32 A o = A + o := by unfold add32; omega
          rw [e] at this
          exact this

theorem step_new_block (D : Decoder) (M : Memory) (parent : Segment) (fuel front : Nat)
    (rest : List Nat) (blocks : List (Nat × Block)) (maxSize pc size code : Nat)
    (pushed : List Nat) (cur1 : Block)
    (hscan : Function.scanBlocks front blocks 4294967295 = BlockScan.bound maxSize)
    (hgrow : Function.grow D M maxSize fuel front 4 (M.read32 front) = some (pc, size, code))
    (hpush : Function.pushLabels D parent code pc (front :: rest)
        { address := front, size := size, branch_a := 0, branch_b := 0 }
      = some ((front :: rest) ++ pushed, cur1)) :
    Function.step D M parent fuel front rest blocks
      = Run.done { labels := rest ++ pushed, blocks := mapAssign blocks front cur1 } := by
  unfold Function.step
  simp only [hscan, hgrow, hpush]
  simp

/-- C13 (amended): for an aligned entry `A` whose worklist run produces the
single block `bA`, and an aligned label `L` strictly inside it (the end of
`bA` not wrapping past `2^32`), with enough budget: processing `L` after the
run from `{A}`, and the run seeded with `A` then `L`, both end with the same
two blocks, `[A, L)` with `branch_a = L`, `branch_b = 0` and `[L, end)` with
the successors of `bA`; the run seeded with `L` then `A` ends with blocks of
the same addresses and sizes and the same successors at `L`, but the block at
`A`, cut by `maxSize` and not split, has `branch_a = 0`. -/
theorem split_seeded_together (D : Decoder) (M : Memory) (parent : Segment) (fuel n A L : Nat)
    (bA : Block) (hA4 : A % 4 = 0) (hL4 : L % 4 = 0) (hkinds : BranchKinds D)
    (hrun : Function.cfg D M parent fuel n { labels := [A], blocks := [] }
      = Run.done [(A, bA)])
    (hlo : bA.address < L) (hhi : L < bA.address + bA.size)
    (hend : bA.address + bA.size < 4294967296)
    (f m : Nat) (hf : fuel + bA.size ≤ f) (hm : 7 ≤ m) :
    Function.cfg D M parent f m { labels := [L], blocks := [(A, bA)] }
      = Run.done [(A, { address := A, size := L - A, branch_a := L, branch_b := 0 }),
                  (L, { address := L, size := bA.size - (L - A), branch_a := bA.branch_a,
                        branch_b := bA.branch_b })]
    ∧ Function.cfg D M parent f m { labels := [A, L], blocks := [] }
      = Run.done [(A, { address := A, size := L - A, branch_a := L, branch_b := 0 }),
                  (L, { address := L, size := bA.size - (L - A), branch_a := bA.branch_a,
                        branch_b := bA.branch_b })]
    ∧ Function.cfg D M parent f m { labels := [L, A], blocks := [] }
      = Run.done [(A, { address := A, size := L - A, branch_a := 0, branch_b := 0 }),
                  (L, { address := L, size := bA.size - (L - A), branch_a := bA.branch_a,
                        branch_b := bA.branch_b })] := by
  obtain ⟨hkeyA, pc, code, pushed, hgrow, hpush, hplen, hpushedA, hbr, hcode, hpc, hs4,
    hinner⟩ := single_block_run D M parent fuel n A L bA hA4 hL4 hkinds hrun hlo hhi hend
  rw [hkeyA] at hlo hhi hend
  obtain ⟨k, rfl⟩ : ∃ k, m = k + 5 + 1 + 1 := ⟨m - 7, by omega⟩
  obtain ⟨_, _, _, hshape, _⟩ :=
    pushLabels_transport D parent code pc [A] [A] A bA.size A bA.size _ bA hpush
  -- the split of the finished block
  have hcontL : bA.contains L = true := by
    rw [contains_iff bA L (by omega), hkeyA]
    omega
  have hsplit : ∀ rest, Function.step D M parent f L rest [(A, bA)]
      = Run.done { labels := rest,
                   blocks := [(A, { address := A, size := L - A, branch_a := L,
                                    branch_b := 0 }),
                              (L, { address := L, size := bA.size - (L - A),
                                    branch_a := bA.branch_a, branch_b := bA.branch_b })] } := by
    intro rest
    have hscan : Function.scanBlocks L [(A, bA)] 4294967295 = BlockScan.split A bA := by
      simp [Function.scanBlocks, hcontL]
    rw [step_split_eq D M parent f L rest [(A, bA)] A bA hscan]
    have z1 : sub32 L bA.address = L - A := by rw [hkeyA]; unfold sub32; omega
    have z2 : sub32 bA.size (L - A) = bA.size - (L - A) := by unfold sub32; omega
    have z3 : ¬ L < A := by omega
    have z4 : ¬ L = A := by omega
    rw [z1, z2]
    simp [mapAssign, z3, z4, hkeyA]
  -- the guard for the labels pushed by the terminator
  have hguard : ∀ (X : Block) (j : Nat), X.address = A → X.size = L - A → pushed.length < j →
      Function.cfg D M parent f j
          { labels := pushed,
            blocks := [(A, X), (L, { address := L, size := bA.size - (L - A),
                                     branch_a := bA.branch_a, branch_b := bA.branch_b })] }
        = Run.done [(A, X), (L, { address := L, size := bA.size - (L - A),
                                  branch_a := bA.branch_a, branch_b := bA.branch_b })] := by
    intro X j hXa hXs hj
    refine cfg_guard_run D M parent f _ (by simp [MapSorted]; omega) pushed ?_ j hj
    intro l hl
    rw [hpushedA l hl]
    refine ⟨X, by simp, hXa, by omega, by omega, ?_⟩
    intro q hq hc
    simp only [List.mem_cons, List.mem_singleton, List.not_mem_nil, or_false] at hq
    rcases hq with hq | hq
    · rw [hq]
    · rw [hq] at hc
      simp only at hc
      rw [contains_iff _ A (by simp only; omega)] at hc
      simp only at hc
      omega
  have hgrowf := grow_mono D M 4294967295 fuel f A 4 (M.read32 A) _ (by omega) hgrow
  refine ⟨?_, ?_, ?_⟩
  · rw [cfg_of_step D M parent f (k + 5 + 1) L [] _ _ (hsplit [])]
    simp [Function.cfg]
  · obtain ⟨w, hw, _, _, hp2⟩ :=
      pushLabels_transport D parent code pc [A] [A, L] A bA.size A bA.size _ bA hpush
    have hwp : pushed = w := List.append_cancel_left hw
    subst hwp
    rw [← hshape] at hp2
    have hst := step_new_block D M parent f A [L] [] 4294967295 pc bA.size code pushed bA
      (by simp [Function.scanBlocks]) hgrowf hp2
    rw [cfg_of_step D M parent f (k + 5 + 1) A [L] _ _ hst]
    simp only [mapAssign, List.singleton_append]
    rw [cfg_of_step D M parent f (k + 5) L pushed _ _ (hsplit pushed)]
    exact hguard _ _ rfl rfl (by omega)
  · -- seeded with `L` first: the disassembly from `L` reaches the same terminator
    obtain ⟨t, ht⟩ : ∃ t, L + 4 * t = pc := ⟨(pc - L) / 4, by omega⟩
    have hg1 := grow_exact D M 4294967295 L t (by omega)
      (Or.inl (by rw [ht, ← hcode]; exact hbr)) f 0 (Nat.zero_le _) (by omega)
      (fun j _ hj => ⟨by
          have := hinner (L - A + 4 * j) (by omega) (by omega)
          rw [show A + (L - A + 4 * j) = L + 4 * j by omega] at this
          exact this, by omega⟩)
    simp only [Nat.mul_zero, Nat.add_zero, Nat.zero_add, Nat.mul_one] at hg1
    rw [ht, ← hcode] at hg1
    obtain ⟨w, hw, _, _, hp3⟩ := pushLabels_transport D parent code pc [A] [L, A] A bA.size L
      (4 * (t + 1)) _ bA hpush
    have hwp : pushed = w := List.append_cancel_left hw
    subst hwp
    have hsz : 4 * (t + 1) = bA.size - (L - A) := by omega
    rw [hsz] at hg1 hp3
    have hst1 := step_new_block D M parent f L [A] [] 4294967295 pc (bA.size - (L - A)) code
      pushed _ (by simp [Function.scanBlocks]) hg1 hp3
    rw [cfg_of_step D M parent f (k + 5 + 1) L [A] _ _ hst1]
    simp only [mapAssign, List.singleton_append]
    -- then `A`: the new block is cut at `L` by `maxSize`
    have hcontA : Block.contains ⟨L, bA.size - (L - A), bA.branch_a, bA.branch_b⟩ A = false := by
      rw [← Bool.not_eq_true, contains_iff _ A (by simp only; omega)]
      simp only
      omega
    have hscan2 : Function.scanBlocks A
        [(L, ⟨L, bA.size - (L - A), bA.branch_a, bA.branch_b⟩)] 4294967295
        = BlockScan.bound (L - A) := by
      have z : sub32 L A = L - A := by unfold sub32; omega
      have z2 : L - A < 4294967295 := by omega
      simp [Function.scanBlocks, hcontA, z, z2]
    obtain ⟨t2, ht2⟩ : ∃ t2, 4 * (t2 + 1) = L - A := ⟨(L - A) / 4 - 1, by omega⟩
    have hg2 := grow_exact D M (L - A) A t2 (by omega) (Or.inr (by omega)) f 0
      (Nat.zero_le _) (by omega)
      (fun j _ hj => ⟨hinner (4 * j) (by omega) (by omega), by omega⟩)
    simp only [Nat.mul_zero, Nat.add_zero, Nat.zero_add, Nat.mul_one] at hg2
    rw [ht2] at hg2
    have hnb : ¬ nonCallBranch D (M.read32 (A + 4 * t2)) :=
      hinner (4 * t2) (by omega) (by omega)
    have hp4 := pushLabels_plain D parent (M.read32 (A + 4 * t2)) (A + 4 * t2) (A :: pushed)
      ⟨A, L - A, 0, 0⟩ hkinds hnb
    have hst2 := step_new_block D M parent f A pushed
      [(L, ⟨L, bA.size - (L - A), bA.branch_a, bA.branch_b⟩)] (L - A) (A + 4 * t2) (L - A)
      _ [] _ hscan2 hg2 (by simpa using hp4)
    rw [cfg_of_step D M parent f (k + 5) A pushed _ _ hst2]
    simp only [mapAssign, hlo, if_true, List.append_nil]
    exact hguard _ _ rfl rfl (by omega)

theorem split_seeded_together_witness :
    Function.cfg refDecoder image6 { address := 0x10000, size := 28 } 30 10
        { labels := [0x10008],
          blocks := [(0x10000, { address := 0x10000, size := 20, branch_a := 0,
                                 branch_b := 0 })] }
      = Run.done [(0x10000, { address := 0x10000, size := 0x10008 - 0x10000,
                              branch_a := 0x10008, branch_b := 0 }),
                  (0x10008, { address := 0x10008, size := 20 - (0x10008 - 0x10000),
                              branch_a := 0, branch_b := 0 })]
    ∧ Function.cfg refDecoder image6 { address := 0x10000, size := 28 } 30 10
        { labels := [0x10000, 0x10008], blocks := [] }
      = Run.done [(0x10000, { address := 0x10000, size := 0x10008 - 0x10000,
                              branch_a := 0x10008, branch_b := 0 }),
                  (0x10008, { address := 0x10008, size := 20 - (0x10008 - 0x10000),
                              branch_a := 0, branch_b := 0 })]
    ∧ Function.cfg refDecoder image6 { address := 0x10000, size := 28 } 30 10
        { labels := [0x10008, 0x10000], blocks := [] }
      = Run.done [(0x10000, { address := 0x10000, size := 0x10008 - 0x10000,
                              branch_a := 0, branch_b := 0 }),
                  (0x10008, { address := 0x10008, size := 20 - (0x10008 - 0x10000),
                              branch_a := 0, branch_b := 0 })] :=
  split_seeded_together refDecoder image6 { address := 0x10000, size := 28 } 10 10 0x10000
    0x10008 { address := 0x10000, size := 20, branch_a := 0, branch_b := 0 }
    (by decide) (by decide) refDecoder_branchKinds (by decide) (by decide) (by decide)
    (by decide) 30 10 (by decide) (by decide)

/-- Seeding the label before the entry: the block at the entry is cut by
`maxSize` and keeps `branch_a = 0`, while the split of the finished block sets
`branch_a` to the label. -/
theorem seed_order_changes_successor :
    Function.cfg refDecoder image6 { address := 0x10000, size := 28 } 10 10
        { labels := [0x10000], blocks := [] }
      = Run.done [(0x10000, { address := 0x10000, size := 20, branch_a := 0, branch_b := 0 })]
    ∧ Function.cfg refDecoder image6 { address := 0x10000, size := 28 } 10 10
        { labels := [0x10008],
          blocks := [(0x10000, { address := 0x10000, size := 20, branch_a := 0,
                                 branch_b := 0 })] }
      = Run.done [(0x10000, { address := 0x10000, size := 8, branch_a := 0x10008,
                              branch_b := 0 }),
                  (0x10008, { address := 0x10008, size := 12, branch_a := 0, branch_b := 0 })]
    ∧ Function.cfg refDecoder image6 { address := 0x10000, size := 28 } 10 10
        { labels := [0x10008, 0x10000], blocks := [] }
      = Run.done [(0x10000, { address := 0x10000, size := 8, branch_a := 0, branch_b := 0 }),
                  (0x10008, { address := 0x10008, size := 12, branch_a := 0, branch_b := 0 })]
    ∧ Function.cfg refDecoder image6 { address := 0x10000, size := 28 } 10 10
        { labels := [0x10008, 0x10000], blocks := [] }
      ≠ Function.cfg refDecoder image6 { address := 0x10000, size := 28 } 10 10
        { labels := [0x10008],
          blocks := [(0x10000, { address := 0x10000, size := 20, branch_a := 0,
                                 branch_b := 0 })] } := by
  refine ⟨by decide, by decide, by decide, by decide⟩

/-! ## Termination of the entry-path scan -/

/-- An instruction that neither stops the scan nor makes it jump moves the scan
to the next offset of the same block. -/
theorem scan_next (D : Decoder) (M : Memory) (A : AnalyzerTable) (fuel : Nat)
    (status : Analyzer) (block : Block) (offset : Nat) (blocks : List (Nat × Block))
    (hoff : offset < block.size)
    (hstop : (D.is_branch_conditional (M.read32 (add32 block.address offset))
      || D.is_return (M.read32 (add32 block.address offset))) = false)
    (hjump : (D.is_branch_unconditional (M.read32 (add32 block.address offset))
      && !D.is_call (M.read32 (add32 block.address offset))) = false) :
    Function.get_type.scan D M A (fuel + 1) status block offset blocks
      = Function.get_type.scan D M A fuel
          (A.run (M.read32 (add32 block.address offset)) status) block (add32 offset 4)
          blocks := by
  rw [Function.get_type.scan]
  simp only [hoff, hstop, hjump, if_true, Bool.false_eq_true, if_false]

theorem scan_scenario4 (A : AnalyzerTable) (fuel : Nat) (status : Analyzer) (offset : Nat)
    (h : offset = 0 ∨ offset = 4 ∨ offset = 8) :
    Function.get_type.scan refDecoder image4 A fuel status block4 offset [(0x10000, block4)]
      = none := by
  induction fuel generalizing status offset with
  | zero => rfl
  | succ fuel ih =>
    rcases h with h | h | h <;> subst h
    · rw [scan_next refDecoder image4 A fuel status block4 0 _ (by decide) (by decide)
        (by decide)]
      exact ih _ _ (Or.inr (Or.inl (by decide)))
    · rw [scan_next refDecoder image4 A fuel status block4 4 _ (by decide) (by decide)
        (by decide)]
      exact ih _ _ (Or.inr (Or.inr (by decide)))
    · rw [scan_after_jump refDecoder image4 A fuel status block4 8 _ (by decide) (by decide)
        (by unfold uncondNonCall; decide)]
      have e : mapIndex Block.zero [(0x10000, block4)] block4.branch_a
          = (block4, [(0x10000, block4)]) := by decide
      rw [e]
      exact ih _ _ (Or.inr (Or.inl rfl))

/-- C23: on scenario 4 (two fillers, then `b entry`) the control-flow graph is
built, one block with `branch_a = entry`, but the loop of `get_type` never
finishes: after the branch it goes on in the same block at offset 4, reaches
the branch again, and so on, so `Function.analyze` returns for no step budget
and no analyzer table. -/
theorem get_type_loops_on_backward_branch :
    Function.cfg refDecoder image4 { address := 0x10000, size := 12 } 10 10
        { labels := [0x10000], blocks := [] } = Run.done [(0x10000, block4)]
    ∧ (¬ ∃ A fuel r, Function.get_type.scan refDecoder image4 A fuel A.init block4 0
          [(0x10000, block4)] = some r)
    ∧ ¬ ∃ A fuel f, Function.analyze refDecoder image4 A { address := 0x10000, size := 12 }
          fuel 0x10000 = Run.done f := by
  have hcfg : Function.cfg refDecoder image4 { address := 0x10000, size := 12 } 10 10
      { labels := [0x10000], blocks := [] } = Run.done [(0x10000, block4)] := by decide
  refine ⟨hcfg, ?_, ?_⟩
  · rintro ⟨A, fuel, r, h⟩
    rw [scan_scenario4 A fuel A.init 0 (Or.inl rfl)] at h
    exact absurd h (by simp)
  · rintro ⟨A, fuel, f, h⟩
    obtain ⟨blocks, hc, hg⟩ := analyze_done _ _ _ _ _ _ _ h
    have e1 := cfg_mono refDecoder image4 { address := 0x10000, size := 12 } 10 (max fuel 10)
      10 (max fuel 10) _ (le_max_right _ _) (le_max_right _ _) (by rw [hcfg]; simp)
    have e2 := cfg_mono refDecoder image4 { address := 0x10000, size := 12 } fuel
      (max fuel 10) fuel (max fuel 10) _ (le_max_left _ _) (le_max_left _ _)
      (by rw [hc]; simp)
    rw [hcfg] at e1
    rw [hc, e1] at e2
    injection e2 with e2
    subst e2
    unfold Function.get_type at hg
    have e : mapIndex Block.zero [(0x10000, block4)] 0x10000
        = (block4, [(0x10000, block4)]) := by decide
    simp only [e, scan_scenario4 A fuel A.init 0 (Or.inl rfl)] at hg
    exact absurd hg (by simp)

/-! ## Well-formed blocks -/

theorem imageAt_single (base w a : Nat) :
    (imageAt base [w]).read32 a = if a = base then w else 0 := by
  unfold imageAt
  simp only
  by_cases h : a = base
  · subst h
    simp
  · rw [if_neg h]
    split_ifs with hc
    · have : (a - base) / 4 ≠ 0 := by omega
      obtain ⟨j, hj⟩ := Nat.exists_eq_succ_of_ne_zero this
      rw [hj]
      simp
    · rfl

/-- Forward disassembly on a memory image whose only non-zero word is the
non-call branch `w` at `base`: from `L` it runs, wrapping past `2^32` if
needed, until it meets `w`, as long as the size stays below `maxSize`. -/
theorem grow_single (base w : Nat) (hw : nonCallBranch refDecoder w) (maxSize L d : Nat)
    (hd : (L + 4 * d) % 4294967296 = base)
    (hfirst : ∀ j, j < d → (L + 4 * j) % 4294967296 ≠ base)
    (hmax : ∀ j, j < d → (4 * (j + 1)) % 4294967296 < maxSize)
    (fuel i : Nat) (hi : i ≤ d) (hfuel : d - i < fuel) :
    Function.grow refDecoder (imageAt base [w]) maxSize fuel ((L + 4 * i) % 4294967296)
        ((4 * (i + 1)) % 4294967296) ((imageAt base [w]).read32 ((L + 4 * i) % 4294967296))
      = some (base, (4 * (d + 1)) % 4294967296, w) := by
  induction fuel generalizing i with
  | zero => omega
  | succ fuel ih =>
    by_cases hid : i = d
    · subst hid
      rw [imageAt_single, if_pos hd, hd]
      exact grow_stops refDecoder _ maxSize fuel base _ w (Or.inl hw)
    · have hlt : i < d := by omega
      have hz : (imageAt base [w]).read32 ((L + 4 * i) % 4294967296) = 0 := by
        rw [imageAt_single, if_neg (hfirst i hlt)]
      have hnb : ¬ nonCallBranch refDecoder 0 := by decide
      unfold Function.grow
      rw [hz, if_pos ((loopCond_iff refDecoder _ _ _).2 ⟨hnb, hmax i hlt⟩)]
      have e1 : add32 ((L + 4 * i) % 4294967296) 4 = (L + 4 * (i + 1)) % 4294967296 := by
        unfold add32; omega
      have e2 : add32 ((4 * (i + 1)) % 4294967296) 4 = (4 * (i + 1 + 1)) % 4294967296 := by
        unfold add32; omega
      rw [e1, e2]
      exact ih (i + 1) (by omega) (by omega)

theorem grow_wrapped_entry :
    Function.grow refDecoder image1 4294967295 1073741824 0x10004 4 (image1.read32 0x10004)
      = some (0x10000, 0, 0x4e800020) := by
  have := grow_single 0x10000 0x4e800020 (by decide) 4294967295 0x10004 1073741823
    (by norm_num) (fun j hj => by omega) (fun j hj => by omega) 1073741824 0
    (Nat.zero_le _) (by norm_num)
  norm_num at this
  exact this

/-- The two stages of `Function.analyze`: the worklist loop, then the type scan. -/
theorem analyze_of_parts (D : Decoder) (M : Memory) (A : AnalyzerTable) (parent : Segment)
    (fuel address : Nat) (blocks : List (Nat × Block)) (f : Function)
    (hcfg : Function.cfg D M parent fuel fuel { labels := [address], blocks := [] }
      = Run.done blocks)
    (hget : Function.get_type D M A fuel
      { address := address, blocks := blocks, type_in := [], type_out := FUNCTION_OUT_VOID }
      = some f) :
    Function.analyze D M A parent fuel address = Run.done f := by
  unfold Function.analyze
  rw [hcfg]
  simp only [hget]

/-- A block whose forward disassembly wraps past `2^32`: with the only branch
of the address space right before the aligned entry `0x10004`, the analysis
succeeds with an entry block of size 0. -/
theorem wrapped_block_has_size_zero :
    Function.analyze refDecoder image1 nullTable { address := 0x10000, size := 16 }
        1073741824 0x10004 = Run.done wrappedFunction
    ∧ 0x10004 % 4 = 0 ∧ AlignedTargets refDecoder
    ∧ ¬ ∀ p ∈ wrappedFunction.blocks, 4 ≤ p.2.size := by
  refine ⟨?_, by decide, refDecoder_target_aligned, by decide⟩
  have hstep := step_new_block refDecoder image1 { address := 0x10000, size := 16 }
    1073741824 0x10004 [] [] 4294967295 0x10000 0 0x4e800020 []
    { address := 0x10004, size := 0, branch_a := 0, branch_b := 0 }
    (by simp [Function.scanBlocks]) grow_wrapped_entry (by decide)
  have hcfg : Function.cfg refDecoder image1 { address := 0x10000, size := 16 } 1073741824
      1073741824 { labels := [0x10004], blocks := [] }
      = Run.done wrappedFunction.blocks :=
    (cfg_of_step refDecoder image1 { address := 0x10000, size := 16 } 1073741824
      1073741823 _ _ _ _ hstep).trans rfl
  exact analyze_of_parts _ _ _ _ _ _ _ _ hcfg rfl

/-- The map returned by `Function.analyze` is the map built by the worklist
loop, up to the value-initialised block that `get_type` may add under key 0. -/
theorem analyze_blocks_form (D : Decoder) (M : Memory) (A : AnalyzerTable)
    (parent : Segment) (fuel entry : Nat) (f : Function)
    (h : Function.analyze D M A parent fuel entry = Run.done f) :
    ∃ blocks,
      Function.cfg D M parent fuel fuel { labels := [entry], blocks := [] } = Run.done blocks
      ∧ (f.blocks = blocks ∨ f.blocks = mapAssign blocks 0 Block.zero) := by
  obtain ⟨blocks, hcfg, hget⟩ := analyze_done _ _ _ _ _ _ _ h
  have hinv := cfg_inv D M parent fuel
    (fun st => Closed st ∧ (entry ∈ st.labels ∨ HasKey st.blocks entry))
    (fun front rest bl st1 hP hstep =>
      ⟨closed_step D M parent fuel front rest bl st1 hP.1 hstep,
       entry_step D M parent fuel entry front rest bl st1 hP.2 hstep⟩)
    fuel _ _ ⟨by intro p hp; simp at hp, Or.inl (List.mem_singleton_self _)⟩ hcfg
  obtain ⟨hclosed, hent⟩ := hinv
  simp only at hent
  have hk : HasKey blocks entry := by
    rcases hent with h | h
    · simp at h
    · exact h
  have hcl : ∀ p ∈ blocks, p.2.branch_a ≠ 0 → HasKey blocks p.2.branch_a := by
    intro p hp hne
    rcases (hclosed p hp).1 hne with h | h
    · exact h
    · simp at h
  refine ⟨blocks, hcfg, ?_⟩
  unfold Function.get_type at hget
  simp only at hget
  split at hget
  · exact absurd hget (by simp)
  · rename_i status bl hscan
    injection hget with hget
    subst hget
    simp only
    rcases mapIndex_cases Block.zero blocks entry with ⟨e1, e2⟩ | ⟨e1, _⟩
    · rw [e1] at hscan
      refine scan_frame_closed D M A blocks hcl fuel _ _ 0 blocks _ (Or.inl rfl) ?_ hscan
      by_cases hz : (mapIndex Block.zero blocks entry).1.branch_a = 0
      · exact Or.inl hz
      · exact Or.inr (hcl _ e2 hz)
    · exact absurd hk e1

/-- Blocks stay non-empty and unwrapped through an iteration, for every step
budget, when a non-call branch lies ahead of every aligned address of the
segment. -/
theorem solid_step_any (D : Decoder) (M : Memory) (parent : Segment) (fuel front K : Nat)
    (hahead : BranchAhead D M parent K)
    (rest : List Nat) (blocks : List (Nat × Block)) (st1 : CfgState)
    (ht : Tidy { labels := front :: rest, blocks := blocks })
    (hi : InSeg parent { labels := front :: rest, blocks := blocks })
    (h0 : Solid blocks)
    (h : Function.step D M parent fuel front rest blocks = Run.done st1) :
    Solid st1.blocks := by
  have hm := step_mono D M parent fuel (fuel + K + 1) front rest blocks (by omega)
    (by rw [h]; simp)
  rw [h] at hm
  exact solid_step D M parent (fuel + K + 1) front K hahead (by omega) rest blocks st1 ht hi
    h0 hm

theorem solid_cfg (D : Decoder) (M : Memory) (parent : Segment) (fuel entry K : Nat)
    (blocks : List (Nat × Block)) (hentry : entry % 4 = 0)
    (hin : parent.contains entry = true) (htarget : AlignedTargets D)
    (hahead : BranchAhead D M parent K)
    (h : Function.cfg D M parent fuel fuel { labels := [entry], blocks := [] }
      = Run.done blocks) :
    Solid blocks := by
  have := cfg_inv D M parent fuel (fun st => Tidy st ∧ InSeg parent st ∧ Solid st.blocks)
    (fun front rest bl st1 hP hs =>
      ⟨tidy_step D M parent fuel front htarget rest bl st1 hP.1 hs,
       inSeg_step D M parent fuel front rest bl st1 hP.2.1 hs,
       solid_step_any D M parent fuel front K hahead rest bl st1 hP.1 hP.2.1 hP.2.2 hs⟩)
    fuel _ _ ?_ h
  · exact this.2.2
  · refine ⟨?_, ?_, ?_⟩
    · refine ⟨by simp [MapSorted], ?_, ?_, ?_, ?_, ?_, ?_⟩ <;> simp [hentry]
    · refine ⟨?_, ?_, ?_, ?_⟩ <;> simp [hin]
    · intro p hp
      simp at hp

/-- C21 (amended): for every 4-byte-aligned entry for which `Function.analyze`
returns true, direct branch targets being 4-byte aligned, every block of the
resulting map is stored under a key equal to its own address field and has a
size divisible by 4; it has size at least 4 when, in addition, the entry lies
in the segment, from every 4-byte-aligned address of the segment a non-call
branch is met before the address wraps past `2^32`, and unconditional branches
are classified as branches. -/
theorem analyze_blocks_well_formed (D : Decoder) (M : Memory) (A : AnalyzerTable)
    (parent : Segment) (fuel entry : Nat) (f : Function)
    (hentry : entry % 4 = 0) (htarget : AlignedTargets D)
    (h : Function.analyze D M A parent fuel entry = Run.done f) :
    (∀ p ∈ f.blocks, p.2.address = p.1 ∧ p.2.size % 4 = 0)
    ∧ (∀ K, parent.contains entry = true → BranchAhead D M parent K →
        (∀ code, D.is_branch_unconditional code = true → D.is_branch code = true) →
        ∀ p ∈ f.blocks, 4 ≤ p.2.size) := by
  obtain ⟨blocks, hcfg, hform⟩ := analyze_blocks_form D M A parent fuel entry f h
  have ht := tidy_cfg D M parent fuel entry blocks hentry htarget hcfg
  constructor
  · intro p hp
    have hmem : p ∈ blocks ∨ p = (0, Block.zero) := by
      rcases hform with e | e
      · rw [e] at hp
        exact Or.inl hp
      · rw [e] at hp
        rcases mem_mapAssign_weak _ _ _ _ hp with hp | hp
        · exact Or.inr hp
        · exact Or.inl hp
    rcases hmem with hp | hp
    · exact ⟨ht.key_eq p hp, ht.sizes4 p hp⟩
    · rw [hp]
      exact ⟨rfl, rfl⟩
  · intro K hin hahead hbranch p hp
    have hlt := (segment_contains_bounds parent entry hin).2.2
    obtain ⟨hcfg2, ht2, _⟩ :=
      analyze_blocks D M A parent fuel entry f hentry hlt htarget hbranch h
    have hs := solid_cfg D M parent fuel entry K f.blocks hentry hin htarget hahead hcfg2
    have h1 := (hs p hp).1
    have h2 := ht2.sizes4 p hp
    omega

theorem analyze_blocks_well_formed_witness :
    Function.analyze refDecoder image3 nullTable { address := 0x10000, size := 24 } 10 0x10000
      = Run.done scenario3
    ∧ (∀ p ∈ scenario3.blocks, p.2.address = p.1 ∧ p.2.size % 4 = 0)
    ∧ ∀ p ∈ scenario3.blocks, 4 ≤ p.2.size :=
  have w := analyze_blocks_well_formed refDecoder image3 nullTable
    { address := 0x10000, size := 24 } 10 0x10000 scenario3 (by decide)
    refDecoder_target_aligned (by decide)
  ⟨by decide, w.1, w.2 5 (by decide) image3_branchAhead refDecoder_branch⟩

/-! ## Reachability of the blocks -/

theorem reachable_lift (b1 b2 : List (Nat × Block)) (entry x : Nat)
    (hlift : ∀ u v, Edge b1 u v → Reachable b2 u v) (h : Reachable b1 entry x) :
    Reachable b2 entry x := by
  unfold Reachable at h ⊢
  induction h with
  | refl => exact Relation.ReflTransGen.refl
  | tail _ hbc ih => exact ih.trans (hlift _ _ hbc)

theorem pushLabels_successors (D : Decoder) (parent : Segment) (code pc : Nat)
    (labels : List Nat) (a s : Nat) (labels1 : List Nat) (cur1 : Block)
    (h : Function.pushLabels D parent code pc labels
      { address := a, size := s, branch_a := 0, branch_b := 0 } = some (labels1, cur1)) :
    ∃ pushed, labels1 = labels ++ pushed
      ∧ (∀ x ∈ pushed, parent.contains x = true)
      ∧ ∀ x ∈ pushed, x = cur1.branch_a ∨ x = cur1.branch_b := by
  refine ⟨labels1.drop labels.length, ?_⟩
  unfold Function.pushLabels at h
  by_cases hc : D.is_branch_conditional code = true <;>
  by_cases hu : D.is_branch_unconditional code = true <;>
  by_cases hl : D.is_call code = true <;>
  by_cases h1 : parent.contains (u32 (D.get_target code pc)) = true <;>
  by_cases h2 : parent.contains (add32 pc 4) = true <;>
  simp [hc, hu, hl, h1, h2] at h <;>
  (obtain ⟨h, h'⟩ := h; subst h h'; simp [h1, h2])

theorem reach_step (D : Decoder) (M : Memory) (parent : Segment) (fuel front : Nat)
    (hzero : parent.contains 0 = false)
    (rest : List Nat) (blocks : List (Nat × Block)) (st1 : CfgState)
    (ht : Tidy { labels := front :: rest, blocks := blocks })
    (hs : Solid blocks) (entry : Nat)
    (hr : Reach entry { labels := front :: rest, blocks := blocks })
    (h : Function.step D M parent fuel front rest blocks = Run.done st1) :
    Reach entry st1 := by
  have hfront : Reachable blocks entry front := hr.labels front (List.mem_cons_self _ _)
  rcases step_bound_cases D M parent fuel front rest blocks st1 h with
    ⟨key, A, hscan⟩ | ⟨maxSize, pc, size, code, labels1, cur1, hscan, _, hpush, hst⟩
  · rw [step_split_eq D M parent fuel front rest blocks key A hscan] at h
    injection h with h
    subst h
    obtain ⟨hmem, hcont⟩ := scanBlocks_split _ _ _ _ _ hscan
    have hA := (contains_iff A front (ht.size_lt _ hmem)).1 hcont
    have hAk : A.address = key := ht.key_eq _ hmem
    have hlift : ∀ u v, Edge blocks u v → Reachable
        (mapAssign (mapAssign blocks key
          { A with size := sub32 front A.address, branch_a := front, branch_b := 0 })
          front { address := front, size := sub32 A.size (sub32 front A.address),
                  branch_a := A.branch_a, branch_b := A.branch_b }) u v := by
      intro u v ⟨b, hb, hv, hab⟩
      by_cases hu : u = key
      · subst hu
        have hbA : b = A := sorted_unique blocks ht.sorted u b A hb hmem
        subst hbA
        by_cases hfk : front = u
        · subst hfk
          exact Relation.ReflTransGen.single ⟨_, mem_mapAssign_self _ _ _, hv, hab⟩
        · have hf0 : front ≠ 0 := by
            intro e
            omega
          have e1 : Edge (mapAssign (mapAssign blocks u
              { b with size := sub32 front b.address, branch_a := front, branch_b := 0 })
              front { address := front, size := sub32 b.size (sub32 front b.address),
                      branch_a := b.branch_a, branch_b := b.branch_b }) u front :=
            ⟨_, mem_mapAssign_of_ne _ _ _ _ (mem_mapAssign_self _ _ _) (fun e => hfk e.symm),
              hf0, Or.inl rfl⟩
          have e2 : Edge (mapAssign (mapAssign blocks u
              { b with size := sub32 front b.address, branch_a := front, branch_b := 0 })
              front { address := front, size := sub32 b.size (sub32 front b.address),
                      branch_a := b.branch_a, branch_b := b.branch_b }) front v :=
            ⟨_, mem_mapAssign_self _ _ _, hv, hab⟩
          exact (Relation.ReflTransGen.single e1).tail e2
      · have huf : u ≠ front := by
          intro e
          subst e
          have hbs := hs _ hb
          have hbk : b.address = u := ht.key_eq _ hb
          have hd := ht.disjoint _ hmem _ hb (fun e => hu e.symm)
            (by show A.address + A.size < 4294967296; omega) hbs.2
          have := hbs.1
          dsimp only at hd hbk this
          omega
        exact Relation.ReflTransGen.single
          ⟨b, mem_mapAssign_of_ne _ _ _ _ (mem_mapAssign_of_ne _ _ _ _ hb hu) huf, hv, hab⟩
    constructor
    · intro p hp
      rcases mem_mapAssign_weak _ _ _ _ hp with e | hp
      · rw [e]
        exact reachable_lift _ _ _ _ hlift hfront
      · rcases mem_mapAssign_weak _ _ _ _ hp with e | hp
        · rw [e]
          exact reachable_lift _ _ _ _ hlift (hr.keys (key, A) hmem)
        · exact reachable_lift _ _ _ _ hlift (hr.keys p hp)
    · intro l hl
      exact reachable_lift _ _ _ _ hlift (hr.labels l (List.mem_cons_of_mem _ hl))
  · subst hst
    obtain ⟨pushed, hl1, hseg, hsucc⟩ :=
      pushLabels_successors D parent code pc (front :: rest) front size labels1 cur1 hpush
    have hnk := not_key_of_bound front blocks maxSize ht.key_eq ht.size_lt hs hscan
    have hlift : ∀ u v, Edge blocks u v → Reachable (mapAssign blocks front cur1) u v := by
      intro u v ⟨b, hb, hv, hab⟩
      refine Relation.ReflTransGen.single
        ⟨b, mem_mapAssign_of_ne _ _ _ _ hb (fun e => hnk ⟨b, ?_⟩), hv, hab⟩
      simp only at e
      rw [← e]
      exact hb
    constructor
    · intro p hp
      rcases mem_mapAssign_weak _ _ _ _ hp with e | hp
      · rw [e]
        exact reachable_lift _ _ _ _ hlift hfront
      · exact reachable_lift _ _ _ _ hlift (hr.keys p hp)
    · intro l hl
      rw [hl1] at hl
      simp only [List.cons_append, List.tail_cons, List.mem_append] at hl
      rcases hl with hl | hl
      · exact reachable_lift _ _ _ _ hlift (hr.labels l (List.mem_cons_of_mem _ hl))
      · have hne : l ≠ 0 := by
          intro e
          have := hseg l hl
          rw [e, hzero] at this
          cases this
        exact (reachable_lift _ _ _ _ hlift hfront).tail
          ⟨cur1, mem_mapAssign_self _ _ _, hne,
            (hsucc l hl).elim (fun e => Or.inl e.symm) (fun e => Or.inr e.symm)⟩

theorem reach_cfg (D : Decoder) (M : Memory) (parent : Segment) (fuel entry K : Nat)
    (blocks : List (Nat × Block)) (hentry : entry % 4 = 0)
    (hin : parent.contains entry = true) (hzero : parent.contains 0 = false)
    (htarget : AlignedTargets D) (hahead : BranchAhead D M parent K)
    (h : Function.cfg D M parent fuel fuel { labels := [entry], blocks := [] }
      = Run.done blocks) :
    ∀ p ∈ blocks, Reachable blocks entry p.1 := by
  have := cfg_inv D M parent fuel
    (fun st => Tidy st ∧ InSeg parent st ∧ Solid st.blocks ∧ Reach entry st)
    (fun front rest bl st1 hP hs =>
      ⟨tidy_step D M parent fuel front htarget rest bl st1 hP.1 hs,
       inSeg_step D M parent fuel front rest bl st1 hP.2.1 hs,
       solid_step_any D M parent fuel front K hahead rest bl st1 hP.1 hP.2.1 hP.2.2.1 hs,
       reach_step D M parent fuel front hzero rest bl st1 hP.1 hP.2.2.1 entry hP.2.2.2 hs⟩)
    fuel _ _ ?_ h
  · exact this.2.2.2.keys
  · refine ⟨?_, ?_, ?_, ?_⟩
    · refine ⟨by simp [MapSorted], ?_, ?_, ?_, ?_, ?_, ?_⟩ <;> simp [hentry]
    · refine ⟨?_, ?_, ?_, ?_⟩ <;> simp [hin]
    · intro p hp
      simp at hp
    · refine ⟨?_, ?_⟩
      · intro p hp
        simp at hp
      · intro l hl
        simp only [List.mem_singleton] at hl
        rw [hl]
        exact Relation.ReflTransGen.refl

/-! ## The lowering worklist visits every reachable block -/

theorem lower_some (D : Decoder) (F : Fields) (M : Memory) (fuel : Nat)
    (blocks : List (Nat × Block)) (key : Nat) (block : Block)
    (hsize : block.size ≤ 4294967292) (hfuel : block.size ≤ 4 * fuel) :
    ∃ emitted, Function.recompile.lower D F M (fuel + 1) blocks key block = some emitted
      ∧ IRAction.setInsertPoint key ∈ emitted := by
  obtain ⟨body, hbody, _⟩ := instructions_some M block hsize fuel 0
    [IRAction.setInsertPoint key] (by rfl) (by omega)
  refine ⟨([IRAction.setInsertPoint key] ++ body)
    ++ Function.recompile.stitch D F M blocks block, ?_, ?_⟩
  · unfold Function.recompile.lower
    rw [hbody]
  · simp

theorem visiting_length (blocks0 : List (Nat × Block)) (entry : Nat) (s : Lowering)
    (hv : Visiting blocks0 entry s) : s.recompiled.length ≤ blocks0.length := by
  have hsub : s.recompiled ⊆ blocks0.map Prod.fst := by
    intro k hk
    obtain ⟨v, hv⟩ := hv.done_keys k hk
    exact List.mem_map.2 ⟨(k, v), hv, rfl⟩
  have := (List.Nodup.subperm hv.nodup hsub).length_le
  simpa using this

theorem mapIndex_present (blocks : List (Nat × Block)) (hs : MapSorted blocks) (k : Nat)
    (v : Block) (h : (k, v) ∈ blocks) : mapIndex Block.zero blocks k = (v, blocks) := by
  rcases mapIndex_cases Block.zero blocks k with ⟨h1, h2⟩ | ⟨h1, _⟩
  · have := sorted_unique blocks hs k _ v h2 h
    exact Prod.ext this h1
  · exact absurd ⟨v, h⟩ h1

theorem loop_visits (D : Decoder) (F : Fields) (M : Memory) (blocks0 : List (Nat × Block))
    (entry : Nat) (hsorted : MapSorted blocks0)
    (hclosed : ∀ p ∈ blocks0, (p.2.branch_a ≠ 0 → HasKey blocks0 p.2.branch_a)
      ∧ (p.2.branch_b ≠ 0 → HasKey blocks0 p.2.branch_b))
    (hsize : ∀ p ∈ blocks0, p.2.size ≤ 4294967292) (fuel : Nat)
    (hfuel : ∀ p ∈ blocks0, p.2.size ≤ 4 * fuel)
    (n : Nat) (s : Lowering) (hv : Visiting blocks0 entry s)
    (hn : 3 * (blocks0.length - s.recompiled.length) + s.labels.length < n) :
    ∃ s1, Function.recompile.loop D F M (fuel + 1) n s = some s1
      ∧ Visiting blocks0 entry s1 ∧ s1.labels = [] := by
  induction n generalizing s with
  | zero => omega
  | succ n ih =>
    obtain ⟨labels, blocks, recompiled, emitted⟩ := s
    have hb : blocks = blocks0 := hv.blocks_eq
    subst hb
    cases labels with
    | nil => exact ⟨_, rfl, hv, rfl⟩
    | cons front rest =>
      obtain ⟨v, hvmem⟩ := hv.labels_keys front (List.mem_cons_self _ _)
      have hidx := mapIndex_present blocks hsorted front v hvmem
      unfold Function.recompile.loop
      simp only [hidx]
      by_cases hc : recompiled.contains front = true
      · simp only [hc, if_true]
        have hin : front ∈ recompiled := by simpa using hc
        apply ih
        · refine ⟨rfl, ?_, hv.nodup, hv.done_keys, hv.emitted, ?_, ?_⟩
          · intro l hl
            exact hv.labels_keys l (List.mem_cons_of_mem _ hl)
          · rcases hv.entry_seen with h | h
            · exact Or.inl h
            · rcases List.mem_cons.1 h with h | h
              · exact Or.inl (h ▸ hin)
              · exact Or.inr h
          · intro k hk y hy
            rcases hv.closed k hk y hy with h | h
            · exact Or.inl h
            · rcases List.mem_cons.1 h with h | h
              · exact Or.inl (h ▸ hin)
              · exact Or.inr h
        · simp only [List.length_cons] at hn ⊢
          omega
      · simp only [hc, Bool.false_eq_true, if_false]
        have hnin : front ∉ recompiled := by simpa using hc
        obtain ⟨em, hem, hsip⟩ := lower_some D F M fuel blocks front v (hsize _ hvmem)
          (hfuel _ hvmem)
        simp only [hem]
        have hv1 : Visiting blocks entry
            { labels := (if (v.branch_b != 0) = true then
                  (if (v.branch_a != 0) = true then (front :: rest) ++ [v.branch_a]
                    else front :: rest) ++ [v.branch_b]
                else (if (v.branch_a != 0) = true then (front :: rest) ++ [v.branch_a]
                    else front :: rest)).tail,
              blocks := blocks, recompiled := front :: recompiled,
              emitted := emitted ++ em } := by
          have hlab : ∀ l, l ∈ (if (v.branch_b != 0) = true then
                  (if (v.branch_a != 0) = true then (front :: rest) ++ [v.branch_a]
                    else front :: rest) ++ [v.branch_b]
                else (if (v.branch_a != 0) = true then (front :: rest) ++ [v.branch_a]
                    else front :: rest)).tail ↔
              l ∈ rest ∨ (l ≠ 0 ∧ (v.branch_a = l ∨ v.branch_b = l)) := by
            intro l
            by_cases ha : v.branch_a = 0 <;> by_cases hb : v.branch_b = 0 <;>
              simp [ha, hb] <;> aesop
          refine ⟨rfl, ?_, ?_, ?_, ?_, ?_, ?_⟩
          · intro l hl
            rcases (hlab l).1 hl with h | ⟨h0, h | h⟩
            · exact hv.labels_keys l (List.mem_cons_of_mem _ h)
            · exact h ▸ (hclosed _ hvmem).1 (by simpa [h] using h0)
            · exact h ▸ (hclosed _ hvmem).2 (by simpa [h] using h0)
          · exact List.nodup_cons.2 ⟨hnin, hv.nodup⟩
          · intro k hk
            rcases List.mem_cons.1 hk with h | h
            · exact h ▸ ⟨v, hvmem⟩
            · exact hv.done_keys k h
          · intro k hk
            rcases List.mem_cons.1 hk with h | h
            · exact List.mem_append_right _ (h ▸ hsip)
            · exact List.mem_append_left _ (hv.emitted k h)
          · rcases hv.entry_seen with h | h
            · exact Or.inl (List.mem_cons_of_mem _ h)
            · rcases List.mem_cons.1 h with h | h
              · exact Or.inl (h ▸ List.mem_cons_self _ _)
              · exact Or.inr ((hlab entry).2 (Or.inl h))
          · intro k hk y hy
            rcases List.mem_cons.1 hk with h | h
            · subst h
              obtain ⟨b, hb, hy0, hab⟩ := hy
              have hbv : b = v := sorted_unique blocks hsorted k b v hb hvmem
              subst hbv
              exact Or.inr ((hlab y).2 (Or.inr ⟨hy0, hab⟩))
            · rcases hv.closed k h y hy with h | h
              · exact Or.inl (List.mem_cons_of_mem _ h)
              · rcases List.mem_cons.1 h with h | h
                · exact Or.inl (h ▸ List.mem_cons_self _ _)
                · exact Or.inr ((hlab y).2 (Or.inl h))
        have hlen1 := visiting_length blocks entry _ hv1
        apply ih _ hv1
        have hll : (if (v.branch_b != 0) = true then
                  (if (v.branch_a != 0) = true then (front :: rest) ++ [v.branch_a]
                    else front :: rest) ++ [v.branch_b]
                else (if (v.branch_a != 0) = true then (front :: rest) ++ [v.branch_a]
                    else front :: rest)).tail.length ≤ rest.length + 2 := by
          by_cases ha : v.branch_a = 0 <;> by_cases hb : v.branch_b = 0 <;> simp [ha, hb]
        simp only [List.length_cons] at hn hlen1 ⊢
        omega

theorem visited_of_reachable (blocks0 : List (Nat × Block)) (entry : Nat) (s : Lowering)
    (hv : Visiting blocks0 entry s) (hl : s.labels = []) (x : Nat)
    (hx : Reachable blocks0 entry x) : IRAction.setInsertPoint x ∈ s.emitted := by
  have hin : x ∈ s.recompiled := by
    unfold Reachable at hx
    induction hx with
    | refl =>
      rcases hv.entry_seen with h | h
      · exact h
      · rw [hl] at h
        cases h
    | tail _ hbc ih =>
      rcases hv.closed _ ih _ hbc with h | h
      · exact h
      · rw [hl] at h
        cases h
  exact hv.emitted x hin

theorem grow_beq_entry :
    Function.grow refDecoder imageBeq 4294967295 1073741824 0x10004 4
        (imageBeq.read32 0x10004)
      = some (0x10000, 0, 0x41820008) := by
  have := grow_single 0x10000 0x41820008 (by decide) 4294967295 0x10004 1073741823
    (by norm_num) (fun j hj => by omega) (fun j hj => by omega) 1073741824 0
    (Nat.zero_le _) (by norm_num)
  norm_num at this
  exact this

theorem grow_beq_second :
    Function.grow refDecoder imageBeq 4294967292 1073741824 0x10008 4
        (imageBeq.read32 0x10008)
      = some (0x10000, 4294967292, 0x41820008) := by
  have := grow_single 0x10000 0x41820008 (by decide) 4294967292 0x10008 1073741822
    (by norm_num) (fun j hj => by omega) (fun j hj => by omega) 1073741824 0
    (Nat.zero_le _) (by norm_num)
  norm_num at this
  exact this

/-- A block that no path from the entry reaches: with the only branch of the
address space right before the aligned entry `0x10004`, the analysis succeeds
with two blocks without successors, and the lowering worklist never sets the
insert point of the block at `0x10008`. -/
theorem wrapped_blocks_unreachable :
    Function.analyze refDecoder imageBeq nullTable { address := 0x10000, size := 16 }
        1073741824 0x10004 = Run.done orphanFunction
    ∧ Segment.contains { address := 0x10000, size := 16 } 0 = false
    ∧ (¬ ∀ p ∈ orphanFunction.blocks,
        Reachable orphanFunction.blocks orphanFunction.address p.1)
    ∧ Function.recompile refDecoder refFields imageBeq 8 orphanFunction
      = some [IRAction.createBasicBlock 0x10004 BlockName.entry,
              IRAction.createBasicBlock 0x10008 (BlockName.block 0x10008),
              IRAction.setInsertPoint 0x10004, IRAction.instruction 0x10004 0,
              IRAction.createBranch 0x10008] := by
  refine ⟨?_, by decide, ?_, by decide⟩
  · have hstep1 := step_new_block refDecoder imageBeq { address := 0x10000, size := 16 }
      1073741824 0x10004 [] [] 4294967295 0x10000 0 0x41820008 [0x10008, 0x10004]
      { address := 0x10004, size := 0, branch_a := 0x10008, branch_b := 0x10004 }
      (by simp [Function.scanBlocks]) grow_beq_entry (by decide)
    have hstep2 := step_new_block refDecoder imageBeq { address := 0x10000, size := 16 }
      1073741824 0x10008 [0x10004]
      [(0x10004, { address := 0x10004, size := 0, branch_a := 0x10008, branch_b := 0x10004 })]
      4294967292 0x10000 4294967292 0x41820008 [0x10008, 0x10004]
      { address := 0x10008, size := 4294967292, branch_a := 0x10008, branch_b := 0x10004 }
      (by decide) grow_beq_second (by decide)
    have hcfg : Function.cfg refDecoder imageBeq { address := 0x10000, size := 16 } 1073741824
        1073741824 { labels := [0x10004], blocks := [] }
        = Run.done orphanFunction.blocks :=
      (cfg_of_step refDecoder imageBeq { address := 0x10000, size := 16 } 1073741824
        1073741823 _ _ _ _ hstep1).trans
      ((cfg_of_step refDecoder imageBeq { address := 0x10000, size := 16 } 1073741824
        1073741822 _ _ _ _ hstep2).trans (by decide))
    exact analyze_of_parts _ _ _ _ _ _ _ _ hcfg rfl
  · intro h
    rcases Relation.ReflTransGen.cases_head
      (h (0x10008, { address := 0x10008, size := 4, branch_a := 0, branch_b := 0 })
        (by simp [orphanFunction])) with e | ⟨c, ⟨b, hb, hc, hab⟩, _⟩
    · exact absurd e (by decide)
    · simp only [orphanFunction, List.mem_cons, Prod.mk.injEq, List.mem_singleton,
        List.not_mem_nil, or_false] at hb
      rcases hb with ⟨_, hb⟩ | ⟨hb, _⟩
      · subst hb
        simp only at hab
        omega
      · exact absurd hb (by decide)

/-- C22 (amended): for every 4-byte-aligned entry of the segment for which
`Function.analyze` returns true, the segment not containing address 0 (so
address 0 is no successor), direct branch targets being 4-byte aligned,
unconditional branches being classified as branches, and a non-call branch
being met from every 4-byte-aligned address of the segment before the address
wraps past `2^32`: every key of the resulting map can be reached from the
entry by following non-zero `branch_a`/`branch_b` edges, and with enough fuel
the worklist of `Function.recompile` finishes and has set the insert point of
every block of the map. -/
theorem analyze_blocks_reachable (D : Decoder) (F : Fields) (M : Memory) (A : AnalyzerTable)
    (parent : Segment) (fuel entry K : Nat) (f : Function)
    (hentry : entry % 4 = 0) (hin : parent.contains entry = true)
    (hzero : parent.contains 0 = false) (htarget : AlignedTargets D)
    (hbranch : ∀ code, D.is_branch_unconditional code = true → D.is_branch code = true)
    (hahead : BranchAhead D M parent K)
    (h : Function.analyze D M A parent fuel entry = Run.done f) :
    (∀ p ∈ f.blocks, Reachable f.blocks f.address p.1)
    ∧ ∀ fuel1, (∀ p ∈ f.blocks, p.2.size < 4 * fuel1) → 3 * f.blocks.length + 1 < fuel1 →
        ∃ actions, Function.recompile D F M fuel1 f = some actions
          ∧ ∀ p ∈ f.blocks, IRAction.setInsertPoint p.1 ∈ actions := by
  have hlt := (segment_contains_bounds parent entry hin).2.2
  obtain ⟨hcfg, ht, _⟩ := analyze_blocks D M A parent fuel entry f hentry hlt htarget hbranch h
  obtain ⟨blocks, _, hget⟩ := analyze_done _ _ _ _ _ _ _ h
  have haddr : f.address = entry := (get_type_frame _ _ _ _ _ _ hget).1
  have hreach := reach_cfg D M parent fuel entry K f.blocks hentry hin hzero htarget hahead hcfg
  rw [← haddr] at hreach
  refine ⟨hreach, ?_⟩
  intro fuel1 hf1 hf2
  have hclosed : Closed { labels := [], blocks := f.blocks } :=
    cfg_inv D M parent fuel Closed (closed_step D M parent fuel) fuel _ _
      (by intro p hp; simp at hp) hcfg
  obtain ⟨e, he⟩ : HasKey f.blocks f.address :=
    keys_persist D M parent fuel fuel f.address _ f.blocks
      (Or.inl (by simp [haddr])) hcfg
  obtain ⟨fuel0, rfl⟩ : ∃ fuel0, fuel1 = fuel0 + 1 := ⟨fuel1 - 1, by omega⟩
  obtain ⟨s1, hs1, hv1, hl1⟩ := loop_visits D F M f.blocks f.address ht.sorted
    (fun p hp =>
      ⟨fun hne => ((hclosed p hp).1 hne).elim id (fun hx => by simp at hx),
       fun hne => ((hclosed p hp).2 hne).elim id (fun hx => by simp at hx)⟩)
    (fun p hp => by
      have h1 := ht.size_lt p hp
      have h2 := ht.sizes4 p hp
      simp only at h1 h2
      omega)
    fuel0
    (fun p hp => by
      have h1 := hf1 p hp
      have h2 := ht.sizes4 p hp
      simp only at h2
      omega)
    (fuel0 + 1)
    { labels := [f.address], blocks := f.blocks, recompiled := [],
      emitted := IRAction.createBasicBlock f.address BlockName.entry
        :: Function.recompile.createBlocks f.address f.blocks }
    ⟨rfl, fun l hl => by
        simp only [List.mem_singleton] at hl
        rw [hl]
        exact ⟨e, he⟩,
      List.nodup_nil, fun k hk => by simp at hk, fun k hk => by simp at hk,
      Or.inr (by simp), fun k hk => by simp at hk⟩
    (by simp only [List.length_nil, List.length_singleton]; omega)
  refine ⟨s1.emitted, ?_, fun p hp => visited_of_reachable f.blocks f.address s1 hv1 hl1 p.1
    (hreach p hp)⟩
  unfold Function.recompile
  simp only [mapIndex_present f.blocks ht.sorted f.address e he, Function.recompile.lowered, hs1]

theorem analyze_blocks_reachable_witness :
    Function.analyze refDecoder image3 nullTable { address := 0x10000, size := 24 } 10 0x10000
      = Run.done scenario3
    ∧ (∀ p ∈ scenario3.blocks, Reachable scenario3.blocks scenario3.address p.1)
    ∧ ∃ actions, Function.recompile refDecoder refFields image3 12 scenario3 = some actions
        ∧ ∀ p ∈ scenario3.blocks, IRAction.setInsertPoint p.1 ∈ actions :=
  have w := analyze_blocks_reachable refDecoder refFields image3 nullTable
    { address := 0x10000, size := 24 } 10 0x10000 5 scenario3 (by decide) (by decide)
    (by decide) refDecoder_target_aligned refDecoder_branch image3_branchAhead (by decide)
  ⟨by decide, w.1, w.2 12 (by decide) (by decide)⟩

/-! ## A popped label at the start of an empty block -/

theorem iterate_of_step (D : Decoder) (M : Memory) (parent : Segment) (fuel n front : Nat)
    (rest : List Nat) (blocks : List (Nat × Block)) (st1 : CfgState)
    (h : Function.step D M parent fuel front rest blocks = Run.done st1) :
    Function.iterate D M parent fuel (n + 1) { labels := front :: rest, blocks := blocks }
      = Function.iterate D M parent fuel n st1 := by
  conv_lhs => unfold Function.iterate
  simp only [h]

/-- A popped label that is the start address of an existing block, on a state
that the worklist loop of `Function.analyze` reaches. The only branch of the
address space, `beq +8` at `0x10000`, lies right before the entry `0x10004`:
two iterations leave the queue `[0x10004, 0x10008, 0x10004]` and an entry
block whose size wrapped to 0. The next iteration pops `0x10004`, the start
address of that block, and builds the block again: its size becomes 4 and its
two successors are dropped. -/
theorem guard_rebuilds_empty_block :
    Function.iterate refDecoder imageBeq { address := 0x10000, size := 16 } 1073741824 2
        { labels := [0x10004], blocks := [] }
      = some { labels := [0x10004, 0x10008, 0x10004],
               blocks := [(0x10004, { address := 0x10004, size := 0, branch_a := 0x10008,
                                      branch_b := 0x10004 }),
                          (0x10008, { address := 0x10008, size := 4294967292,
                                      branch_a := 0x10008, branch_b := 0x10004 })] }
    ∧ Function.step refDecoder imageBeq { address := 0x10000, size := 16 } 1073741824
        0x10004 [0x10008, 0x10004]
        [(0x10004, { address := 0x10004, size := 0, branch_a := 0x10008,
                     branch_b := 0x10004 }),
         (0x10008, { address := 0x10008, size := 4294967292,
                     branch_a := 0x10008, branch_b := 0x10004 })]
      = Run.done { labels := [0x10008, 0x10004],
                   blocks := [(0x10004, { address := 0x10004, size := 4, branch_a := 0,
                                          branch_b := 0 }),
                              (0x10008, { address := 0x10008, size := 4294967292,
                                          branch_a := 0x10008, branch_b := 0x10004 })] } := by
  have hstep1 := step_new_block refDecoder imageBeq { address := 0x10000, size := 16 }
    1073741824 0x10004 [] [] 4294967295 0x10000 0 0x41820008 [0x10008, 0x10004]
    { address := 0x10004, size := 0, branch_a := 0x10008, branch_b := 0x10004 }
    (by simp [Function.scanBlocks]) grow_beq_entry (by decide)
  have hstep2 := step_new_block refDecoder imageBeq { address := 0x10000, size := 16 }
    1073741824 0x10008 [0x10004]
    [(0x10004, { address := 0x10004, size := 0, branch_a := 0x10008, branch_b := 0x10004 })]
    4294967292 0x10000 4294967292 0x41820008 [0x10008, 0x10004]
    { address := 0x10008, size := 4294967292, branch_a := 0x10008, branch_b := 0x10004 }
    (by decide) grow_beq_second (by decide)
  refine ⟨?_, by decide⟩
  exact (iterate_of_step refDecoder imageBeq { address := 0x10000, size := 16 } 1073741824
    1 _ _ _ _ hstep1).trans
    ((iterate_of_step refDecoder imageBeq { address := 0x10000, size := 16 } 1073741824
      0 _ _ _ _ hstep2).trans rfl)

end cpu.ppu
